import Mathlib

/-!
# go-ips: the IPS record reader and patcher

A shallow embedding of `ips.go` (package `ips`): the record decoder
`RecordReader.Records` with its helpers, and `Patcher.PatchTo`.

Conventions of the embedding.

* A byte is a `Fin 256`; a Go `[]byte` whose backing array matters (the reusable
  `data` slice) is a `Slice`, every other byte sequence is a `List Byte`.
* Where it matters which array a slice points into (the reuse flag), the decoder
  is given a second time over a store of backing arrays (`RecordsMem`), with
  slices as references into the store, and shown to end as `Records` does.
* `int64` quantities (`off`, `size`, `left`, `wrote`) are unbounded numbers: the
  decoder only produces values below `2 ^ 24`, and the byte count of `PatchTo`
  would need more than `2 ^ 63` written bytes to wrap.
* A Go `error` is an `Option Error` (`none` is `nil`).
* The patch and the original file are `io.Reader`s over a finite byte sequence; a
  reader carries a schedule of chunk sizes, so that every way of splitting the
  stream into short reads is covered.
* Go loops are recursive functions over an explicit iteration budget; a function
  that exhausts its budget returns `none`.  The budgets are computed from the
  input, and the theorems that speak of a result show that it is a `some`.
-/

namespace Ips

set_option maxRecDepth 100000

/-! ## Bytes, errors, readers -/

abbrev Byte := Fin 256

/-- The error values that can reach a caller of the package: its own
`ErrInvalidMagic`, the sentinel errors of Go's `io` package, and any other
error value an output sink or a handler may produce. -/
inductive Error where
  | ErrInvalidMagic
  | EOF
  | ErrUnexpectedEOF
  | ErrShortBuffer
  | ErrShortWrite
  | errInvalidWrite
  | other (code : Nat)
  deriving DecidableEq, Repr

/-- An `io.Reader` over a finite byte sequence.  `sched` lists the largest number
of bytes the successive `Read` calls are willing to return (at least one byte is
always returned while data remains); once the schedule is used up a `Read`
returns as much as fits in the buffer. -/
structure Reader where
  data : List Byte
  sched : List Nat
  deriving DecidableEq, Repr

/-- `Read(p)` with `len(p) = k`: the bytes stored into `p[:n]`, the error and the
reader afterwards.  An exhausted reader returns `0, io.EOF`. -/
def Reader.Read (r : Reader) (k : Nat) : List Byte × Option Error × Reader :=
  match r.data with
  | [] => ([], some Error.EOF, r)
  | _ :: _ =>
    let n := min k (max 1 (r.sched.headD k))
    (r.data.take n, none, { data := r.data.drop n, sched := r.sched.tail })

/-- A reader that returns as many bytes as requested. -/
def Reader.ofBytes (bs : List Byte) : Reader := { data := bs, sched := [] }

/-- The Go sub-slice `s[lo:hi]`. -/
def slice (s : List Byte) (lo hi : Nat) : List Byte := (s.drop lo).take (hi - lo)

/-- Go's `copy(dst[pos:], src)` on the contents of `dst`: the first
`min (len dst - pos) (len src)` bytes of `src` replace the bytes of `dst` from
index `pos` on. -/
def copyAt (dst : List Byte) (pos : Nat) (src : List Byte) : List Byte :=
  let n := min (dst.length - pos) src.length
  dst.take pos ++ src.take n ++ dst.drop (pos + n)

/-- The loop of `io.ReadAtLeast`:
`for n < min && err == nil { nn, err = r.Read(buf[n:]); n += nn }`. -/
def ReadAtLeastLoop : Nat → Reader → List Byte → Nat → Nat → Option Error →
    Option (List Byte × Nat × Option Error × Reader)
  | fuel, r, buf, min, n, err =>
    if n < min ∧ err = none then
      match fuel with
      | 0 => none
      | fuel + 1 =>
        match r.Read (buf.length - n) with
        | (p, err1, r1) => ReadAtLeastLoop fuel r1 (copyAt buf n p) min (n + p.length) err1
    else some (buf, n, err, r)

/-- Go's `io.ReadAtLeast(r, buf, min)`. -/
def ReadAtLeast (r : Reader) (buf : List Byte) (min : Nat) :
    Option (List Byte × Nat × Option Error × Reader) :=
  if buf.length < min then some (buf, 0, some Error.ErrShortBuffer, r)
  else
    match ReadAtLeastLoop min r buf min 0 none with
    | none => none
    | some (buf1, n, err, r1) =>
      if n ≥ min then some (buf1, n, none, r1)
      else if n > 0 ∧ err = some Error.EOF then some (buf1, n, some Error.ErrUnexpectedEOF, r1)
      else some (buf1, n, err, r1)

/-- Go's `io.ReadFull(r, buf)`. -/
def ReadFull (r : Reader) (buf : List Byte) : Option (List Byte × Nat × Option Error × Reader) :=
  ReadAtLeast r buf buf.length

/-! ## The record reader -/

/-- The magic string `"PATCH"`. -/
def magic : List Byte := [80, 65, 84, 67, 72]

/-- The terminator `"EOF"`. -/
def eofMarker : List Byte := [69, 79, 70]

/-- An IPS data record. -/
structure Record where
  Offset : Nat
  Data : List Byte
  deriving DecidableEq, Repr

/-- A Go byte slice together with its backing array: `arr` is the array from the
start of the slice up to its capacity, `len` the length of the slice. -/
structure Slice where
  arr : List Byte
  len : Nat
  deriving DecidableEq, Repr

/-- The visible contents `s[0:len(s)]`. -/
def Slice.toList (s : Slice) : List Byte := s.arr.take s.len

/-- The capacity `cap(s)`. -/
def Slice.cap (s : Slice) : Nat := s.arr.length

/-- The nil slice (`var data []byte`). -/
def Slice.empty : Slice := { arr := [], len := 0 }

/-- The call `r.readFull(s)`: the contents of `s` afterwards, the error, the reader. -/
def readFull (r : Reader) (s : List Byte) : Option (List Byte × Option Error × Reader) :=
  match ReadFull r s with
  | none => none
  | some (s1, _, err, r1) => some (s1, err, r1)

/-- The call `r.checkHeader(s)`. -/
def checkHeader (r : Reader) (s : List Byte) : Option (List Byte × Option Error × Reader) :=
  match readFull r s with
  | none => none
  | some (s1, some err, r1) => some (s1, some err, r1)
  | some (s1, none, r1) =>
    if s1 = magic then some (s1, none, r1)
    else some (s1, some Error.ErrInvalidMagic, r1)

/-- The function `allocData`. -/
def allocData (reuse : Bool) (data : Slice) (size : Nat) : Slice :=
  if reuse && decide (data.cap ≥ size) then { arr := data.arr, len := size }
  else { arr := List.replicate size 0, len := size }

/-- The function `bytes3ToInt64`. -/
def bytes3ToInt64 (s : List Byte) : Nat :=
  ((s.getD 0 0).val <<< 16) ||| ((s.getD 1 0).val <<< 8) ||| (s.getD 2 0).val

/-- The function `bytes2ToInt64`. -/
def bytes2ToInt64 (s : List Byte) : Nat :=
  ((s.getD 0 0).val <<< 8) ||| (s.getD 1 0).val

/-- The RLE fill loop `for i := int64(0); i < size; i++ { data[i] = repeat }`; the
first argument is the number of iterations still to run, `size - i`. -/
def rleFill : Nat → Nat → Byte → Slice → Slice
  | 0, _, _, data => data
  | k + 1, i, rep, data => rleFill k (i + 1) rep { data with arr := data.arr.set i rep }

/-- The literal read loop `for left != 0 { ... }` (lines 142-154): the error it
returns with (if any), the scratch buffer, the data slice and the reader. -/
def literalLoop : Nat → Reader → List Byte → Slice → Nat → Nat →
    Option (Option Error × List Byte × Slice × Reader)
  | fuel, r, buf, data, size, left =>
    if left ≠ 0 then
      match fuel with
      | 0 => none
      | fuel + 1 =>
        match (if left > buf.length then r.Read buf.length else r.Read left) with
        | (p, some err, r1) => some (some err, copyAt buf 0 p, data, r1)
        | (p, none, r1) =>
          let buf1 := copyAt buf 0 p
          let data1 : Slice :=
            { data with arr := copyAt (data.arr.take data.len) (size - left) (buf1.take p.length)
                                ++ data.arr.drop data.len }
          literalLoop fuel r1 buf1 data1 size (left - p.length)
    else some (none, buf, data, r)

/-- What one pass through the body of the decode loop (lines 111-155) ends in. -/
inductive Step where
  | done (r : Reader)
  | fail (err : Error) (r : Reader)
  | emit (off : Nat) (data : Slice) (buf : List Byte) (r : Reader)
  deriving DecidableEq, Repr

/-- The body of the decode loop up to the call of the handler (lines 111-155).
`buf` is the 512-byte scratch array, of which `hdr` is the first five bytes. -/
def decodeRecord (reuseDataSlice : Bool) (r : Reader) (buf : List Byte) (data : Slice) :
    Option Step :=
  -- read record header
  match readFull r (slice buf 0 3) with
  | none => none
  | some (_, some err, r1) => some (Step.fail err r1)
  | some (h, none, r1) =>
    let buf1 := copyAt buf 0 h
    if slice buf1 0 3 = eofMarker then some (Step.done r1)
    else
      match readFull r1 (slice buf1 3 5) with
      | none => none
      | some (_, some err, r2) => some (Step.fail err r2)
      | some (h2, none, r2) =>
        let buf2 := copyAt buf1 3 h2
        let off := bytes3ToInt64 (slice buf2 0 3)
        let size := bytes2ToInt64 (slice buf2 3 5)
        if size = 0 then
          -- RLE encoded; the error of this read is not looked at
          match readFull r2 (slice buf2 0 3) with
          | none => none
          | some (h3, _, r3) =>
            let buf3 := copyAt buf2 0 h3
            let size := bytes2ToInt64 (slice buf3 0 2)
            let data1 := allocData reuseDataSlice data size
            let rep := buf3.getD 2 0
            some (Step.emit off (rleFill size 0 rep data1) buf3 r3)
        else
          let data1 := allocData reuseDataSlice data size
          match literalLoop size r2 buf2 data1 size size with
          | none => none
          | some (some err, _, _, r3) => some (Step.fail err r3)
          | some (none, buf3, data2, r3) => some (Step.emit off data2 buf3 r3)

/-- The decode loop `for { ... }` of `Records` (lines 110-165).  The handler is a
function on the state `σ` it closes over; it returns the new state and its error. -/
def RecordsLoop {σ : Type} (reuseDataSlice : Bool) (handle : σ → Record → σ × Option Error) :
    Nat → Reader → List Byte → Slice → σ → Option (σ × Option Error × Reader)
  | 0, _, _, _, _ => none
  | fuel + 1, r, buf, data, s =>
    match decodeRecord reuseDataSlice r buf data with
    | none => none
    | some (Step.done r1) => some (s, none, r1)
    | some (Step.fail err r1) => some (s, some err, r1)
    | some (Step.emit off data1 buf1 r1) =>
      -- handle new record
      match handle s { Offset := off, Data := data1.toList } with
      | (s1, some err) => some (s1, some err, r1)
      | (s1, none) => RecordsLoop reuseDataSlice handle fuel r1 buf1 data1 s1

/-- The method `RecordReader.Records` on the reader `r.patch`: the state of the
handler afterwards, the error returned, and the patch reader afterwards. -/
def Records {σ : Type} (r : Reader) (reuseDataSlice : Bool)
    (handle : σ → Record → σ × Option Error) (s : σ) : Option (σ × Option Error × Reader) :=
  let buf : List Byte := List.replicate 512 0
  match checkHeader r (slice buf 0 5) with
  | none => none
  | some (_, some err, r1) => some (s, some err, r1)
  | some (hdr, none, r1) =>
    RecordsLoop reuseDataSlice handle (r1.data.length + 1) r1 (copyAt buf 0 hdr) Slice.empty s

/-- A handler that accepts every record and keeps the records it was called
with, in order. -/
def collect (acc : List Record) (rec : Record) : List Record × Option Error :=
  (acc ++ [rec], none)

/-! ## The patcher -/

/-- An `io.WriteSeeker` with state `ω`.  `Seek` is only ever called with
`io.SeekStart`; `Write` returns the count `n` and the error. -/
structure WriteSeeker (ω : Type) where
  Seek : ω → Nat → ω × Option Error
  Write : ω → List Byte → ω × Int × Option Error

/-- The loop of Go's `io.Copy(dst, src)` with its 32 KiB buffer. -/
def CopyLoop {ω : Type} (dstW : WriteSeeker ω) :
    Nat → Reader → ω → Int → Option (ω × Int × Option Error × Reader)
  | 0, _, _, _ => none
  | fuel + 1, src, dst, written =>
    match src.Read 32768 with
    | (p, er, src1) =>
      let w : ω × Int × Option Error × Bool :=
        if p.length > 0 then
          match dstW.Write dst p with
          | (dst1, nw, ew) =>
            let bad : Bool := decide (nw < 0 ∨ (p.length : Int) < nw)
            let nw1 : Int := if bad then 0 else nw
            let ew1 : Option Error :=
              if bad then (if ew = none then some Error.errInvalidWrite else ew) else ew
            match ew1 with
            | some e => (dst1, written + nw1, some e, true)
            | none =>
              if (p.length : Int) ≠ nw1 then (dst1, written + nw1, some Error.ErrShortWrite, true)
              else (dst1, written + nw1, none, false)
        else (dst, written, none, false)
      match w with
      | (dst1, written1, err, true) => some (dst1, written1, err, src1)
      | (dst1, written1, _, false) =>
        match er with
        | some e => some (dst1, written1, if e = Error.EOF then none else some e, src1)
        | none => CopyLoop dstW fuel src1 dst1 written1

/-- Go's `io.Copy(dst, src)`. -/
def Copy {ω : Type} (dstW : WriteSeeker ω) (dst : ω) (src : Reader) :
    Option (ω × Int × Option Error × Reader) :=
  CopyLoop dstW (src.data.length + 1) src dst 0

/-- An IPS object capable of applying a patch to a file. -/
structure Patcher where
  patch : Reader
  file : Reader

/-- The function `NewPatcher`. -/
def NewPatcher (patch file : Reader) : Patcher := { patch := patch, file := file }

/-- The closure handed to `Records` by `PatchTo` (lines 50-61); its state is the
sink together with the variable `wrote`. -/
def patchHandler {ω : Type} (dstW : WriteSeeker ω) (s : ω × Int) (rec : Record) :
    (ω × Int) × Option Error :=
  match dstW.Seek s.1 rec.Offset with
  | (dst1, some err) => ((dst1, s.2), some err)
  | (dst1, none) =>
    match dstW.Write dst1 rec.Data with
    | (dst2, _, some err) => ((dst2, s.2), some err)
    | (dst2, n, none) => ((dst2, s.2 + n), none)

/-- The method `Patcher.PatchTo`: the sink afterwards, the count and the error. -/
def PatchTo {ω : Type} (dstW : WriteSeeker ω) (p : Patcher) (dstFile : ω) :
    Option (ω × Int × Option Error) :=
  -- copy data over...
  match Copy dstW dstFile p.file with
  | none => none
  | some (dst1, _, some err, _) => some (dst1, 0, some err)
  | some (dst1, _, none, _) =>
    -- now start patching
    match Records p.patch true (patchHandler dstW) (dst1, (0 : Int)) with
    | none => none
    | some ((dst2, _), some err, _) => some (dst2, 0, some err)
    | some ((dst2, wrote), none, _) => some (dst2, wrote, none)

/-! ## An in-memory output file -/

/-- A regular file held in memory: its contents and the position of the next
write. -/
structure MemFile where
  data : List Byte
  pos : Nat
  deriving DecidableEq, Repr

/-- A fresh, empty file. -/
def MemFile.fresh : MemFile := { data := [], pos := 0 }

/-- Writing `p` at distance `pos` from the start of contents `d`: a gap between
the old end and `pos` reads as zero bytes, and a write of no bytes changes
nothing. -/
def writeAt (d : List Byte) (pos : Nat) (p : List Byte) : List Byte :=
  if p = [] then d
  else
    let padded := d ++ List.replicate (pos - d.length) 0
    padded.take pos ++ p ++ padded.drop (pos + p.length)

/-- The in-memory file as an `io.WriteSeeker`: neither operation fails, and
`Write` writes all of its argument. -/
def memSink : WriteSeeker MemFile where
  Seek := fun f off => ({ f with pos := off }, none)
  Write := fun f p => ({ data := writeAt f.data f.pos p, pos := f.pos + p.length }, p.length, none)

/-! ## The wire format -/

/-- The three big-endian bytes of an offset. -/
def be3 (o : Nat) : List Byte :=
  [⟨o / 65536 % 256, Nat.mod_lt _ (by decide)⟩, ⟨o / 256 % 256, Nat.mod_lt _ (by decide)⟩,
   ⟨o % 256, Nat.mod_lt _ (by decide)⟩]

/-- The two big-endian bytes of a size or a repeat count. -/
def be2 (n : Nat) : List Byte :=
  [⟨n / 256 % 256, Nat.mod_lt _ (by decide)⟩, ⟨n % 256, Nat.mod_lt _ (by decide)⟩]

/-- A record as the patch format describes it: a literal record carries its
payload, an RLE record a repeat count and a fill byte. -/
inductive WireRecord where
  | literal (off : Nat) (data : List Byte)
  | rle (off : Nat) (count : Nat) (fill : Byte)
  deriving DecidableEq, Repr

/-- The offset of a record. -/
def WireRecord.off : WireRecord → Nat
  | WireRecord.literal off _ => off
  | WireRecord.rle off _ _ => off

/-- The wire encoding of a record: offset (3 bytes), size (2 bytes), then the
payload; for an RLE record the size field is zero and is followed by the
repeat count (2 bytes) and the fill byte. -/
def WireRecord.encode : WireRecord → List Byte
  | WireRecord.literal off data => be3 off ++ be2 data.length ++ data
  | WireRecord.rle off count fill => be3 off ++ [0, 0] ++ be2 count ++ [fill]

/-- The write a record stands for. -/
def WireRecord.toRecord : WireRecord → Record
  | WireRecord.literal off data => { Offset := off, Data := data }
  | WireRecord.rle off count fill => { Offset := off, Data := List.replicate count fill }

/-- The ranges of the fields: a 24-bit offset, a literal payload of 1 to 65535
bytes, a repeat count of at most 65535. -/
def WireRecord.WellFormed : WireRecord → Prop
  | WireRecord.literal off data => off < 16777216 ∧ 1 ≤ data.length ∧ data.length ≤ 65535
  | WireRecord.rle off count _ => off < 16777216 ∧ count ≤ 65535

instance (w : WireRecord) : Decidable w.WellFormed := by
  cases w <;> unfold WireRecord.WellFormed <;> infer_instance

/-- The offset field of the record is not the three bytes `"EOF"`. -/
def WireRecord.NotEOF (w : WireRecord) : Prop := be3 w.off ≠ eofMarker

instance (w : WireRecord) : Decidable w.NotEOF := by
  unfold WireRecord.NotEOF; infer_instance

/-- The encodings of a list of records, one after the other. -/
def encodeAll : List WireRecord → List Byte
  | [] => []
  | w :: ws => w.encode ++ encodeAll ws

/-- The handler run over a list of records, as the decode loop does it: it stops
at the first record for which the handler returns an error. -/
def runHandler {σ : Type} (handle : σ → Record → σ × Option Error) : σ → List Record → σ × Option Error
  | s, [] => (s, none)
  | s, rec :: recs =>
    match handle s rec with
    | (s1, some err) => (s1, some err)
    | (s1, none) => runHandler handle s1 recs

/-- Position `i` lies in the range a record writes. -/
def covers (rec : Record) (i : Nat) : Prop := rec.Offset ≤ i ∧ i < rec.Offset + rec.Data.length

instance (rec : Record) (i : Nat) : Decidable (covers rec i) := by
  unfold covers; infer_instance


/-- The contents of a file after the records have been written over it, one after
the other. -/
def applyRecords (d : List Byte) (recs : List Record) : List Byte :=
  recs.foldl (fun d rec => writeAt d rec.Offset rec.Data) d


/-! ## The decoder as a function of the bytes of the stream -/

/-- What one pass through the body of the decode loop ends in, in terms of the
bytes of the stream alone: the end of the patch, an error, or a record; each
with the bytes left unread. -/
inductive ByteStep where
  | done (rest : List Byte)
  | fail (err : Error) (rest : List Byte)
  | emit (rec : Record) (rest : List Byte)
  deriving DecidableEq, Repr

/-- What a pass of `decodeRecord` shows to the outside: the record handed out and
the bytes left in the reader; the scratch buffer, the capacity of the data
slice and the read schedule are dropped. -/
def Step.abs : Step → ByteStep
  | Step.done r => ByteStep.done r.data
  | Step.fail err r => ByteStep.fail err r.data
  | Step.emit off data _ r => ByteStep.emit { Offset := off, Data := data.toList } r.data

/-- The body of the decode loop read off the bytes `bs` still in the stream.
Fewer than three bytes, or three or four bytes that do not start with `"EOF"`,
are a failed header read.  A zero size field is followed by a read of three
bytes whose error is not looked at: `hdr3` is what the header buffer holds
afterwards, the bytes that could be read followed by what is left of the
offset bytes.  A non-zero size field is followed by that many payload bytes,
or by `io.EOF` if the stream ends before. -/
def stepOnBytes (bs : List Byte) : ByteStep :=
  if bs.length < 3 then
    ByteStep.fail (if bs = [] then Error.EOF else Error.ErrUnexpectedEOF) []
  else if bs.take 3 = eofMarker then ByteStep.done (bs.drop 3)
  else if bs.length < 5 then
    ByteStep.fail (if bs.length = 3 then Error.EOF else Error.ErrUnexpectedEOF) []
  else
    let off := bytes3ToInt64 (bs.take 3)
    let size := bytes2ToInt64 (slice bs 3 5)
    let body := bs.drop 5
    if size = 0 then
      let hdr3 := body.take 3 ++ (bs.take 3).drop body.length
      ByteStep.emit
        { Offset := off, Data := List.replicate (bytes2ToInt64 (hdr3.take 2)) (hdr3.getD 2 0) }
        (body.drop 3)
    else if body.length < size then ByteStep.fail Error.EOF []
    else ByteStep.emit { Offset := off, Data := body.take size } (body.drop size)

/-- The decode loop read off the bytes of the stream: `stepOnBytes` repeated, the
handler called on every record, until the end of the patch, an error of the
decoder or an error of the handler. -/
def loopOnBytes {σ : Type} (handle : σ → Record → σ × Option Error) :
    Nat → List Byte → σ → Option (σ × Option Error × List Byte)
  | 0, _, _ => none
  | fuel + 1, bs, s =>
    match stepOnBytes bs with
    | ByteStep.done rest => some (s, none, rest)
    | ByteStep.fail err rest => some (s, some err, rest)
    | ByteStep.emit rec rest =>
      match handle s rec with
      | (s1, some err) => some (s1, some err, rest)
      | (s1, none) => loopOnBytes handle fuel rest s1

/-- `Records` read off the bytes of the stream: the header check, then the decode
loop. -/
def recordsOnBytes {σ : Type} (handle : σ → Record → σ × Option Error) (bs : List Byte) (s : σ) :
    Option (σ × Option Error × List Byte) :=
  if bs.length < 5 then
    some (s, some (if bs = [] then Error.EOF else Error.ErrUnexpectedEOF), [])
  else if bs.take 5 = magic then loopOnBytes handle ((bs.drop 5).length + 1) (bs.drop 5) s
  else some (s, some Error.ErrInvalidMagic, bs.drop 5)

/-- The result of `Records` with the reader replaced by the bytes left in it. -/
def outcome {σ : Type} (res : Option (σ × Option Error × Reader)) :
    Option (σ × Option Error × List Byte) :=
  res.map (fun x => (x.1, x.2.1, x.2.2.data))


/-- A handler wrapped so that every invocation is recorded: the wrapped state
carries the list of the records the handler has been called with, whether it
accepted them or not. -/
def withLog {σ : Type} (handle : σ → Record → σ × Option Error) (s : σ × List Record)
    (rec : Record) : (σ × List Record) × Option Error :=
  (((handle s.1 rec).1, s.2 ++ [rec]), (handle s.1 rec).2)


/-- An in-memory file of bounded size as an `io.WriteSeeker`: a write that would
end beyond `limit` fails with an error of the device and writes nothing. -/
def limitedSink (limit : Nat) : WriteSeeker MemFile where
  Seek := fun f off => ({ f with pos := off }, none)
  Write := fun f p =>
    if f.pos + p.length ≤ limit then
      ({ data := writeAt f.data f.pos p, pos := f.pos + p.length }, p.length, none)
    else (f, 0, some (Error.other 28))


/-! ## The decoder with Go's range checks -/

/-- The result of Go code in which an index or slice expression may be out of
range: a value, or the run-time panic. -/
inductive Checked (α : Type) where
  | ok (a : α)
  | panic
  deriving DecidableEq, Repr

/-- The function `allocData` with the range check of `data[:size]`. -/
def allocDataChecked (reuse : Bool) (data : Slice) (size : Nat) : Checked Slice :=
  if reuse && decide (data.cap ≥ size) then
    -- data[:size] needs size <= cap(data)
    if size ≤ data.cap then Checked.ok { arr := data.arr, len := size } else Checked.panic
  else Checked.ok { arr := List.replicate size 0, len := size }

/-- The RLE fill loop with the range check of `data[i]`. -/
def rleFillChecked : Nat → Nat → Byte → Slice → Checked Slice
  | 0, _, _, data => Checked.ok data
  | k + 1, i, rep, data =>
    -- data[i] needs i < len(data)
    if i < data.len then rleFillChecked k (i + 1) rep { data with arr := data.arr.set i rep }
    else Checked.panic

/-- The literal read loop with its range checks.  `size` and `left` are the
signed `int64` variables of the source: `buf[:left]` needs `0 <= left <= 512`,
`buf[:n]` needs `n <= 512`, and `data[size-left:]` needs
`0 <= size-left <= len(data)`. -/
def literalLoopChecked : Nat → Reader → List Byte → Slice → Int → Int →
    Option (Checked (Option Error × List Byte × Slice × Reader))
  | fuel, r, buf, data, size, left =>
    if left ≠ 0 then
      match fuel with
      | 0 => none
      | fuel + 1 =>
        let req : Checked Nat :=
          if left > (buf.length : Int) then Checked.ok buf.length
          else if 0 ≤ left ∧ left ≤ (buf.length : Int) then Checked.ok left.toNat
          else Checked.panic
        match req with
        | Checked.panic => some Checked.panic
        | Checked.ok k =>
          match r.Read k with
          | (p, some err, r1) => some (Checked.ok (some err, copyAt buf 0 p, data, r1))
          | (p, none, r1) =>
            let buf1 := copyAt buf 0 p
            if p.length ≤ buf.length ∧ 0 ≤ size - left ∧ size - left ≤ (data.len : Int) then
              let data1 : Slice :=
                { data with arr := copyAt (data.arr.take data.len) (size - left).toNat
                                      (buf1.take p.length) ++ data.arr.drop data.len }
              literalLoopChecked fuel r1 buf1 data1 size (left - (p.length : Int))
            else some Checked.panic
    else some (Checked.ok (none, buf, data, r))

/-- The body of the decode loop with its range checks; the slices `hdr[:3]`,
`hdr[3:5]`, `hdr[:2]` and the index `hdr[2]` need the five bytes of `hdr`. -/
def decodeRecordChecked (reuseDataSlice : Bool) (r : Reader) (buf : List Byte) (data : Slice) :
    Option (Checked Step) :=
  if 5 ≤ buf.length then
    match readFull r (slice buf 0 3) with
    | none => none
    | some (_, some err, r1) => some (Checked.ok (Step.fail err r1))
    | some (h, none, r1) =>
      let buf1 := copyAt buf 0 h
      if slice buf1 0 3 = eofMarker then some (Checked.ok (Step.done r1))
      else
        match readFull r1 (slice buf1 3 5) with
        | none => none
        | some (_, some err, r2) => some (Checked.ok (Step.fail err r2))
        | some (h2, none, r2) =>
          let buf2 := copyAt buf1 3 h2
          let off := bytes3ToInt64 (slice buf2 0 3)
          let size := bytes2ToInt64 (slice buf2 3 5)
          if size = 0 then
            match readFull r2 (slice buf2 0 3) with
            | none => none
            | some (h3, _, r3) =>
              let buf3 := copyAt buf2 0 h3
              let size := bytes2ToInt64 (slice buf3 0 2)
              match allocDataChecked reuseDataSlice data size with
              | Checked.panic => some Checked.panic
              | Checked.ok data1 =>
                let rep := buf3.getD 2 0
                match rleFillChecked size 0 rep data1 with
                | Checked.panic => some Checked.panic
                | Checked.ok data2 => some (Checked.ok (Step.emit off data2 buf3 r3))
          else
            match allocDataChecked reuseDataSlice data size with
            | Checked.panic => some Checked.panic
            | Checked.ok data1 =>
              match literalLoopChecked size r2 buf2 data1 (size : Int) (size : Int) with
              | none => none
              | some Checked.panic => some Checked.panic
              | some (Checked.ok (some err, _, _, r3)) => some (Checked.ok (Step.fail err r3))
              | some (Checked.ok (none, buf3, data2, r3)) =>
                some (Checked.ok (Step.emit off data2 buf3 r3))
  else some Checked.panic

/-- The decode loop with the range checks of its body. -/
def RecordsLoopChecked {σ : Type} (reuseDataSlice : Bool)
    (handle : σ → Record → σ × Option Error) :
    Nat → Reader → List Byte → Slice → σ → Option (Checked (σ × Option Error × Reader))
  | 0, _, _, _, _ => none
  | fuel + 1, r, buf, data, s =>
    match decodeRecordChecked reuseDataSlice r buf data with
    | none => none
    | some Checked.panic => some Checked.panic
    | some (Checked.ok (Step.done r1)) => some (Checked.ok (s, none, r1))
    | some (Checked.ok (Step.fail err r1)) => some (Checked.ok (s, some err, r1))
    | some (Checked.ok (Step.emit off data1 buf1 r1)) =>
      match handle s { Offset := off, Data := data1.toList } with
      | (s1, some err) => some (Checked.ok (s1, some err, r1))
      | (s1, none) => RecordsLoopChecked reuseDataSlice handle fuel r1 buf1 data1 s1

/-- The method `Records` with the range checks of its index and slice
expressions; `hdr := buf[:5]` needs five bytes in `buf`. -/
def RecordsChecked {σ : Type} (r : Reader) (reuseDataSlice : Bool)
    (handle : σ → Record → σ × Option Error) (s : σ) :
    Option (Checked (σ × Option Error × Reader)) :=
  let buf : List Byte := List.replicate 512 0
  if 5 ≤ buf.length then
    match checkHeader r (slice buf 0 5) with
    | none => none
    | some (_, some err, r1) => some (Checked.ok (s, some err, r1))
    | some (hdr, none, r1) =>
      RecordsLoopChecked reuseDataSlice handle (r1.data.length + 1) r1 (copyAt buf 0 hdr)
        Slice.empty s
  else some Checked.panic


/-! ## The decoder over a store of backing arrays -/

/-- The backing arrays allocated so far, by number.  Array 0 is the array without
bytes: the nil slice refers to it, and so does every slice `make` returns for
the size 0 (Go hands out one address for all allocations of size 0). -/
abbrev Store := List (List Byte)

/-- The store `Records` starts in: only the array without bytes. -/
def Store.start : Store := [[]]

/-- A Go byte slice as a reference into the store: the number of its backing
array and its length.  The data slices of the decoder all start where their
array starts, so the capacity of a slice is the length of its array. -/
structure SliceRef where
  addr : Nat
  len : Nat
  deriving DecidableEq, Repr

/-- The nil slice (`var data []byte`). -/
def SliceRef.null : SliceRef := { addr := 0, len := 0 }

/-- The capacity `cap(d)` in the store `m`. -/
def SliceRef.cap (d : SliceRef) (m : Store) : Nat := (m.getD d.addr []).length

/-- The contents `d[0:len(d)]` as they are in the store `m`. -/
def SliceRef.bytes (d : SliceRef) (m : Store) : List Byte := (m.getD d.addr []).take d.len

/-- The slice together with its backing array as it is in the store `m`. -/
def SliceRef.view (d : SliceRef) (m : Store) : Slice := { arr := m.getD d.addr [], len := d.len }

/-- Go's `make([]byte, size)`: a new array of `size` zero bytes, after all arrays
there are; for the size 0 no array is allocated. -/
def makeBytes (m : Store) (size : Nat) : Store × SliceRef :=
  if size = 0 then (m, { addr := 0, len := 0 })
  else (m ++ [List.replicate size 0], { addr := m.length, len := size })

/-- The function `allocData` over the store: `data[:size]` is the same array with
another length, `make` a new array. -/
def allocDataMem (reuse : Bool) (m : Store) (data : SliceRef) (size : Nat) : Store × SliceRef :=
  if reuse && decide (data.cap m ≥ size) then (m, { addr := data.addr, len := size })
  else makeBytes m size

/-- The RLE fill loop over the store: `data[i] = repeat` writes into the array
behind `data`. -/
def rleFillMem : Nat → Nat → Byte → Store → SliceRef → Store
  | 0, _, _, m, _ => m
  | k + 1, i, rep, m, data =>
    rleFillMem k (i + 1) rep (m.set data.addr ((m.getD data.addr []).set i rep)) data

/-- The literal read loop over the store: `copy(data[size-left:], buf[:n])` writes
into the array behind `data`. -/
def literalLoopMem : Nat → Reader → List Byte → Store → SliceRef → Nat → Nat →
    Option (Option Error × List Byte × Store × Reader)
  | fuel, r, buf, m, data, size, left =>
    if left ≠ 0 then
      match fuel with
      | 0 => none
      | fuel + 1 =>
        match (if left > buf.length then r.Read buf.length else r.Read left) with
        | (p, some err, r1) => some (some err, copyAt buf 0 p, m, r1)
        | (p, none, r1) =>
          let buf1 := copyAt buf 0 p
          let arr := m.getD data.addr []
          let m1 := m.set data.addr
            (copyAt (arr.take data.len) (size - left) (buf1.take p.length) ++ arr.drop data.len)
          literalLoopMem fuel r1 buf1 m1 data size (left - p.length)
    else some (none, buf, m, r)

/-- What one pass through the body of the decode loop ends in, with the store. -/
inductive StepMem where
  | done (m : Store) (r : Reader)
  | fail (err : Error) (m : Store) (r : Reader)
  | emit (off : Nat) (data : SliceRef) (m : Store) (buf : List Byte) (r : Reader)
  deriving DecidableEq, Repr

/-- The body of the decode loop up to the call of the handler (lines 111-155) over
the store: as `decodeRecord`, with `data` a reference into the store. -/
def decodeRecordMem (reuseDataSlice : Bool) (r : Reader) (buf : List Byte) (m : Store)
    (data : SliceRef) : Option StepMem :=
  match readFull r (slice buf 0 3) with
  | none => none
  | some (_, some err, r1) => some (StepMem.fail err m r1)
  | some (h, none, r1) =>
    let buf1 := copyAt buf 0 h
    if slice buf1 0 3 = eofMarker then some (StepMem.done m r1)
    else
      match readFull r1 (slice buf1 3 5) with
      | none => none
      | some (_, some err, r2) => some (StepMem.fail err m r2)
      | some (h2, none, r2) =>
        let buf2 := copyAt buf1 3 h2
        let off := bytes3ToInt64 (slice buf2 0 3)
        let size := bytes2ToInt64 (slice buf2 3 5)
        if size = 0 then
          match readFull r2 (slice buf2 0 3) with
          | none => none
          | some (h3, _, r3) =>
            let buf3 := copyAt buf2 0 h3
            let size := bytes2ToInt64 (slice buf3 0 2)
            let a := allocDataMem reuseDataSlice m data size
            let rep := buf3.getD 2 0
            some (StepMem.emit off a.2 (rleFillMem size 0 rep a.1 a.2) buf3 r3)
        else
          let a := allocDataMem reuseDataSlice m data size
          match literalLoopMem size r2 buf2 a.1 a.2 size size with
          | none => none
          | some (some err, _, m2, r3) => some (StepMem.fail err m2 r3)
          | some (none, buf3, m2, r3) => some (StepMem.emit off a.2 m2 buf3 r3)

/-- A record as Go hands it to the handler: the offset and the slice `Data`. -/
structure RecordRef where
  Offset : Nat
  Data : SliceRef
  deriving DecidableEq, Repr

/-- The decode loop of `Records` over the store.  The handler is given the store
as it is at the time of the call, to read the bytes of `Data`, and of slices it
has kept, from. -/
def RecordsLoopMem {σ : Type} (reuseDataSlice : Bool)
    (handle : σ → Store → RecordRef → σ × Option Error) :
    Nat → Reader → List Byte → Store → SliceRef → σ → Option (σ × Option Error × Store × Reader)
  | 0, _, _, _, _, _ => none
  | fuel + 1, r, buf, m, data, s =>
    match decodeRecordMem reuseDataSlice r buf m data with
    | none => none
    | some (StepMem.done m1 r1) => some (s, none, m1, r1)
    | some (StepMem.fail err m1 r1) => some (s, some err, m1, r1)
    | some (StepMem.emit off data1 m1 buf1 r1) =>
      match handle s m1 { Offset := off, Data := data1 } with
      | (s1, some err) => some (s1, some err, m1, r1)
      | (s1, none) => RecordsLoopMem reuseDataSlice handle fuel r1 buf1 m1 data1 s1

/-- The method `RecordReader.Records` over the store: the state of the handler,
the error returned, the store and the patch reader afterwards. -/
def RecordsMem {σ : Type} (r : Reader) (reuseDataSlice : Bool)
    (handle : σ → Store → RecordRef → σ × Option Error) (s : σ) :
    Option (σ × Option Error × Store × Reader) :=
  let buf : List Byte := List.replicate 512 0
  match checkHeader r (slice buf 0 5) with
  | none => none
  | some (_, some err, r1) => some (s, some err, Store.start, r1)
  | some (hdr, none, r1) =>
    RecordsLoopMem reuseDataSlice handle (r1.data.length + 1) r1 (copyAt buf 0 hdr) Store.start
      SliceRef.null s

/-- A handler that only inspects each record during its own invocation: it reads
the bytes of `Data` from the store at the time of the call and keeps no slice. -/
def inspect {σ : Type} (handle : σ → Record → σ × Option Error) (s : σ) (m : Store)
    (rec : RecordRef) : σ × Option Error :=
  handle s { Offset := rec.Offset, Data := rec.Data.bytes m }

/-- A record as a handler that keeps it holds on to it: the record with its slice,
and the store as it was when the handler was called with it. -/
structure Delivery where
  record : RecordRef
  mem : Store
  deriving DecidableEq, Repr

/-- The record with the bytes of `Data` as they were at the time of the call. -/
def Delivery.toRecord (d : Delivery) : Record :=
  { Offset := d.record.Offset, Data := d.record.Data.bytes d.mem }

/-- A handler that accepts every record and keeps the slices it was given. -/
def retain (acc : List Delivery) (m : Store) (rec : RecordRef) : List Delivery × Option Error :=
  (acc ++ [{ record := rec, mem := m }], none)


/-- The step with the store dropped and the data slice given with its array. -/
def StepMem.view : StepMem → Step
  | StepMem.done _ r => Step.done r
  | StepMem.fail err _ r => Step.fail err r
  | StepMem.emit off data m buf r => Step.emit off (data.view m) buf r

/-- The store after the step. -/
def StepMem.store : StepMem → Store
  | StepMem.done m _ => m
  | StepMem.fail _ m _ => m
  | StepMem.emit _ _ m _ _ => m

/-- The slice `d` refers to an array of the store `m`, and array 0 has no bytes. -/
def WellPlaced (m : Store) (d : SliceRef) : Prop := m.getD 0 [] = [] ∧ d.addr < m.length

instance (m : Store) (d : SliceRef) : Decidable (WellPlaced m d) := by
  unfold WellPlaced; infer_instance


/-! ## Readers and the helpers of the decoder -/

theorem bytes3_eq (a b c : Byte) :
    bytes3ToInt64 [a, b, c] = a.val * 65536 + b.val * 256 + c.val := by
  have hb : b.val < 256 := b.isLt
  have hc : c.val < 256 := c.isLt
  have h1 : 2 ^ 8 * b.val < 2 ^ 16 := by omega
  have e1 : 2 ^ 16 * a.val ||| 2 ^ 8 * b.val = 2 ^ 16 * a.val + 2 ^ 8 * b.val :=
    (Nat.mul_add_lt_is_or h1 a.val).symm
  have h2 : c.val < 2 ^ 8 := by omega
  have e2 : 2 ^ 8 * (2 ^ 8 * a.val + b.val) ||| c.val = 2 ^ 8 * (2 ^ 8 * a.val + b.val) + c.val :=
    (Nat.mul_add_lt_is_or h2 _).symm
  simp only [bytes3ToInt64, List.getD_cons_zero, List.getD_cons_succ, Nat.shiftLeft_eq]
  rw [Nat.mul_comm a.val, Nat.mul_comm b.val, e1]
  have e3 : 2 ^ 16 * a.val + 2 ^ 8 * b.val = 2 ^ 8 * (2 ^ 8 * a.val + b.val) := by ring
  rw [e3, e2]

theorem bytes2_eq (a b : Byte) : bytes2ToInt64 [a, b] = a.val * 256 + b.val := by
  have hb : b.val < 2 ^ 8 := b.isLt
  have e1 : 2 ^ 8 * a.val ||| b.val = 2 ^ 8 * a.val + b.val := (Nat.mul_add_lt_is_or hb a.val).symm
  simp only [bytes2ToInt64, List.getD_cons_zero, List.getD_cons_succ, Nat.shiftLeft_eq]
  rw [Nat.mul_comm a.val, e1]

theorem Read_nil (r : Reader) (k : Nat) (h : r.data = []) :
    r.Read k = ([], some Error.EOF, r) := by
  simp [Reader.Read, h]

theorem Read_cons (r : Reader) (k : Nat) (hk : 1 ≤ k) (h : r.data ≠ []) :
    ∃ p r1, r.Read k = (p, none, r1) ∧ 1 ≤ p.length ∧ p.length ≤ k ∧ r.data = p ++ r1.data := by
  cases hd : r.data with
  | nil => exact absurd hd h
  | cons x xs =>
    refine ⟨(x :: xs).take (min k (max 1 (r.sched.headD k))),
      { data := (x :: xs).drop (min k (max 1 (r.sched.headD k))), sched := r.sched.tail },
      ?_, ?_, ?_, ?_⟩
    · simp only [Reader.Read, hd]
    · simp only [List.length_take, List.length_cons]; omega
    · simp only [List.length_take, List.length_cons]; omega
    · exact (List.take_append_drop _ _).symm

theorem append_split {α : Type} (p q xs rest : List α) (h : p ++ q = xs ++ rest)
    (hl : p.length ≤ xs.length) : ∃ ys, xs = p ++ ys ∧ q = ys ++ rest := by
  rcases List.append_eq_append_iff.mp h with ⟨a, h1, h2⟩ | ⟨c, h1, h2⟩
  · exact ⟨a, h1, h2⟩
  · have hc : c = [] := by
      have := congrArg List.length h1
      simp only [List.length_append] at this
      exact List.eq_nil_of_length_eq_zero (by omega)
    subst hc
    exact ⟨[], by simpa using h1.symm, by simpa using h2.symm⟩

theorem copyAt_append (done todo p : List Byte) (h : p.length ≤ todo.length) :
    copyAt (done ++ todo) done.length p = done ++ p ++ todo.drop p.length := by
  simp only [copyAt, List.length_append]
  have e : min (done.length + todo.length - done.length) p.length = p.length := by omega
  rw [e, List.take_left, List.take_of_length_le (Nat.le_refl _), List.drop_append]

theorem ReadAtLeastLoop_ok (fuel : Nat) : ∀ (r : Reader) (done todo xs rest : List Byte),
    r.data = xs ++ rest → todo.length = xs.length → xs.length ≤ fuel →
    ∃ r1, ReadAtLeastLoop fuel r (done ++ todo) (done.length + todo.length) done.length none
        = some (done ++ xs, done.length + todo.length, none, r1) ∧ r1.data = rest := by
  induction fuel with
  | zero =>
    intro r done todo xs rest hd ht hf
    have hx : xs = [] := List.eq_nil_of_length_eq_zero (by omega)
    have ht0 : todo = [] := List.eq_nil_of_length_eq_zero (by omega)
    subst hx ht0
    refine ⟨r, ?_, by simpa using hd⟩
    unfold ReadAtLeastLoop
    simp
  | succ fuel ih =>
    intro r done todo xs rest hd ht hf
    by_cases hx : xs = []
    · have ht0 : todo = [] := List.eq_nil_of_length_eq_zero (by simp [ht, hx])
      subst hx ht0
      refine ⟨r, ?_, by simpa using hd⟩
      unfold ReadAtLeastLoop
      simp
    · have hpos : 1 ≤ xs.length := by
        cases xs with
        | nil => exact absurd rfl hx
        | cons _ _ => simp
      have hne : r.data ≠ [] := by rw [hd]; simp [hx]
      obtain ⟨p, r1, hread, hp1, hpk, hdata⟩ :=
        Read_cons r ((done ++ todo).length - done.length) (by simp; omega) hne
      have hpl : p.length ≤ xs.length := by simp at hpk; omega
      obtain ⟨ys, hxs, hr1⟩ := append_split p r1.data xs rest (hdata ▸ hd) hpl
      have hlen : xs.length = p.length + ys.length := by rw [hxs]; simp
      obtain ⟨r2, hloop, hr2⟩ := ih r1 (done ++ p) (todo.drop p.length) ys rest hr1
        (by simp; omega) (by omega)
      refine ⟨r2, ?_, hr2⟩
      unfold ReadAtLeastLoop
      have hcond : done.length < done.length + todo.length ∧ (none : Option Error) = none :=
        ⟨by omega, rfl⟩
      rw [if_pos hcond]
      simp only [hread]
      rw [copyAt_append done todo p (by omega)]
      have e1 : done.length + todo.length = (done ++ p).length + (todo.drop p.length).length := by
        simp; omega
      have e2 : done.length + p.length = (done ++ p).length := by simp
      rw [e1, e2, hloop, hxs]
      simp

theorem copyAt_nil (buf : List Byte) (n : Nat) : copyAt buf n [] = buf := by
  simp [copyAt]

theorem ReadAtLeastLoop_short (fuel : Nat) : ∀ (r : Reader) (done todo : List Byte),
    r.data.length < todo.length → r.data.length < fuel →
    ∃ r1, ReadAtLeastLoop fuel r (done ++ todo) (done.length + todo.length) done.length none
        = some (done ++ r.data ++ todo.drop r.data.length, done.length + r.data.length,
            some Error.EOF, r1) ∧ r1.data = [] := by
  induction fuel with
  | zero => intro r done todo _ hf; omega
  | succ fuel ih =>
    intro r done todo hlt hf
    have hcond : done.length < done.length + todo.length ∧ (none : Option Error) = none :=
      ⟨by omega, rfl⟩
    by_cases hd : r.data = []
    · refine ⟨r, ?_, hd⟩
      unfold ReadAtLeastLoop
      rw [if_pos hcond]
      simp only [Read_nil r _ hd, copyAt_nil]
      unfold ReadAtLeastLoop
      simp [hd]
    · obtain ⟨p, r1, hread, hp1, hpk, hdata⟩ :=
        Read_cons r ((done ++ todo).length - done.length) (by simp; omega) hd
      have hlen : r.data.length = p.length + r1.data.length := by rw [hdata]; simp
      obtain ⟨r2, hloop, hr2⟩ := ih r1 (done ++ p) (todo.drop p.length)
        (by simp; omega) (by omega)
      refine ⟨r2, ?_, hr2⟩
      unfold ReadAtLeastLoop
      rw [if_pos hcond]
      simp only [hread]
      rw [copyAt_append done todo p (by omega)]
      have e1 : done.length + todo.length = (done ++ p).length + (todo.drop p.length).length := by
        simp; omega
      have e2 : done.length + p.length = (done ++ p).length := by simp
      rw [e1, e2, hloop, hdata]
      simp [Nat.add_assoc, Nat.add_comm]

/-- A full read: when the stream still holds `len(s)` bytes, `readFull` stores
them in `s`, returns `nil` and leaves the rest of the stream. -/
theorem readFull_ok (r : Reader) (s xs rest : List Byte)
    (hd : r.data = xs ++ rest) (hs : s.length = xs.length) :
    ∃ r1, readFull r s = some (xs, none, r1) ∧ r1.data = rest := by
  obtain ⟨r1, hloop, hr1⟩ := ReadAtLeastLoop_ok xs.length r [] s xs rest hd hs (Nat.le_refl _)
  refine ⟨r1, ?_, hr1⟩
  simp only [List.nil_append, List.length_nil, Nat.zero_add] at hloop
  simp only [readFull, ReadFull, ReadAtLeast, Nat.lt_irrefl, if_false]
  rw [hs] at hloop ⊢
  rw [hloop]
  simp

/-- A short read: when the stream holds fewer than `len(s)` bytes, `readFull`
stores what there is at the front of `s` and returns `io.EOF` if nothing was
read, `io.ErrUnexpectedEOF` otherwise. -/
theorem readFull_short (r : Reader) (s : List Byte) (hlt : r.data.length < s.length) :
    ∃ r1, readFull r s = some (r.data ++ s.drop r.data.length,
        some (if r.data = [] then Error.EOF else Error.ErrUnexpectedEOF), r1) ∧ r1.data = [] := by
  obtain ⟨r1, hloop, hr1⟩ := ReadAtLeastLoop_short s.length r [] s hlt hlt
  refine ⟨r1, ?_, hr1⟩
  simp only [List.nil_append, List.length_nil, Nat.zero_add] at hloop
  simp only [readFull, ReadFull, ReadAtLeast, Nat.lt_irrefl, if_false]
  rw [hloop]
  by_cases hd : r.data = []
  · have : s.length ≠ 0 := by omega
    simp [hd, this]
  · have h1 : 0 < r.data.length := List.length_pos.mpr hd
    have h2 : ¬ r.data.length ≥ s.length := by omega
    simp [hd, h1, h2]

theorem copyAt_zero (buf p : List Byte) (h : p.length ≤ buf.length) :
    copyAt buf 0 p = p ++ buf.drop p.length := by
  have := copyAt_append [] buf p h
  simpa using this

theorem copyAt_zero_length (buf p : List Byte) (h : p.length ≤ buf.length) :
    (copyAt buf 0 p).length = buf.length := by
  rw [copyAt_zero buf p h]; simp; omega

theorem rleFill_spec (k : Nat) : ∀ (rep : Byte) (pre junk post : List Byte) (len : Nat),
    junk.length = k →
    rleFill k pre.length rep { arr := pre ++ junk ++ post, len := len }
      = { arr := pre ++ List.replicate k rep ++ post, len := len } := by
  induction k with
  | zero =>
    intro rep pre junk post len hj
    have : junk = [] := List.eq_nil_of_length_eq_zero hj
    subst this
    simp [rleFill]
  | succ k ih =>
    intro rep pre junk post len hj
    cases junk with
    | nil => simp at hj
    | cons j junk =>
      have hset : (pre ++ (j :: junk) ++ post).set pre.length rep
          = (pre ++ [rep]) ++ junk ++ post := by
        simp [List.set_append]
      have := ih rep (pre ++ [rep]) junk post len (by simpa using hj)
      simp only [rleFill, hset]
      simp only [List.length_append, List.length_singleton] at this
      rw [this]
      simp [List.replicate_succ]

theorem allocData_len (reuse : Bool) (data : Slice) (size : Nat) :
    (allocData reuse data size).len = size := by
  unfold allocData; split <;> rfl

theorem allocData_cap (reuse : Bool) (data : Slice) (size : Nat) :
    size ≤ (allocData reuse data size).arr.length := by
  unfold allocData
  split
  · rename_i h
    simp only [Bool.and_eq_true, decide_eq_true_eq, Slice.cap] at h
    exact h.2
  · simp

theorem literalLoop_ok (fuel : Nat) : ∀ (r : Reader) (buf : List Byte) (data : Slice)
    (size left : Nat) (pre junk xs rest : List Byte),
    r.data = xs ++ rest → xs.length = left → junk.length = left →
    data.arr.take data.len = pre ++ junk → data.len ≤ data.arr.length →
    size = pre.length + left → 1 ≤ buf.length → left ≤ fuel →
    ∃ buf1 data1 r1, literalLoop fuel r buf data size left = some (none, buf1, data1, r1) ∧
      data1.toList = pre ++ xs ∧ buf1.length = buf.length ∧ r1.data = rest := by
  induction fuel with
  | zero =>
    intro r buf data size left pre junk xs rest hd hx hj hdata hcap hsize hbuf hf
    have hl : left = 0 := by omega
    subst hl
    have hx0 : xs = [] := List.eq_nil_of_length_eq_zero hx
    have hj0 : junk = [] := List.eq_nil_of_length_eq_zero hj
    subst hx0 hj0
    refine ⟨buf, data, r, ?_, by simpa [Slice.toList] using hdata, rfl, by simpa using hd⟩
    unfold literalLoop; simp
  | succ fuel ih =>
    intro r buf data size left pre junk xs rest hd hx hj hdata hcap hsize hbuf hf
    by_cases hl : left = 0
    · subst hl
      have hx0 : xs = [] := List.eq_nil_of_length_eq_zero hx
      have hj0 : junk = [] := List.eq_nil_of_length_eq_zero hj
      subst hx0 hj0
      refine ⟨buf, data, r, ?_, by simpa [Slice.toList] using hdata, rfl, by simpa using hd⟩
      unfold literalLoop; simp
    · have hne : r.data ≠ [] := by
        intro h0
        have := congrArg List.length hd
        simp [h0] at this
        omega
      obtain ⟨p, r1, hread, hp1, hpk, hdat⟩ :
          ∃ p r1, (if left > buf.length then r.Read buf.length else r.Read left) = (p, none, r1) ∧
            1 ≤ p.length ∧ p.length ≤ min left buf.length ∧ r.data = p ++ r1.data := by
        by_cases hc : left > buf.length
        · obtain ⟨p, r1, h1, h2, h3, h4⟩ := Read_cons r buf.length hbuf hne
          exact ⟨p, r1, by rw [if_pos hc]; exact h1, h2, by omega, h4⟩
        · obtain ⟨p, r1, h1, h2, h3, h4⟩ := Read_cons r left (by omega) hne
          exact ⟨p, r1, by rw [if_neg hc]; exact h1, h2, by omega, h4⟩
      obtain ⟨ys, hxs, hr1⟩ := append_split p r1.data xs rest (hdat ▸ hd) (by omega)
      have hlen : xs.length = p.length + ys.length := by rw [hxs]; simp
      have hbuf1 : (copyAt buf 0 p).length = buf.length := copyAt_zero_length buf p (by omega)
      have htake : (copyAt buf 0 p).take p.length = p := by
        rw [copyAt_zero buf p (by omega)]; simp
      have hpre : size - left = pre.length := by omega
      have hcopy : copyAt (data.arr.take data.len) (size - left) p
          = pre ++ p ++ junk.drop p.length := by
        rw [hdata, hpre]; exact copyAt_append pre junk p (by omega)
      have hlenD : data.len = pre.length + junk.length := by
        have := congrArg List.length hdata
        simp only [List.length_take, List.length_append] at this
        omega
      obtain ⟨buf2, data2, r2, hloop, hto, hb2, hr2⟩ :=
        ih r1 (copyAt buf 0 p)
          { data with arr := copyAt (data.arr.take data.len) (size - left) ((copyAt buf 0 p).take p.length)
                                ++ data.arr.drop data.len }
          size (left - p.length) (pre ++ p) (junk.drop p.length) ys rest hr1
          (by omega) (by simp; omega)
          (by
            simp only [htake, hcopy]
            rw [List.take_append_of_le_length (by simp; omega)]
            rw [List.take_of_length_le (by simp; omega)])
          (by simp only [htake, hcopy]; simp; omega)
          (by simp; omega) (by omega) (by omega)
      refine ⟨buf2, data2, r2, ?_, ?_, by omega, hr2⟩
      · unfold literalLoop
        rw [if_pos hl]
        simp only [hread]
        exact hloop
      · rw [hto, hxs]; simp

theorem slice_length (s : List Byte) (lo hi : Nat) (h : hi ≤ s.length) :
    (slice s lo hi).length = hi - lo := by
  simp [slice]; omega

theorem rleFill_toList (rep : Byte) (data : Slice) (size : Nat)
    (hlen : data.len = size) (hcap : size ≤ data.arr.length) :
    (rleFill size 0 rep data).toList = List.replicate size rep := by
  have h := rleFill_spec size rep [] (data.arr.take size) (data.arr.drop size) data.len
    (by simp; omega)
  simp only [List.nil_append, List.length_nil, List.take_append_drop] at h
  have e : data = { arr := data.arr, len := data.len } := rfl
  rw [e, h]
  simp [Slice.toList, hlen]

theorem allocData_take (reuse : Bool) (data : Slice) (size : Nat) :
    ((allocData reuse data size).arr.take (allocData reuse data size).len).length = size := by
  rw [allocData_len]
  simp [allocData_cap]

/-- The decode loop body on the terminator: it reports the end of the patch and
consumes exactly the three bytes `"EOF"`. -/
theorem decodeRecord_eof (reuse : Bool) (r : Reader) (buf : List Byte) (data : Slice)
    (t : List Byte) (hd : r.data = eofMarker ++ t) (hbuf : 5 ≤ buf.length) :
    ∃ r1, decodeRecord reuse r buf data = some (Step.done r1) ∧ r1.data = t := by
  obtain ⟨r1, h1, hr1⟩ := readFull_ok r (slice buf 0 3) eofMarker t hd
    (by rw [slice_length buf 0 3 (by omega)]; rfl)
  refine ⟨r1, ?_, hr1⟩
  have hc : slice (copyAt buf 0 eofMarker) 0 3 = eofMarker := by
    rw [copyAt_zero buf eofMarker (by simp [eofMarker]; omega)]
    simp [slice, eofMarker]
  simp only [decodeRecord, h1, hc, if_true]

/-- The decode loop body on a complete literal record. -/
theorem decodeRecord_literal (reuse : Bool) (r : Reader) (buf : List Byte) (data : Slice)
    (o0 o1 o2 s0 s1 : Byte) (payload rest : List Byte)
    (hd : r.data = [o0, o1, o2] ++ [s0, s1] ++ payload ++ rest)
    (hne : [o0, o1, o2] ≠ eofMarker)
    (hlen : payload.length = s0.val * 256 + s1.val) (hpos : payload ≠ [])
    (hbuf : 5 ≤ buf.length) :
    ∃ data1 buf1 r1, decodeRecord reuse r buf data
        = some (Step.emit (o0.val * 65536 + o1.val * 256 + o2.val) data1 buf1 r1) ∧
      data1.toList = payload ∧ buf1.length = buf.length ∧ r1.data = rest := by
  obtain ⟨r1, h1, hr1⟩ := readFull_ok r (slice buf 0 3) [o0, o1, o2] ([s0, s1] ++ payload ++ rest)
    (by rw [hd]; simp) (by rw [slice_length buf 0 3 (by omega)]; rfl)
  obtain ⟨b0, b1, b2, b3, b4, tl, rfl⟩ : ∃ b0 b1 b2 b3 b4 tl, buf = b0 :: b1 :: b2 :: b3 :: b4 :: tl := by
    match buf, hbuf with
    | b0 :: b1 :: b2 :: b3 :: b4 :: tl, _ => exact ⟨b0, b1, b2, b3, b4, tl, rfl⟩
  have hb1 : copyAt (b0 :: b1 :: b2 :: b3 :: b4 :: tl) 0 [o0, o1, o2] = o0 :: o1 :: o2 :: b3 :: b4 :: tl := by
    rw [copyAt_zero _ _ (by simp)]; simp
  obtain ⟨r2, h2, hr2⟩ := readFull_ok r1 (slice (o0 :: o1 :: o2 :: b3 :: b4 :: tl) 3 5) [s0, s1]
    (payload ++ rest) (by rw [hr1]; simp) (by simp [slice])
  have hb2 : copyAt (o0 :: o1 :: o2 :: b3 :: b4 :: tl) 3 [s0, s1] = o0 :: o1 :: o2 :: s0 :: s1 :: tl := by
    have := copyAt_append [o0, o1, o2] (b3 :: b4 :: tl) [s0, s1] (by simp)
    simpa using this
  have hoff : bytes3ToInt64 (slice (o0 :: o1 :: o2 :: s0 :: s1 :: tl) 0 3)
      = o0.val * 65536 + o1.val * 256 + o2.val := by
    rw [← bytes3_eq]; simp [slice]
  have hsize : bytes2ToInt64 (slice (o0 :: o1 :: o2 :: s0 :: s1 :: tl) 3 5) = payload.length := by
    rw [hlen, ← bytes2_eq]; simp [slice]
  have hsz : payload.length ≠ 0 := by
    intro h; exact hpos (List.eq_nil_of_length_eq_zero h)
  obtain ⟨buf3, data3, r3, h3, hto, hb3, hr3⟩ :=
    literalLoop_ok payload.length r2 (o0 :: o1 :: o2 :: s0 :: s1 :: tl)
      (allocData reuse data payload.length) payload.length payload.length []
      ((allocData reuse data payload.length).arr.take (allocData reuse data payload.length).len)
      payload rest (by rw [hr2]) rfl (allocData_take reuse data _) (by simp)
      (by rw [allocData_len]; exact allocData_cap reuse data _) (by simp) (by simp) (Nat.le_refl _)
  refine ⟨data3, buf3, r3, ?_, by simpa using hto, by simpa using hb3, hr3⟩
  have hne1 : ¬ slice (o0 :: o1 :: o2 :: b3 :: b4 :: tl) 0 3 = eofMarker := by
    simpa [slice] using hne
  simp only [decodeRecord, h1, hb1, hne1, if_false, h2, hb2, hoff, hsize, hsz, h3]

/-- The decode loop body on a complete RLE record. -/
theorem decodeRecord_rle (reuse : Bool) (r : Reader) (buf : List Byte) (data : Slice)
    (o0 o1 o2 n0 n1 fill : Byte) (rest : List Byte)
    (hd : r.data = [o0, o1, o2] ++ [0, 0] ++ [n0, n1, fill] ++ rest)
    (hne : [o0, o1, o2] ≠ eofMarker) (hbuf : 5 ≤ buf.length) :
    ∃ data1 buf1 r1, decodeRecord reuse r buf data
        = some (Step.emit (o0.val * 65536 + o1.val * 256 + o2.val) data1 buf1 r1) ∧
      data1.toList = List.replicate (n0.val * 256 + n1.val) fill ∧
      buf1.length = buf.length ∧ r1.data = rest := by
  obtain ⟨r1, h1, hr1⟩ := readFull_ok r (slice buf 0 3) [o0, o1, o2] ([0, 0] ++ [n0, n1, fill] ++ rest)
    (by rw [hd]; simp) (by rw [slice_length buf 0 3 (by omega)]; rfl)
  obtain ⟨b0, b1, b2, b3, b4, tl, rfl⟩ : ∃ b0 b1 b2 b3 b4 tl, buf = b0 :: b1 :: b2 :: b3 :: b4 :: tl := by
    match buf, hbuf with
    | b0 :: b1 :: b2 :: b3 :: b4 :: tl, _ => exact ⟨b0, b1, b2, b3, b4, tl, rfl⟩
  have hb1 : copyAt (b0 :: b1 :: b2 :: b3 :: b4 :: tl) 0 [o0, o1, o2] = o0 :: o1 :: o2 :: b3 :: b4 :: tl := by
    rw [copyAt_zero _ _ (by simp)]; simp
  obtain ⟨r2, h2, hr2⟩ := readFull_ok r1 (slice (o0 :: o1 :: o2 :: b3 :: b4 :: tl) 3 5) [0, 0]
    ([n0, n1, fill] ++ rest) (by rw [hr1]; simp) (by simp [slice])
  have hb2 : copyAt (o0 :: o1 :: o2 :: b3 :: b4 :: tl) 3 [0, 0] = o0 :: o1 :: o2 :: 0 :: 0 :: tl := by
    have := copyAt_append [o0, o1, o2] (b3 :: b4 :: tl) [0, 0] (by simp)
    simpa using this
  have hoff : bytes3ToInt64 (slice (o0 :: o1 :: o2 :: 0 :: 0 :: tl) 0 3)
      = o0.val * 65536 + o1.val * 256 + o2.val := by
    rw [← bytes3_eq]; simp [slice]
  have hsize : bytes2ToInt64 (slice (o0 :: o1 :: o2 :: 0 :: 0 :: tl) 3 5) = 0 := by
    have : slice (o0 :: o1 :: o2 :: (0 : Byte) :: 0 :: tl) 3 5 = [0, 0] := by simp [slice]
    rw [this, bytes2_eq]; rfl
  obtain ⟨r3, h3, hr3⟩ := readFull_ok r2 (slice (o0 :: o1 :: o2 :: 0 :: 0 :: tl) 0 3) [n0, n1, fill]
    rest (by rw [hr2]) (by simp [slice])
  have hb3 : copyAt (o0 :: o1 :: o2 :: 0 :: 0 :: tl) 0 [n0, n1, fill] = n0 :: n1 :: fill :: 0 :: 0 :: tl := by
    rw [copyAt_zero _ _ (by simp)]; simp
  have hcount : bytes2ToInt64 (slice (n0 :: n1 :: fill :: 0 :: 0 :: tl) 0 2) = n0.val * 256 + n1.val := by
    rw [← bytes2_eq]; simp [slice]
  have hne1 : ¬ slice (o0 :: o1 :: o2 :: b3 :: b4 :: tl) 0 3 = eofMarker := by
    simpa [slice] using hne
  refine ⟨rleFill (n0.val * 256 + n1.val) 0 fill (allocData reuse data (n0.val * 256 + n1.val)),
    n0 :: n1 :: fill :: 0 :: 0 :: tl, r3, ?_, ?_, ?_, hr3⟩
  · simp only [decodeRecord, h1, hb1, hne1, if_false, h2, hb2, hoff, hsize, if_true, h3, hb3, hcount]
    rfl
  · exact rleFill_toList fill _ _ (allocData_len _ _ _) (allocData_cap _ _ _)
  · simp

theorem be3_val (o : Nat) (h : o < 16777216) :
    ∃ o0 o1 o2 : Byte, be3 o = [o0, o1, o2] ∧ o0.val * 65536 + o1.val * 256 + o2.val = o := by
  refine ⟨_, _, _, rfl, ?_⟩
  simp only
  omega

theorem be2_val (n : Nat) (h : n < 65536) :
    ∃ n0 n1 : Byte, be2 n = [n0, n1] ∧ n0.val * 256 + n1.val = n := by
  refine ⟨_, _, rfl, ?_⟩
  simp only
  omega

/-- The decode loop body on the wire encoding of a well-formed record whose
offset field is not `"EOF"`: it hands out exactly that record and consumes
exactly its encoding. -/
theorem decodeRecord_wire (reuse : Bool) (r : Reader) (buf : List Byte) (data : Slice)
    (w : WireRecord) (rest : List Byte) (hw : w.WellFormed) (hne : w.NotEOF)
    (hd : r.data = w.encode ++ rest) (hbuf : 5 ≤ buf.length) :
    ∃ data1 buf1 r1, decodeRecord reuse r buf data
        = some (Step.emit w.toRecord.Offset data1 buf1 r1) ∧
      data1.toList = w.toRecord.Data ∧ buf1.length = buf.length ∧ r1.data = rest := by
  cases w with
  | literal off payload =>
    obtain ⟨h1, h2, h3⟩ := hw
    obtain ⟨o0, o1, o2, ho, hov⟩ := be3_val off h1
    obtain ⟨s0, s1, hs, hsv⟩ := be2_val payload.length (by omega)
    have hne1 : [o0, o1, o2] ≠ eofMarker := by
      rw [← ho]; exact hne
    have hp : payload ≠ [] := by
      intro h; simp [h] at h2
    have := decodeRecord_literal reuse r buf data o0 o1 o2 s0 s1 payload rest
      (by rw [hd]; simp only [WireRecord.encode, ho, hs]) hne1 hsv.symm hp hbuf
    simpa only [WireRecord.toRecord, hov] using this
  | rle off count fill =>
    obtain ⟨h1, h2⟩ := hw
    obtain ⟨o0, o1, o2, ho, hov⟩ := be3_val off h1
    obtain ⟨n0, n1, hn, hnv⟩ := be2_val count (by omega)
    have hne1 : [o0, o1, o2] ≠ eofMarker := by
      rw [← ho]; exact hne
    have := decodeRecord_rle reuse r buf data o0 o1 o2 n0 n1 fill rest
      (by rw [hd]; simp [WireRecord.encode, ho, hn]) hne1 hbuf
    simpa only [WireRecord.toRecord, hov, hnv] using this

/-- The decode loop on the encodings of well-formed records followed by the
terminator: the handler is run over exactly these records, in order; if it
accepts them all the loop returns `nil` with the reader just behind `"EOF"`. -/
theorem RecordsLoop_decode {σ : Type} (reuse : Bool) (handle : σ → Record → σ × Option Error)
    (ws : List WireRecord) : ∀ (fuel : Nat) (r : Reader) (buf : List Byte) (data : Slice) (s : σ)
    (t : List Byte), (∀ w ∈ ws, w.WellFormed ∧ w.NotEOF) →
    r.data = encodeAll ws ++ eofMarker ++ t → 5 ≤ buf.length → ws.length < fuel →
    ∃ r1, RecordsLoop reuse handle fuel r buf data s
        = some ((runHandler handle s (ws.map WireRecord.toRecord)).1,
            (runHandler handle s (ws.map WireRecord.toRecord)).2, r1) ∧
      ((runHandler handle s (ws.map WireRecord.toRecord)).2 = none → r1.data = t) := by
  induction ws with
  | nil =>
    intro fuel r buf data s t _ hd hbuf hf
    obtain ⟨r1, h1, hr1⟩ := decodeRecord_eof reuse r buf data t (by simpa [encodeAll] using hd) hbuf
    refine ⟨r1, ?_, fun _ => hr1⟩
    cases fuel with
    | zero => omega
    | succ fuel => simp [RecordsLoop, h1, runHandler]
  | cons w ws ih =>
    intro fuel r buf data s t hws hd hbuf hf
    have hw := hws w (List.mem_cons_self _ _)
    obtain ⟨data1, buf1, r1, h1, hto, hb1, hr1⟩ := decodeRecord_wire reuse r buf data w
      (encodeAll ws ++ eofMarker ++ t) hw.1 hw.2 (by rw [hd]; simp [encodeAll]) hbuf
    cases fuel with
    | zero => omega
    | succ fuel =>
      have hrec : ({ Offset := w.toRecord.Offset, Data := data1.toList } : Record) = w.toRecord := by
        rw [hto]
      simp only [RecordsLoop, h1, hrec, List.map_cons, runHandler]
      rcases hh : handle s w.toRecord with ⟨s1, _ | e⟩
      · obtain ⟨r2, h2, hr2⟩ := ih fuel r1 buf1 data1 s1 t
          (fun w hw => hws w (List.mem_cons_of_mem _ hw)) hr1 (by omega)
          (by simp at hf; omega)
        exact ⟨r2, by simpa using h2, by simpa using hr2⟩
      · exact ⟨r1, by simp, by simp⟩

theorem encode_length_pos (w : WireRecord) : 1 ≤ w.encode.length := by
  cases w <;> simp [WireRecord.encode, be3]

theorem encodeAll_length (ws : List WireRecord) : ws.length ≤ (encodeAll ws).length := by
  induction ws with
  | nil => simp
  | cons w ws ih =>
    have := encode_length_pos w
    simp only [encodeAll, List.length_cons, List.length_append]
    omega

theorem slice_buf5 : slice (List.replicate 512 (0 : Byte)) 0 5 = [0, 0, 0, 0, 0] := by
  decide

/-- The header check on a stream that starts with `"PATCH"`. -/
theorem checkHeader_magic (r : Reader) (s rest : List Byte) (hs : s.length = 5)
    (hd : r.data = magic ++ rest) :
    ∃ r1, checkHeader r s = some (magic, none, r1) ∧ r1.data = rest := by
  obtain ⟨r1, h1, hr1⟩ := readFull_ok r s magic rest hd (by rw [hs]; rfl)
  exact ⟨r1, by simp [checkHeader, h1], hr1⟩

/-- The header check on a stream of five or more bytes that does not start with
`"PATCH"`. -/
theorem checkHeader_mismatch (r : Reader) (s hdr rest : List Byte) (hs : s.length = 5)
    (hl : hdr.length = 5) (hne : hdr ≠ magic) (hd : r.data = hdr ++ rest) :
    ∃ r1, checkHeader r s = some (hdr, some Error.ErrInvalidMagic, r1) ∧ r1.data = rest := by
  obtain ⟨r1, h1, hr1⟩ := readFull_ok r s hdr rest hd (by rw [hs, hl])
  exact ⟨r1, by simp [checkHeader, h1, hne], hr1⟩

/-- The header check on a stream of fewer than five bytes. -/
theorem checkHeader_short (r : Reader) (s : List Byte) (hs : s.length = 5)
    (hl : r.data.length < 5) :
    ∃ s1 r1, checkHeader r s
      = some (s1, some (if r.data = [] then Error.EOF else Error.ErrUnexpectedEOF), r1) := by
  obtain ⟨r1, h1, _⟩ := readFull_short r s (by omega)
  exact ⟨r.data ++ s.drop r.data.length, r1, by simp only [checkHeader, h1]⟩

/-- The decoder on a well-formed patch, possibly followed by further bytes `t`:
the handler is run over the records of the patch, in order; if it accepts
them all, `Records` returns `nil` and the reader stands just behind `"EOF"`. -/
theorem Records_decode {σ : Type} (reuse : Bool) (handle : σ → Record → σ × Option Error)
    (ws : List WireRecord) (r : Reader) (s : σ) (t : List Byte)
    (hws : ∀ w ∈ ws, w.WellFormed ∧ w.NotEOF)
    (hd : r.data = magic ++ encodeAll ws ++ eofMarker ++ t) :
    ∃ r1, Records r reuse handle s
        = some ((runHandler handle s (ws.map WireRecord.toRecord)).1,
            (runHandler handle s (ws.map WireRecord.toRecord)).2, r1) ∧
      ((runHandler handle s (ws.map WireRecord.toRecord)).2 = none → r1.data = t) := by
  obtain ⟨r1, h1, hr1⟩ := checkHeader_magic r (slice (List.replicate 512 0) 0 5)
    (encodeAll ws ++ eofMarker ++ t) (by rw [slice_buf5]; rfl) (by rw [hd]; simp)
  obtain ⟨r2, h2, hr2⟩ := RecordsLoop_decode reuse handle ws (r1.data.length + 1) r1
    (copyAt (List.replicate 512 0) 0 magic) Slice.empty s t hws hr1
    (by
      have hm : magic.length ≤ (List.replicate 512 (0 : Byte)).length := by
        rw [List.length_replicate]; decide
      rw [copyAt_zero_length _ _ hm, List.length_replicate]; omega)
    (by
      have := encodeAll_length ws
      rw [hr1]; simp only [List.length_append]; omega)
  exact ⟨r2, by simp only [Records, h1, h2], hr2⟩

/-- A handler that never fails runs over all records. -/
theorem runHandler_accept {σ : Type} (handle : σ → Record → σ × Option Error)
    (hacc : ∀ s rec, (handle s rec).2 = none) (recs : List Record) : ∀ s : σ,
    runHandler handle s recs = (recs.foldl (fun s rec => (handle s rec).1) s, none) := by
  induction recs with
  | nil => intro s; rfl
  | cons rec recs ih =>
    intro s
    have h := hacc s rec
    rcases hh : handle s rec with ⟨s1, e⟩
    rw [hh] at h
    simp only at h
    subst h
    simp only [runHandler, hh, List.foldl_cons]
    exact ih s1

theorem foldl_collect (recs : List Record) : ∀ acc : List Record,
    recs.foldl (fun s rec => (collect s rec).1) acc = acc ++ recs := by
  induction recs with
  | nil => intro acc; simp
  | cons rec recs ih =>
    intro acc
    simp only [List.foldl_cons]
    rw [ih]
    simp [collect]

/-! ## Decoding undoes the wire encoding -/

/-- C2: decoding undoes the wire encoding.  For every list of well-formed records
(literal: 24-bit offset, 1 to 65535 data bytes; RLE: 24-bit offset, count 0 to
65535, a fill byte) none of whose offset fields is `"EOF"`, every read schedule
and either value of the reuse flag, `Records` on
`"PATCH" ++ encode r1 ++ ... ++ encode rn ++ "EOF"` returns `nil`, has consumed
the whole stream, and has invoked the handler exactly `n` times, in order, with
`r1..rn`: the recording handler `collect` has received exactly `r1..rn`, and any
handler that accepts its records has been run over `r1..rn`. -/
theorem Records_decodes_wire_encoding (ws : List WireRecord) (sched : List Nat) (reuse : Bool)
    (hws : ∀ w ∈ ws, w.WellFormed ∧ w.NotEOF) :
    (∃ r1, Records { data := magic ++ encodeAll ws ++ eofMarker, sched := sched } reuse collect []
        = some (ws.map WireRecord.toRecord, none, r1) ∧ r1.data = []) ∧
    (∀ (σ : Type) (handle : σ → Record → σ × Option Error) (s : σ),
      (∀ s rec, (handle s rec).2 = none) →
      ∃ r1, Records { data := magic ++ encodeAll ws ++ eofMarker, sched := sched } reuse handle s
          = some ((ws.map WireRecord.toRecord).foldl (fun s rec => (handle s rec).1) s, none, r1) ∧
        r1.data = []) := by
  constructor
  · obtain ⟨r1, h1, hr1⟩ := Records_decode reuse collect ws
      { data := magic ++ encodeAll ws ++ eofMarker, sched := sched } [] [] hws (by simp)
    rw [runHandler_accept collect (fun _ _ => rfl), foldl_collect] at h1 hr1
    exact ⟨r1, by simpa using h1, hr1 rfl⟩
  · intro σ handle s hacc
    obtain ⟨r1, h1, hr1⟩ := Records_decode reuse handle ws
      { data := magic ++ encodeAll ws ++ eofMarker, sched := sched } s [] hws (by simp)
    rw [runHandler_accept handle hacc] at h1 hr1
    exact ⟨r1, h1, hr1 rfl⟩

/-- C2 at a concrete patch: a literal record and an RLE record, read in chunks of
one and two bytes. -/
theorem Records_decodes_wire_encoding_witness :
    (∀ w ∈ [WireRecord.literal 16 [170, 187, 204], WireRecord.rle 5 4 127],
        w.WellFormed ∧ w.NotEOF) ∧
    ∃ r1, Records
        { data := magic ++ encodeAll [WireRecord.literal 16 [170, 187, 204], WireRecord.rle 5 4 127]
            ++ eofMarker, sched := [1, 2] } true collect []
        = some ([{ Offset := 16, Data := [170, 187, 204] }, { Offset := 5, Data := [127, 127, 127, 127] }],
            none, r1) ∧ r1.data = [] :=
  ⟨by decide,
    (Records_decodes_wire_encoding [WireRecord.literal 16 [170, 187, 204], WireRecord.rle 5 4 127]
      [1, 2] true (by decide)).1⟩

/-! ## Where the errors of the decoder come from -/

theorem Read_err (r : Reader) (k : Nat) (p : List Byte) (e : Error) (r1 : Reader)
    (h : r.Read k = (p, some e, r1)) : e = Error.EOF := by
  unfold Reader.Read at h
  split at h
  · simp only [Prod.mk.injEq, Option.some.injEq] at h
    exact h.2.1.symm
  · simp at h

/-- The outcome of `readFull` in terms of the bytes left in the stream. -/
theorem readFull_cases (r : Reader) (s : List Byte) :
    (s.length ≤ r.data.length ∧
      ∃ r1, readFull r s = some (r.data.take s.length, none, r1) ∧
        r1.data = r.data.drop s.length) ∨
    (r.data.length < s.length ∧
      ∃ r1, readFull r s = some (r.data ++ s.drop r.data.length,
        some (if r.data = [] then Error.EOF else Error.ErrUnexpectedEOF), r1) ∧ r1.data = []) := by
  by_cases h : s.length ≤ r.data.length
  · left
    refine ⟨h, ?_⟩
    exact readFull_ok r s (r.data.take s.length) (r.data.drop s.length)
      (List.take_append_drop _ _).symm (by simp; omega)
  · right
    exact ⟨by omega, readFull_short r s (by omega)⟩

theorem readFull_err (r : Reader) (s s1 : List Byte) (e : Error) (r1 : Reader)
    (h : readFull r s = some (s1, some e, r1)) :
    e = Error.EOF ∨ e = Error.ErrUnexpectedEOF := by
  rcases readFull_cases r s with ⟨_, r2, h2, _⟩ | ⟨_, r2, h2, _⟩
  · rw [h2] at h; simp at h
  · rw [h2] at h
    simp only [Option.some.injEq, Prod.mk.injEq] at h
    obtain ⟨_, he, _⟩ := h
    by_cases hd : r.data = []
    · left; simpa [hd] using he.symm
    · right; simpa [hd] using he.symm

theorem literalLoop_err (fuel : Nat) : ∀ (r : Reader) (buf : List Byte) (data : Slice)
    (size left : Nat) (e : Error) (buf1 : List Byte) (data1 : Slice) (r1 : Reader),
    literalLoop fuel r buf data size left = some (some e, buf1, data1, r1) → e = Error.EOF := by
  induction fuel with
  | zero =>
    intro r buf data size left e buf1 data1 r1 h
    unfold literalLoop at h
    split at h <;> simp at h
  | succ fuel ih =>
    intro r buf data size left e buf1 data1 r1 h
    unfold literalLoop at h
    split at h
    · simp only at h
      split at h
      · rename_i p err r2 hread
        simp only [Option.some.injEq, Prod.mk.injEq] at h
        obtain ⟨he, _⟩ := h
        subst he
        split at hread
        · exact Read_err _ _ _ _ _ hread
        · exact Read_err _ _ _ _ _ hread
      · exact ih _ _ _ _ _ _ _ _ _ h
    · simp at h

/-- The errors the body of the decode loop can end in are `io.EOF` and
`io.ErrUnexpectedEOF`. -/
theorem decodeRecord_err (reuse : Bool) (r : Reader) (buf : List Byte) (data : Slice)
    (e : Error) (r1 : Reader) (h : decodeRecord reuse r buf data = some (Step.fail e r1)) :
    e = Error.EOF ∨ e = Error.ErrUnexpectedEOF := by
  unfold decodeRecord at h
  split at h
  · simp at h
  · rename_i hh err r2 h1
    simp only [Option.some.injEq, Step.fail.injEq] at h
    rw [← h.1]
    exact readFull_err _ _ _ _ _ h1
  · simp only at h
    split at h
    · simp at h
    · split at h
      · simp at h
      · rename_i hh err r3 h2
        simp only [Option.some.injEq, Step.fail.injEq] at h
        rw [← h.1]
        exact readFull_err _ _ _ _ _ h2
      · split at h
        · split at h <;> simp at h
        · split at h
          · simp at h
          · rename_i err b d r4 h3
            simp only [Option.some.injEq, Step.fail.injEq] at h
            rw [← h.1]
            left
            exact literalLoop_err _ _ _ _ _ _ _ _ _ _ h3
          · simp at h

/-- An error returned by the decode loop is `io.EOF`, `io.ErrUnexpectedEOF`, or an
error the handler returned. -/
theorem RecordsLoop_err {σ : Type} (reuse : Bool) (handle : σ → Record → σ × Option Error)
    (fuel : Nat) : ∀ (r : Reader) (buf : List Byte) (data : Slice) (s s1 : σ) (e : Error)
    (r1 : Reader), RecordsLoop reuse handle fuel r buf data s = some (s1, some e, r1) →
    e = Error.EOF ∨ e = Error.ErrUnexpectedEOF ∨ ∃ s0 rec, (handle s0 rec).2 = some e := by
  induction fuel with
  | zero => intro r buf data s s1 e r1 h; simp [RecordsLoop] at h
  | succ fuel ih =>
    intro r buf data s s1 e r1 h
    unfold RecordsLoop at h
    split at h
    · simp at h
    · simp at h
    · rename_i err r2 hdec
      simp only [Option.some.injEq, Prod.mk.injEq] at h
      rcases decodeRecord_err reuse r buf data err r2 hdec with h1 | h1
      · left; rw [← h.2.1, h1]
      · right; left; rw [← h.2.1, h1]
    · rename_i off data1 buf1 r2 hdec
      split at h
      · rename_i s2 err hh
        simp only [Option.some.injEq, Prod.mk.injEq] at h
        right; right
        exact ⟨s, _, by rw [hh, ← h.2.1]⟩
      · exact ih _ _ _ _ _ _ _ h

/-! ## The header check -/

theorem slice_buf5_length : (slice (List.replicate 512 (0 : Byte)) 0 5).length = 5 := by
  rw [slice_buf5]; rfl

/-- `Records` on a stream of fewer than five bytes: the error of the failed header
read is returned and the handler state is the initial one. -/
theorem Records_short_header {σ : Type} (r : Reader) (reuse : Bool)
    (handle : σ → Record → σ × Option Error) (s : σ) (h : r.data.length < 5) :
    ∃ r1, Records r reuse handle s
      = some (s, some (if r.data = [] then Error.EOF else Error.ErrUnexpectedEOF), r1) := by
  obtain ⟨s1, r1, h1⟩ := checkHeader_short r (slice (List.replicate 512 0) 0 5) slice_buf5_length h
  exact ⟨r1, by simp only [Records, h1]⟩

/-- C3, the code at two streams too short to hold the magic string: on the empty
stream `Records` returns `io.EOF`, on the four bytes `"PATC"` it returns
`io.ErrUnexpectedEOF`, in both cases without invoking the handler.  The claim,
like the comment on `ErrInvalidMagic` ("Failed to read the IPS magic string."),
asks for `ErrInvalidMagic` there; `checkHeader` hands on the error of the failed
read instead. -/
theorem Records_short_stream_error :
    Records (Reader.ofBytes []) true collect [] = some ([], some Error.EOF, Reader.ofBytes []) ∧
    Records (Reader.ofBytes [80, 65, 84, 67]) true collect []
      = some ([], some Error.ErrUnexpectedEOF, Reader.ofBytes []) ∧
    Records (Reader.ofBytes [80, 65, 84, 67]) false collect []
      = some ([], some Error.ErrUnexpectedEOF, Reader.ofBytes []) := by
  refine ⟨?_, ?_, ?_⟩ <;> decide

/-- An `ErrInvalidMagic` returned by the decode loop was returned by the handler,
together with the state `Records` ends in. -/
theorem RecordsLoop_invalid_magic {σ : Type} (reuse : Bool)
    (handle : σ → Record → σ × Option Error) (fuel : Nat) :
    ∀ (r : Reader) (buf : List Byte) (data : Slice) (s s1 : σ) (r1 : Reader),
    RecordsLoop reuse handle fuel r buf data s = some (s1, some Error.ErrInvalidMagic, r1) →
    ∃ s0 rec, handle s0 rec = (s1, some Error.ErrInvalidMagic) := by
  induction fuel with
  | zero => intro r buf data s s1 r1 h; simp [RecordsLoop] at h
  | succ fuel ih =>
    intro r buf data s s1 r1 h
    unfold RecordsLoop at h
    split at h
    · simp at h
    · simp at h
    · rename_i err r2 hdec
      simp only [Option.some.injEq, Prod.mk.injEq] at h
      rcases decodeRecord_err reuse r buf data err r2 hdec with h1 | h1
      · rw [h1] at h; simp at h
      · rw [h1] at h; simp at h
    · rename_i off data1 buf1 r2 hdec
      split at h
      · rename_i s2 err hh
        simp only [Option.some.injEq, Prod.mk.injEq] at h
        exact ⟨s, _, by rw [hh, h.1, h.2.1]⟩
      · exact ih _ _ _ _ _ _ h

/-- C4, the code at a stream whose header is `"PATCH"`, with a handler that returns
`ErrInvalidMagic` for the record it is given: the header has been accepted, the
handler has been invoked once, and `Records` returns `ErrInvalidMagic`. -/
theorem Records_invalid_magic_counterexample :
    (Reader.ofBytes (magic ++ [0, 0, 1, 0, 1, 9] ++ eofMarker)).data.take 5 = magic ∧
    Records (Reader.ofBytes (magic ++ [0, 0, 1, 0, 1, 9] ++ eofMarker)) false
        (fun (n : Nat) (_ : Record) => (n + 1, some Error.ErrInvalidMagic)) 0
      = some (1, some Error.ErrInvalidMagic, Reader.ofBytes eofMarker) := by
  constructor
  · decide
  · decide!

/-- C4 as amended: on a patch stream of at least five bytes whose first five bytes
are not `"PATCH"`, `Records` returns `ErrInvalidMagic` having consumed exactly
those five bytes and without invoking the handler (its state is the initial
one, whatever the handler and whatever bytes follow); and whenever `Records`
returns `ErrInvalidMagic`, for any handler, either the stream is such a stream
(and the handler was not invoked), or the header was accepted and it is the
handler that returned `ErrInvalidMagic` for a record, leaving the state
`Records` ends in: after the header `Records` produces no `ErrInvalidMagic` of
its own. -/
theorem Records_invalid_magic_only {σ : Type} (r : Reader) (reuse : Bool)
    (handle : σ → Record → σ × Option Error) (s : σ) :
    (5 ≤ r.data.length ∧ r.data.take 5 ≠ magic →
      ∃ r1, Records r reuse handle s = some (s, some Error.ErrInvalidMagic, r1) ∧
        r1.data = r.data.drop 5) ∧
    (∀ s1 r1, Records r reuse handle s = some (s1, some Error.ErrInvalidMagic, r1) →
      (5 ≤ r.data.length ∧ r.data.take 5 ≠ magic ∧ s1 = s) ∨
      (r.data.take 5 = magic ∧ ∃ s0 rec, handle s0 rec = (s1, some Error.ErrInvalidMagic))) := by
  have first : 5 ≤ r.data.length ∧ r.data.take 5 ≠ magic →
      ∃ r1, Records r reuse handle s = some (s, some Error.ErrInvalidMagic, r1) ∧
        r1.data = r.data.drop 5 := by
    rintro ⟨hl, hne⟩
    obtain ⟨r1, h1, hr1⟩ := checkHeader_mismatch r (slice (List.replicate 512 0) 0 5)
      (r.data.take 5) (r.data.drop 5) slice_buf5_length (by simp; omega) hne
      (List.take_append_drop _ _).symm
    exact ⟨r1, by simp only [Records, h1], hr1⟩
  refine ⟨first, ?_⟩
  intro s1 r1 h
  by_cases hl : r.data.length < 5
  · obtain ⟨r2, h2⟩ := Records_short_header r reuse handle s hl
    rw [h2] at h
    simp only [Option.some.injEq, Prod.mk.injEq] at h
    have := h.2.1
    split at this <;> simp at this
  · by_cases hm : r.data.take 5 = magic
    · right
      refine ⟨hm, ?_⟩
      obtain ⟨r2, h2, hr2⟩ := checkHeader_magic r (slice (List.replicate 512 0) 0 5)
        (r.data.drop 5) slice_buf5_length (by rw [← hm]; exact (List.take_append_drop _ _).symm)
      simp only [Records, h2] at h
      exact RecordsLoop_invalid_magic reuse handle _ _ _ _ _ _ _ h
    · left
      obtain ⟨r2, h2, _⟩ := first ⟨by omega, hm⟩
      rw [h2] at h
      simp only [Option.some.injEq, Prod.mk.injEq] at h
      exact ⟨by omega, hm, h.1.symm⟩

/-- C4 as amended, at the stream `"PATCI"` followed by two bytes. -/
theorem Records_invalid_magic_only_witness :
    (5 ≤ (Reader.ofBytes [80, 65, 84, 67, 73, 1, 2]).data.length ∧
      (Reader.ofBytes [80, 65, 84, 67, 73, 1, 2]).data.take 5 ≠ magic) ∧
    ∃ r1, Records (Reader.ofBytes [80, 65, 84, 67, 73, 1, 2]) true collect []
        = some ([], some Error.ErrInvalidMagic, r1) ∧
      r1.data = (Reader.ofBytes [80, 65, 84, 67, 73, 1, 2]).data.drop 5 :=
  ⟨by decide,
    (Records_invalid_magic_only (Reader.ofBytes [80, 65, 84, 67, 73, 1, 2]) true collect []).1
      (by decide)⟩

/-! ## Truncated records and the offset that spells `"EOF"` -/

/-- C5, the code at streams that end inside an RLE record.  On
`"PATCH" ++ 00 01 02 ++ 00 00` the read of the count and fill byte (line 129)
fails, but its error is not looked at, unlike that of every other read: the
count and the fill byte are taken from the offset bytes still in the header
buffer, the handler receives the record `{Offset: 0x000102, Data: [0x02]}` for
the incomplete RLE record, and only the next read makes `Records` return
`io.EOF`.  With one further byte `00` the failed read is an
`io.ErrUnexpectedEOF`, yet the handler receives the same record and `Records`
returns `io.EOF`; with two further bytes `00 03` the handler receives
three copies of the stale byte `0x02`.  The claim says that no record is
delivered for the incomplete RLE record. -/
theorem Records_truncated_rle_delivers_record :
    Records (Reader.ofBytes (magic ++ [0, 1, 2] ++ [0, 0])) true collect []
      = some ([{ Offset := 258, Data := [2] }], some Error.EOF, Reader.ofBytes []) ∧
    readFull (Reader.ofBytes [0]) [0, 1, 2]
      = some ([0, 1, 2], some Error.ErrUnexpectedEOF, Reader.ofBytes []) ∧
    Records (Reader.ofBytes (magic ++ [0, 1, 2] ++ [0, 0] ++ [0])) true collect []
      = some ([{ Offset := 258, Data := [2] }], some Error.EOF, Reader.ofBytes []) ∧
    Records (Reader.ofBytes (magic ++ [0, 1, 2] ++ [0, 0] ++ [0, 3])) false collect []
      = some ([{ Offset := 258, Data := [2, 2, 2] }], some Error.EOF, Reader.ofBytes []) := by
  refine ⟨?_, ?_, ?_, ?_⟩ <;> decide!

theorem be3_eq_eof (o : Nat) (h : o < 16777216) : be3 o = eofMarker ↔ o = 4542278 := by
  constructor
  · intro he
    simp only [be3, eofMarker, List.cons.injEq, and_true] at he
    obtain ⟨h0, h1, h2⟩ := he
    have e0 : o / 65536 % 256 = 69 := congrArg Fin.val h0
    have e1 : o / 256 % 256 = 79 := congrArg Fin.val h1
    have e2 : o % 256 = 70 := congrArg Fin.val h2
    omega
  · intro he; subst he; decide

/-- C7, the code at offset `0x454F46`: the three offset bytes spell `"EOF"`, so
`Records` takes them for the terminator, returns `nil` and delivers no record;
the size, the payload and the real terminator are left unread. -/
theorem Records_offset_eof_counterexample :
    (4542278 : Nat) ≤ 2 ^ 24 - 1 ∧
    Records (Reader.ofBytes (magic ++ be3 4542278 ++ be2 1 ++ [0] ++ eofMarker)) true collect []
      = some ([], none, Reader.ofBytes [0, 1, 0, 69, 79, 70]) := by
  constructor <;> decide!

/-- C7 as amended: for every 24-bit offset `o` other than `0x454F46` (whose bytes
are `"EOF"`) and every payload `d` of 1 to 65535 bytes, `Records` on
`"PATCH" ++ o ++ len d ++ d ++ "EOF"` delivers exactly one record, with
`Offset = o` and `Data = d`, returns `nil` and has consumed the whole stream. -/
theorem Records_single_literal (o : Nat) (d : List Byte) (sched : List Nat) (reuse : Bool)
    (ho : o < 16777216) (hne : o ≠ 4542278) (hd1 : 1 ≤ d.length) (hd2 : d.length ≤ 65535) :
    ∃ r1, Records { data := magic ++ be3 o ++ be2 d.length ++ d ++ eofMarker, sched := sched }
        reuse collect []
      = some ([{ Offset := o, Data := d }], none, r1) ∧ r1.data = [] := by
  obtain ⟨r1, h1, hr1⟩ := Records_decode reuse collect [WireRecord.literal o d]
    { data := magic ++ be3 o ++ be2 d.length ++ d ++ eofMarker, sched := sched } [] []
    (by
      intro w hw
      simp only [List.mem_singleton] at hw
      subst hw
      exact ⟨⟨ho, hd1, hd2⟩, fun he => hne ((be3_eq_eof o ho).mp he)⟩)
    (by simp [encodeAll, WireRecord.encode])
  exact ⟨r1, by simpa [runHandler, collect, WireRecord.toRecord] using h1,
    hr1 (by simp [runHandler, collect])⟩

/-- C7 as amended, at offset `0x454F47` with a three-byte payload. -/
theorem Records_single_literal_witness :
    (4542279 : Nat) < 16777216 ∧ (4542279 : Nat) ≠ 4542278 ∧
    1 ≤ ([1, 2, 3] : List Byte).length ∧ ([1, 2, 3] : List Byte).length ≤ 65535 ∧
    ∃ r1, Records { data := magic ++ be3 4542279 ++ be2 ([1, 2, 3] : List Byte).length ++ [1, 2, 3]
          ++ eofMarker, sched := [2] } false collect []
      = some ([{ Offset := 4542279, Data := [1, 2, 3] }], none, r1) ∧ r1.data = [] :=
  ⟨by decide, by decide, by decide, by decide,
    Records_single_literal 4542279 [1, 2, 3] [2] false (by decide) (by decide) (by decide)
      (by decide)⟩

/-! ## A stream that ends inside a literal payload -/

theorem literalLoop_short (fuel : Nat) : ∀ (r : Reader) (buf : List Byte) (data : Slice)
    (size left : Nat), r.data.length < left → r.data.length < fuel → 1 ≤ buf.length →
    ∃ buf1 data1 r1, literalLoop fuel r buf data size left
      = some (some Error.EOF, buf1, data1, r1) := by
  induction fuel with
  | zero => intro r buf data size left _ hf; omega
  | succ fuel ih =>
    intro r buf data size left hlt hf hbuf
    have hl : left ≠ 0 := by omega
    by_cases hd : r.data = []
    · refine ⟨copyAt buf 0 [], data, r, ?_⟩
      unfold literalLoop
      rw [if_pos hl]
      simp only [Read_nil r _ hd, ite_self]
    · obtain ⟨p, r1, hread, hp1, hpk, hdat⟩ :
          ∃ p r1, (if left > buf.length then r.Read buf.length else r.Read left) = (p, none, r1) ∧
            1 ≤ p.length ∧ p.length ≤ min left buf.length ∧ r.data = p ++ r1.data := by
        by_cases hc : left > buf.length
        · obtain ⟨p, r1, h1, h2, h3, h4⟩ := Read_cons r buf.length hbuf hd
          exact ⟨p, r1, by rw [if_pos hc]; exact h1, h2, by omega, h4⟩
        · obtain ⟨p, r1, h1, h2, h3, h4⟩ := Read_cons r left (by omega) hd
          exact ⟨p, r1, by rw [if_neg hc]; exact h1, h2, by omega, h4⟩
      have hlen : r.data.length = p.length + r1.data.length := by rw [hdat]; simp
      obtain ⟨buf2, data2, r2, hloop⟩ := ih r1 (copyAt buf 0 p)
        { data with arr := copyAt (data.arr.take data.len) (size - left) ((copyAt buf 0 p).take p.length)
                                ++ data.arr.drop data.len }
        size (left - p.length) (by omega) (by omega)
        (by rw [copyAt_zero_length buf p (by omega)]; exact hbuf)
      refine ⟨buf2, data2, r2, ?_⟩
      unfold literalLoop
      rw [if_pos hl]
      simp only [hread]
      exact hloop

/-- The decode loop body on a literal record whose payload is cut short by the end
of the stream: it returns `io.EOF`. -/
theorem decodeRecord_literal_short (reuse : Bool) (r : Reader) (buf : List Byte) (data : Slice)
    (o0 o1 o2 s0 s1 : Byte) (payload : List Byte)
    (hd : r.data = [o0, o1, o2] ++ [s0, s1] ++ payload)
    (hne : [o0, o1, o2] ≠ eofMarker)
    (hlen : payload.length < s0.val * 256 + s1.val) (hbuf : 5 ≤ buf.length) :
    ∃ r1, decodeRecord reuse r buf data = some (Step.fail Error.EOF r1) := by
  obtain ⟨r1, h1, hr1⟩ := readFull_ok r (slice buf 0 3) [o0, o1, o2] ([s0, s1] ++ payload)
    (by rw [hd]; simp) (by rw [slice_length buf 0 3 (by omega)]; rfl)
  obtain ⟨b0, b1, b2, b3, b4, tl, rfl⟩ : ∃ b0 b1 b2 b3 b4 tl, buf = b0 :: b1 :: b2 :: b3 :: b4 :: tl := by
    match buf, hbuf with
    | b0 :: b1 :: b2 :: b3 :: b4 :: tl, _ => exact ⟨b0, b1, b2, b3, b4, tl, rfl⟩
  have hb1 : copyAt (b0 :: b1 :: b2 :: b3 :: b4 :: tl) 0 [o0, o1, o2] = o0 :: o1 :: o2 :: b3 :: b4 :: tl := by
    rw [copyAt_zero _ _ (by simp)]; simp
  obtain ⟨r2, h2, hr2⟩ := readFull_ok r1 (slice (o0 :: o1 :: o2 :: b3 :: b4 :: tl) 3 5) [s0, s1]
    payload (by rw [hr1]) (by simp [slice])
  have hb2 : copyAt (o0 :: o1 :: o2 :: b3 :: b4 :: tl) 3 [s0, s1] = o0 :: o1 :: o2 :: s0 :: s1 :: tl := by
    have := copyAt_append [o0, o1, o2] (b3 :: b4 :: tl) [s0, s1] (by simp)
    simpa using this
  have hsize : bytes2ToInt64 (slice (o0 :: o1 :: o2 :: s0 :: s1 :: tl) 3 5) = s0.val * 256 + s1.val := by
    rw [← bytes2_eq]; simp [slice]
  have hsz : s0.val * 256 + s1.val ≠ 0 := by omega
  obtain ⟨buf3, data3, r3, h3⟩ := literalLoop_short (s0.val * 256 + s1.val) r2
    (o0 :: o1 :: o2 :: s0 :: s1 :: tl) (allocData reuse data (s0.val * 256 + s1.val))
    (s0.val * 256 + s1.val) (s0.val * 256 + s1.val) (by rw [hr2]; exact hlen)
    (by rw [hr2]; exact hlen) (by simp)
  refine ⟨r3, ?_⟩
  have hne1 : ¬ slice (o0 :: o1 :: o2 :: b3 :: b4 :: tl) 0 3 = eofMarker := by
    simpa [slice] using hne
  simp only [decodeRecord, h1, hb1, hne1, if_false, h2, hb2, hsize, hsz, h3]

/-- The decode loop on the encodings of well-formed records followed by anything:
with a handler that accepts its records, the loop hands out these records in
order and goes on, with what is left of its budget, at the bytes that follow. -/
theorem RecordsLoop_records {σ : Type} (reuse : Bool) (handle : σ → Record → σ × Option Error)
    (hacc : ∀ s rec, (handle s rec).2 = none)
    (ws : List WireRecord) : ∀ (fuel : Nat) (r : Reader) (buf : List Byte) (data : Slice) (s : σ)
    (tail : List Byte), (∀ w ∈ ws, w.WellFormed ∧ w.NotEOF) →
    r.data = encodeAll ws ++ tail → 5 ≤ buf.length →
    ∃ r1 buf1 data1, r1.data = tail ∧ 5 ≤ buf1.length ∧
      RecordsLoop reuse handle (ws.length + fuel) r buf data s
        = RecordsLoop reuse handle fuel r1 buf1 data1
            ((ws.map WireRecord.toRecord).foldl (fun s rec => (handle s rec).1) s) := by
  induction ws with
  | nil =>
    intro fuel r buf data s tail _ hd hbuf
    exact ⟨r, buf, data, by simpa [encodeAll] using hd, hbuf, by simp⟩
  | cons w ws ih =>
    intro fuel r buf data s tail hws hd hbuf
    have hw := hws w (List.mem_cons_self _ _)
    obtain ⟨data1, buf1, r1, h1, hto, hb1, hr1⟩ := decodeRecord_wire reuse r buf data w
      (encodeAll ws ++ tail) hw.1 hw.2 (by rw [hd]; simp [encodeAll]) hbuf
    have hrec : ({ Offset := w.toRecord.Offset, Data := data1.toList } : Record) = w.toRecord := by
      rw [hto]
    obtain ⟨r2, buf2, data2, hr2, hb2, h2⟩ := ih fuel r1 buf1 data1 (handle s w.toRecord).1 tail
      (fun w hw => hws w (List.mem_cons_of_mem _ hw)) hr1 (by omega)
    refine ⟨r2, buf2, data2, hr2, hb2, ?_⟩
    have hf : (w :: ws).length + fuel = (ws.length + fuel) + 1 := by simp; omega
    rw [hf]
    simp only [RecordsLoop, h1, hrec, List.map_cons, List.foldl_cons]
    have hh := hacc s w.toRecord
    rcases hs : handle s w.toRecord with ⟨s1, e⟩
    rw [hs] at hh h2
    simp only at hh
    subst hh
    exact h2

/-- The decoder on a patch whose last record is a literal record cut short by the
end of the stream, for a handler that accepts its records: the handler has
been run over the complete records, and the result is `io.EOF`. -/
theorem Records_literal_cut {σ : Type} (reuse : Bool) (handle : σ → Record → σ × Option Error)
    (hacc : ∀ s rec, (handle s rec).2 = none) (ws : List WireRecord) (r : Reader) (s : σ)
    (off size : Nat) (payload : List Byte)
    (hws : ∀ w ∈ ws, w.WellFormed ∧ w.NotEOF)
    (hoff : off < 16777216) (hne : be3 off ≠ eofMarker) (hsz : size ≤ 65535)
    (hp : payload.length < size)
    (hd : r.data = magic ++ encodeAll ws ++ be3 off ++ be2 size ++ payload) :
    ∃ r1, Records r reuse handle s
      = some ((ws.map WireRecord.toRecord).foldl (fun s rec => (handle s rec).1) s,
          some Error.EOF, r1) := by
  obtain ⟨r1, h1, hr1⟩ := checkHeader_magic r (slice (List.replicate 512 0) 0 5)
    (encodeAll ws ++ (be3 off ++ be2 size ++ payload)) slice_buf5_length (by rw [hd]; simp)
  have hm : magic.length ≤ (List.replicate 512 (0 : Byte)).length := by
    rw [List.length_replicate]; decide
  have hfuel : r1.data.length + 1 = ws.length + ((r1.data.length - ws.length) + 1) := by
    have := encodeAll_length ws
    rw [hr1]; simp only [List.length_append]; omega
  obtain ⟨r2, buf2, data2, hr2, hb2, h2⟩ := RecordsLoop_records reuse handle hacc ws
    ((r1.data.length - ws.length) + 1) r1 (copyAt (List.replicate 512 0) 0 magic) Slice.empty s
    (be3 off ++ be2 size ++ payload) hws hr1
    (by rw [copyAt_zero_length _ _ hm, List.length_replicate]; omega)
  obtain ⟨o0, o1, o2, ho, _⟩ := be3_val off hoff
  obtain ⟨s0, s1, hs, hsv⟩ := be2_val size (by omega)
  obtain ⟨r3, h3⟩ := decodeRecord_literal_short reuse r2 buf2 data2 o0 o1 o2 s0 s1 payload
    (by rw [hr2, ho, hs]) (by rw [← ho]; exact hne) (by rw [hsv]; exact hp) hb2
  refine ⟨r3, ?_⟩
  simp only [Records, h1]
  rw [hfuel, h2]
  simp only [RecordsLoop, h3]

/-- C6, the code at a stream whose incomplete literal record has the offset
`0x454F46`: the offset bytes spell `"EOF"`, so `Records` returns `nil`, not an
I/O error, and leaves the size field and the two payload bytes unread. -/
theorem Records_truncated_literal_counterexample :
    ([1, 2] : List Byte).length < 4 ∧
    Records (Reader.ofBytes (magic ++ encodeAll [] ++ be3 4542278 ++ be2 4 ++ [1, 2])) true collect []
      = some ([], none, Reader.ofBytes [0, 4, 1, 2]) := by
  constructor
  · decide
  · decide!

/-- C6 as amended: a patch stream that ends inside a literal payload and in which
no offset field is `"EOF"`.  For well-formed records `r1..rk` and an incomplete
literal record (a 24-bit offset, a size `s` of at most 65535, fewer than `s`
payload bytes), none of these offset fields being `"EOF"`, every read schedule
and either value of the reuse flag, `Records` returns the I/O error `io.EOF`,
which is not `ErrInvalidMagic`, and the handler is invoked for exactly `r1..rk`:
the recording handler `collect` has received `r1..rk` and nothing for the
incomplete record, and any handler that accepts its records has been run over
`r1..rk`. -/
theorem Records_truncated_literal (ws : List WireRecord) (off size : Nat)
    (payload : List Byte) (sched : List Nat) (reuse : Bool)
    (hws : ∀ w ∈ ws, w.WellFormed ∧ w.NotEOF)
    (hoff : off < 16777216) (hne : be3 off ≠ eofMarker) (hsz : size ≤ 65535)
    (hp : payload.length < size) :
    (∃ r1, Records
        { data := magic ++ encodeAll ws ++ be3 off ++ be2 size ++ payload, sched := sched } reuse collect []
        = some (ws.map WireRecord.toRecord, some Error.EOF, r1)) ∧
    (∀ (σ : Type) (handle : σ → Record → σ × Option Error) (s : σ),
      (∀ s rec, (handle s rec).2 = none) →
      ∃ r1, Records
          { data := magic ++ encodeAll ws ++ be3 off ++ be2 size ++ payload, sched := sched } reuse handle s
        = some ((ws.map WireRecord.toRecord).foldl (fun s rec => (handle s rec).1) s,
            some Error.EOF, r1)) ∧
    Error.EOF ≠ Error.ErrInvalidMagic := by
  refine ⟨?_, ?_, by decide⟩
  · obtain ⟨r1, h1⟩ := Records_literal_cut reuse collect (fun _ _ => rfl) ws
      { data := magic ++ encodeAll ws ++ be3 off ++ be2 size ++ payload, sched := sched } []
      off size payload hws hoff hne hsz hp rfl
    rw [foldl_collect] at h1
    exact ⟨r1, by simpa using h1⟩
  · intro σ handle s hacc
    exact Records_literal_cut reuse handle hacc ws _ s off size payload hws hoff hne hsz hp rfl

/-- C6 as amended, at a concrete stream: one complete RLE record, then a literal
record that announces four payload bytes and carries two. -/
theorem Records_truncated_literal_witness :
    (∀ w ∈ [WireRecord.rle 5 4 127], w.WellFormed ∧ w.NotEOF) ∧
    (16 : Nat) < 16777216 ∧ be3 16 ≠ eofMarker ∧ (4 : Nat) ≤ 65535 ∧
    ([170, 187] : List Byte).length < 4 ∧
    ∃ r1, Records { data := magic ++ encodeAll [WireRecord.rle 5 4 127] ++ be3 16 ++ be2 4
          ++ [170, 187], sched := [3, 1] } true collect []
        = some ([{ Offset := 5, Data := [127, 127, 127, 127] }], some Error.EOF, r1) :=
  ⟨by decide, by decide, by decide, by decide, by decide,
    (Records_truncated_literal [WireRecord.rle 5 4 127] 16 4 [170, 187] [3, 1] true
      (by decide) (by decide) (by decide) (by decide) (by decide)).1⟩

/-! ## The records a successful run has delivered -/

/-- A run of the decode loop that returns `nil` has handed the handler exactly the
records the recording handler `collect` receives on the same input, and the
handler accepted each of them. -/
theorem RecordsLoop_trace {σ : Type} (reuse : Bool) (handle : σ → Record → σ × Option Error)
    (fuel : Nat) : ∀ (r : Reader) (buf : List Byte) (data : Slice) (s s1 : σ) (r1 : Reader)
    (acc : List Record), RecordsLoop reuse handle fuel r buf data s = some (s1, none, r1) →
    ∃ recs, RecordsLoop reuse collect fuel r buf data acc = some (acc ++ recs, none, r1) ∧
      runHandler handle s recs = (s1, none) := by
  induction fuel with
  | zero => intro r buf data s s1 r1 acc h; simp [RecordsLoop] at h
  | succ fuel ih =>
    intro r buf data s s1 r1 acc h
    unfold RecordsLoop at h ⊢
    split at h
    · simp at h
    · rename_i r2 hdec
      simp only [Option.some.injEq, Prod.mk.injEq, true_and] at h
      refine ⟨[], ?_, ?_⟩
      · simp [h.2]
      · simp [runHandler, h.1]
    · simp at h
    · rename_i off data1 buf1 r2 hdec
      split at h
      · simp at h
      · rename_i s2 hh
        obtain ⟨recs, h2, h3⟩ := ih r2 buf1 data1 s2 s1 r1
          (acc ++ [{ Offset := off, Data := data1.toList }]) h
        refine ⟨{ Offset := off, Data := data1.toList } :: recs, ?_, ?_⟩
        · simp only [collect]
          rw [h2]; simp
        · simp only [runHandler, hh]
          exact h3

/-- The same for `Records`. -/
theorem Records_trace {σ : Type} (reuse : Bool) (handle : σ → Record → σ × Option Error)
    (r : Reader) (s s1 : σ) (r1 : Reader)
    (h : Records r reuse handle s = some (s1, none, r1)) :
    ∃ recs, Records r reuse collect [] = some (recs, none, r1) ∧
      runHandler handle s recs = (s1, none) := by
  simp only [Records] at h ⊢
  split at h
  · simp at h
  · simp at h
  · rename_i hdr r2 hc
    obtain ⟨recs, h2, h3⟩ := RecordsLoop_trace reuse handle _ _ _ _ _ _ _ [] h
    rw [List.nil_append] at h2
    exact ⟨recs, h2, h3⟩

/-- The count kept by the handler of `PatchTo`: when it has accepted `recs`, and
the sink reports full writes, `wrote` has grown by the lengths of their data. -/
theorem runHandler_patchHandler_wrote {ω : Type} (dstW : WriteSeeker ω)
    (hfull : ∀ f p f1 n, dstW.Write f p = (f1, n, none) → n = (p.length : Int))
    (recs : List Record) : ∀ (dst dst1 : ω) (w w1 : Int),
    runHandler (patchHandler dstW) (dst, w) recs = ((dst1, w1), none) →
    w1 = w + (recs.map (fun rec => (rec.Data.length : Int))).sum := by
  induction recs with
  | nil =>
    intro dst dst1 w w1 h
    simp only [runHandler, Prod.mk.injEq, and_true] at h
    simp [h.2]
  | cons rec recs ih =>
    intro dst dst1 w w1 h
    simp only [runHandler] at h
    split at h
    · simp at h
    · rename_i s2 hh
      obtain ⟨dst2, w2⟩ := s2
      have h2 := ih dst2 dst1 w2 w1 h
      unfold patchHandler at hh
      simp only at hh
      split at hh
      · simp at hh
      · rename_i dst3 hseek
        split at hh
        · simp at hh
        · rename_i dst4 n hwrite
          simp only [Prod.mk.injEq, and_true] at hh
          have hn := hfull _ _ _ _ hwrite
          rw [h2, ← hh.2, hn]
          simp only [List.map_cons, List.sum_cons]
          ring

/-! ## The count returned by `PatchTo` -/

/-- C8: whenever `PatchTo` succeeds on a sink whose `Write` reports full writes
(the contract of `io.Writer`: a `nil` error means `n = len(p)`), the count it
returns is the sum of `len(Data)` over all records decoded from the patch
stream, each record counted once whether or not it overlaps another; the
bytes of the initial copy of the original file are not part of it. -/
theorem PatchTo_count {ω : Type} (dstW : WriteSeeker ω) (p : Patcher) (dst out : ω) (cnt : Int)
    (hfull : ∀ f q f1 n, dstW.Write f q = (f1, n, none) → n = (q.length : Int))
    (h : PatchTo dstW p dst = some (out, cnt, none)) :
    ∃ recs r1, Records p.patch true collect [] = some (recs, none, r1) ∧
      cnt = (recs.map (fun rec => (rec.Data.length : Int))).sum := by
  unfold PatchTo at h
  split at h
  · simp at h
  · simp at h
  · rename_i dst1 n1 src1 hcopy
    split at h
    · simp at h
    · simp at h
    · rename_i dst2 wrote r1 hrec
      simp only [Option.some.injEq, Prod.mk.injEq, and_true] at h
      obtain ⟨recs, h2, h3⟩ := Records_trace true (patchHandler dstW) p.patch _ _ _ hrec
      refine ⟨recs, r1, h2, ?_⟩
      have := runHandler_patchHandler_wrote dstW hfull recs _ _ _ _ h3
      rw [← h.2, this]; simp

/-- C8 on the in-memory file: two overlapping records of three and four bytes
over a file of eight bytes give the count seven. -/
theorem PatchTo_count_witness :
    (∀ (f : MemFile) (q : List Byte) (f1 : MemFile) (n : Int),
        memSink.Write f q = (f1, n, none) → n = (q.length : Int)) ∧
    PatchTo memSink
        (NewPatcher (Reader.ofBytes (magic ++ [0, 0, 2, 0, 3, 170, 187, 204] ++ [0, 0, 3, 0, 0, 0, 4, 127]
            ++ eofMarker)) (Reader.ofBytes [1, 2, 3, 4, 5, 6, 7, 8])) MemFile.fresh
      = some ({ data := [1, 2, 170, 127, 127, 127, 127, 8], pos := 7 }, 7, none) ∧
    ∃ recs r1, Records (NewPatcher (Reader.ofBytes (magic ++ [0, 0, 2, 0, 3, 170, 187, 204]
            ++ [0, 0, 3, 0, 0, 0, 4, 127] ++ eofMarker)) (Reader.ofBytes [1, 2, 3, 4, 5, 6, 7, 8])).patch
          true collect [] = some (recs, none, r1) ∧
      (7 : Int) = (recs.map (fun rec => (rec.Data.length : Int))).sum :=
  have hfull : ∀ (f : MemFile) (q : List Byte) (f1 : MemFile) (n : Int),
      memSink.Write f q = (f1, n, none) → n = (q.length : Int) := by
    intro f q f1 n h
    simp only [memSink, Prod.mk.injEq, and_true] at h
    exact h.2.symm
  have hrun : PatchTo memSink
        (NewPatcher (Reader.ofBytes (magic ++ [0, 0, 2, 0, 3, 170, 187, 204] ++ [0, 0, 3, 0, 0, 0, 4, 127]
            ++ eofMarker)) (Reader.ofBytes [1, 2, 3, 4, 5, 6, 7, 8])) MemFile.fresh
      = some ({ data := [1, 2, 170, 127, 127, 127, 127, 8], pos := 7 }, 7, none) := by decide!
  ⟨hfull, hrun, PatchTo_count memSink _ _ _ _ hfull hrun⟩

/-- C9: whenever `PatchTo` returns a non-nil error, whichever step it comes from
and whatever has been written to the sink by then, the count it returns is 0. -/
theorem PatchTo_error_count {ω : Type} (dstW : WriteSeeker ω) (p : Patcher) (dst out : ω)
    (cnt : Int) (e : Error) (h : PatchTo dstW p dst = some (out, cnt, some e)) : cnt = 0 := by
  unfold PatchTo at h
  split at h
  · simp at h
  · simp only [Option.some.injEq, Prod.mk.injEq] at h
    exact h.2.1.symm
  · split at h
    · simp at h
    · simp only [Option.some.injEq, Prod.mk.injEq] at h
      exact h.2.1.symm
    · simp at h

/-- C9 on the in-memory file: the patch holds one complete record and then ends
without a terminator; the record's two bytes are in the sink, the error is
`io.EOF` and the count is 0. -/
theorem PatchTo_error_count_witness :
    PatchTo memSink (NewPatcher (Reader.ofBytes (magic ++ [0, 0, 1, 0, 2, 9, 9]))
        (Reader.ofBytes [1, 2, 3, 4])) MemFile.fresh
      = some ({ data := [1, 9, 9, 4], pos := 3 }, 0, some Error.EOF) ∧ (0 : Int) = 0 :=
  have hrun : PatchTo memSink (NewPatcher (Reader.ofBytes (magic ++ [0, 0, 1, 0, 2, 9, 9]))
        (Reader.ofBytes [1, 2, 3, 4])) MemFile.fresh
      = some ({ data := [1, 9, 9, 4], pos := 3 }, 0, some Error.EOF) := by decide!
  ⟨hrun, PatchTo_error_count memSink _ _ _ _ _ hrun⟩

/-! ## Writing into the in-memory file -/

theorem writeAt_end (d p : List Byte) : writeAt d d.length p = d ++ p := by
  unfold writeAt
  split
  · rename_i h; simp [h]
  · simp

theorem writeAt_length_le (d : List Byte) (pos : Nat) (p : List Byte) :
    d.length ≤ (writeAt d pos p).length := by
  unfold writeAt
  split
  · exact Nat.le_refl _
  · simp only [List.length_append, List.length_take, List.length_drop, List.length_replicate]
    omega

/-- A position inside the written range holds the written byte. -/
theorem writeAt_covered (d : List Byte) (pos : Nat) (p : List Byte) (i : Nat)
    (h1 : pos ≤ i) (h2 : i < pos + p.length) :
    (writeAt d pos p)[i]? = p[i - pos]? := by
  have hp : p ≠ [] := by
    intro h; simp [h] at h2; omega
  unfold writeAt
  rw [if_neg hp]
  simp only
  have hlen : ((d ++ List.replicate (pos - d.length) 0).take pos).length = pos := by
    simp only [List.length_take, List.length_append, List.length_replicate]; omega
  rw [List.append_assoc, List.getElem?_append_right (by omega), hlen,
    List.getElem?_append_left (by omega)]

/-- A position of the old contents outside the written range keeps its byte. -/
theorem writeAt_not_covered (d : List Byte) (pos : Nat) (p : List Byte) (i : Nat)
    (hi : i < d.length) (h : ¬ (pos ≤ i ∧ i < pos + p.length)) :
    (writeAt d pos p)[i]? = d[i]? := by
  unfold writeAt
  split
  · rfl
  · simp only
    have hlen : ((d ++ List.replicate (pos - d.length) 0).take pos).length = pos := by
      simp only [List.length_take, List.length_append, List.length_replicate]; omega
    by_cases hlt : i < pos
    · rw [List.append_assoc, List.getElem?_append_left (by omega),
        List.getElem?_take_of_lt hlt, List.getElem?_append_left hi]
    · have hge : pos + p.length ≤ i := by omega
      rw [List.getElem?_append_right (by simp only [List.length_append]; omega),
        List.getElem?_drop, List.length_append, hlen]
      have e : pos + p.length + (i - (pos + p.length)) = i := by omega
      rw [e, List.getElem?_append_left hi]

theorem applyRecords_length_le (recs : List Record) : ∀ d : List Byte,
    d.length ≤ (applyRecords d recs).length := by
  induction recs with
  | nil => intro d; exact Nat.le_refl _
  | cons rec recs ih =>
    intro d
    exact Nat.le_trans (writeAt_length_le d rec.Offset rec.Data) (ih _)

/-- A position of the old contents that no record covers keeps its byte. -/
theorem applyRecords_not_covered (recs : List Record) : ∀ (d : List Byte) (i : Nat),
    i < d.length → (∀ rec ∈ recs, ¬ covers rec i) → (applyRecords d recs)[i]? = d[i]? := by
  induction recs with
  | nil => intro d i _ _; rfl
  | cons rec recs ih =>
    intro d i hi hc
    have h1 := ih (writeAt d rec.Offset rec.Data) i
      (Nat.lt_of_lt_of_le hi (writeAt_length_le _ _ _))
      (fun r hr => hc r (List.mem_cons_of_mem _ hr))
    have h2 := writeAt_not_covered d rec.Offset rec.Data i hi (hc rec (List.mem_cons_self _ _))
    simp only [applyRecords, List.foldl_cons] at h1 ⊢
    rw [h1, h2]

/-- A position holds the byte of the last record that covers it. -/
theorem applyRecords_last_cover (pre : List Record) (rec : Record) (post : List Record)
    (d : List Byte) (i : Nat) (hc : covers rec i) (hpost : ∀ r ∈ post, ¬ covers r i) :
    (applyRecords d (pre ++ rec :: post))[i]? = rec.Data[i - rec.Offset]? := by
  have h0 : applyRecords d (pre ++ rec :: post)
      = applyRecords (writeAt (applyRecords d pre) rec.Offset rec.Data) post := by
    simp [applyRecords, List.foldl_append]
  have hw := writeAt_covered (applyRecords d pre) rec.Offset rec.Data i hc.1 hc.2
  have hlt : i < (writeAt (applyRecords d pre) rec.Offset rec.Data).length := by
    have hsome : rec.Data[i - rec.Offset]? ≠ none := by
      intro hn
      rw [List.getElem?_eq_none_iff] at hn
      have := hc.1; have := hc.2
      omega
    rw [← hw] at hsome
    by_contra hge
    exact hsome (List.getElem?_eq_none (by omega))
  rw [h0, applyRecords_not_covered post _ i hlt hpost, hw]

/-! ## `PatchTo` on the in-memory file -/

/-- Copying into the in-memory file at its end appends the whole source. -/
theorem CopyLoop_mem (fuel : Nat) : ∀ (src : Reader) (dst : MemFile) (written : Int),
    dst.pos = dst.data.length → src.data.length < fuel →
    ∃ src1, CopyLoop memSink fuel src dst written
      = some ({ data := dst.data ++ src.data, pos := dst.pos + src.data.length },
          written + (src.data.length : Int), none, src1) := by
  induction fuel with
  | zero => intro src dst written _ hf; omega
  | succ fuel ih =>
    intro src dst written hpos hf
    by_cases hd : src.data = []
    · refine ⟨src, ?_⟩
      simp [CopyLoop, Read_nil src _ hd, hd]
    · obtain ⟨p, src1, hread, hp1, hpk, hdat⟩ := Read_cons src 32768 (by omega) hd
      have hlen : src.data.length = p.length + src1.data.length := by rw [hdat]; simp
      obtain ⟨src2, h2⟩ := ih src1
        { data := writeAt dst.data dst.pos p, pos := dst.pos + p.length }
        (written + (p.length : Int))
        (by simp only [hpos, writeAt_end, List.length_append])
        (by omega)
      refine ⟨src2, ?_⟩
      have hp0 : 0 < p.length := by omega
      have hbad : ¬ ((p.length : Int) < 0 ∨ (p.length : Int) < (p.length : Int)) := by omega
      have hw : memSink.Write dst p
          = ({ data := writeAt dst.data dst.pos p, pos := dst.pos + p.length }, (p.length : Int), none) :=
        rfl
      simp only [CopyLoop, hread, hp0, if_true, hw, hbad, decide_False, Bool.false_eq_true,
        if_false, ne_eq, not_true_eq_false]
      rw [h2]
      simp only [hpos, writeAt_end, hdat, List.append_assoc, List.length_append, Nat.cast_add]
      simp only [Option.some.injEq, Prod.mk.injEq, MemFile.mk.injEq, and_true, true_and]
      constructor <;> omega

theorem Copy_mem (src : Reader) :
    ∃ src1, Copy memSink MemFile.fresh src
      = some ({ data := src.data, pos := src.data.length }, (src.data.length : Int), none, src1) := by
  obtain ⟨src1, h⟩ := CopyLoop_mem (src.data.length + 1) src MemFile.fresh 0 rfl (by omega)
  exact ⟨src1, by simpa [Copy, MemFile.fresh] using h⟩

theorem patchHandler_mem_accept (s : MemFile × Int) (rec : Record) :
    (patchHandler memSink s rec).2 = none := rfl

/-- The handler of `PatchTo` run over a list of records on the in-memory file:
the contents are overwritten record by record and `wrote` grows by the
lengths of their data. -/
theorem foldl_patchHandler_mem (recs : List Record) : ∀ (f : MemFile) (w : Int),
    (recs.foldl (fun s rec => (patchHandler memSink s rec).1) (f, w)).1.data
        = applyRecords f.data recs ∧
    (recs.foldl (fun s rec => (patchHandler memSink s rec).1) (f, w)).2
        = w + (recs.map (fun rec => (rec.Data.length : Int))).sum := by
  induction recs with
  | nil => intro f w; simp [applyRecords]
  | cons rec recs ih =>
    intro f w
    have h := ih { data := writeAt f.data rec.Offset rec.Data, pos := rec.Offset + rec.Data.length }
      (w + (rec.Data.length : Int))
    simp only [List.foldl_cons, applyRecords, List.map_cons, List.sum_cons] at h ⊢
    have e : (patchHandler memSink (f, w) rec).1
        = ({ data := writeAt f.data rec.Offset rec.Data, pos := rec.Offset + rec.Data.length },
            w + (rec.Data.length : Int)) := rfl
    rw [e]
    exact ⟨h.1, by rw [h.2]; ring⟩

/-- `PatchTo` with a well-formed patch on a fresh in-memory file: it succeeds, the
file holds the original overwritten by the records in stream order, and the
count is the total length of their data. -/
theorem PatchTo_mem (ws : List WireRecord) (F : List Byte) (patch file : Reader)
    (hws : ∀ w ∈ ws, w.WellFormed ∧ w.NotEOF)
    (hp : patch.data = magic ++ encodeAll ws ++ eofMarker) (hf : file.data = F) :
    ∃ out, PatchTo memSink (NewPatcher patch file) MemFile.fresh
        = some (out, ((ws.map WireRecord.toRecord).map (fun rec => (rec.Data.length : Int))).sum,
            none) ∧
      out.data = applyRecords F (ws.map WireRecord.toRecord) := by
  obtain ⟨src1, hcopy⟩ := Copy_mem file
  obtain ⟨r1, hrec, _⟩ := Records_decode true (patchHandler memSink) ws patch
    (({ data := file.data, pos := file.data.length } : MemFile), (0 : Int)) [] hws (by rw [hp]; simp)
  rw [runHandler_accept (patchHandler memSink) patchHandler_mem_accept] at hrec
  obtain ⟨h1, h2⟩ := foldl_patchHandler_mem (ws.map WireRecord.toRecord)
    { data := file.data, pos := file.data.length } 0
  rcases hfold : (ws.map WireRecord.toRecord).foldl
      (fun s rec => (patchHandler memSink s rec).1)
      (({ data := file.data, pos := file.data.length } : MemFile), (0 : Int)) with ⟨out, wrote⟩
  rw [hfold] at hrec h1 h2
  refine ⟨out, ?_, by rw [← hf]; exact h1⟩
  simp only [PatchTo, NewPatcher, hcopy, hrec]
  simp only at h2
  rw [h2]; simp

/-! ## What `PatchTo` leaves in the output -/

/-- C1: for every original file `F` and every well-formed patch stream
(`"PATCH"`, the encodings of well-formed records `r1..rn` none of whose offset
fields is `"EOF"`, then `"EOF"`), whatever the read schedules of the two
readers, `PatchTo` on a fresh empty sink succeeds and leaves the sink equal to
`F` with `r1..rn` written over it in stream order: a position covered by some
record holds the byte given by the last record that covers it, and a position
below `len(F)` covered by no record holds the byte of `F`. -/
theorem PatchTo_overlays_records (F : List Byte) (ws : List WireRecord) (sp sf : List Nat)
    (hws : ∀ w ∈ ws, w.WellFormed ∧ w.NotEOF) :
    ∃ out cnt, PatchTo memSink
        (NewPatcher { data := magic ++ encodeAll ws ++ eofMarker, sched := sp }
          { data := F, sched := sf }) MemFile.fresh = some (out, cnt, none) ∧
      out.data = applyRecords F (ws.map WireRecord.toRecord) ∧
      (∀ pre w post i, ws = pre ++ w :: post → covers w.toRecord i →
        (∀ v ∈ post, ¬ covers v.toRecord i) →
        out.data[i]? = w.toRecord.Data[i - w.toRecord.Offset]?) ∧
      (∀ i, i < F.length → (∀ w ∈ ws, ¬ covers w.toRecord i) → out.data[i]? = F[i]?) := by
  obtain ⟨out, h1, h2⟩ := PatchTo_mem ws F
    { data := magic ++ encodeAll ws ++ eofMarker, sched := sp } { data := F, sched := sf }
    hws rfl rfl
  refine ⟨out, _, h1, h2, ?_, ?_⟩
  · intro pre w post i hsplit hc hpost
    rw [h2, hsplit, List.map_append, List.map_cons]
    exact applyRecords_last_cover _ _ _ F i hc (by
      intro r hr
      obtain ⟨v, hv, rfl⟩ := List.mem_map.mp hr
      exact hpost v hv)
  · intro i hi hnc
    rw [h2]
    exact applyRecords_not_covered _ F i hi (by
      intro r hr
      obtain ⟨v, hv, rfl⟩ := List.mem_map.mp hr
      exact hnc v hv)

/-- C1 at the patch `"PATCH" 000010 0003 AA BB CC "EOF"` over a file of 32 zero
bytes, the patch read in chunks of four bytes and the file in chunks of ten. -/
theorem PatchTo_overlays_records_witness :
    (∀ w ∈ [WireRecord.literal 16 [170, 187, 204]], w.WellFormed ∧ w.NotEOF) ∧
    ∃ out cnt, PatchTo memSink
        (NewPatcher
          { data := magic ++ encodeAll [WireRecord.literal 16 [170, 187, 204]] ++ eofMarker,
            sched := [4, 4, 4, 4] }
          { data := List.replicate 32 0, sched := [10, 10, 10, 10] }) MemFile.fresh
        = some (out, cnt, none) ∧
      out.data = applyRecords (List.replicate 32 0)
        ([WireRecord.literal 16 [170, 187, 204]].map WireRecord.toRecord) ∧
      (∀ pre w post i, [WireRecord.literal 16 [170, 187, 204]] = pre ++ w :: post →
        covers w.toRecord i → (∀ v ∈ post, ¬ covers v.toRecord i) →
        out.data[i]? = w.toRecord.Data[i - w.toRecord.Offset]?) ∧
      (∀ i, i < (List.replicate 32 (0 : Byte)).length →
        (∀ w ∈ [WireRecord.literal 16 [170, 187, 204]], ¬ covers w.toRecord i) →
        out.data[i]? = (List.replicate 32 (0 : Byte))[i]?) :=
  ⟨by decide,
    PatchTo_overlays_records (List.replicate 32 0) [WireRecord.literal 16 [170, 187, 204]]
      [4, 4, 4, 4] [10, 10, 10, 10] (by decide)⟩

/-- C10, the code at offset `0x454F46`: the offset bytes of the single RLE record
spell `"EOF"`, so no record is applied; the output is the original file and
the count is 0, not the repeat count 1. -/
theorem PatchTo_rle_offset_eof_counterexample :
    PatchTo memSink
        (NewPatcher (Reader.ofBytes (magic ++ be3 4542278 ++ [0, 0] ++ be2 1 ++ [9] ++ eofMarker))
          (Reader.ofBytes [7])) MemFile.fresh
      = some ({ data := [7], pos := 1 }, 0, none) := by
  decide!

/-- C10 as amended: for every original file `F`, every 24-bit offset `o` other
than `0x454F46`, every count `n` of at most 65535 and every fill byte `b`,
`PatchTo` with the single-RLE-record patch on a fresh sink succeeds with count
`n`, leaves positions `o..o+n-1` of the output all equal to `b` and leaves
every other position below `len(F)` equal to the byte of `F`. -/
theorem PatchTo_single_rle (F : List Byte) (o n : Nat) (b : Byte) (sp sf : List Nat)
    (ho : o < 16777216) (hne : o ≠ 4542278) (hn : n ≤ 65535) :
    ∃ out, PatchTo memSink
        (NewPatcher { data := magic ++ be3 o ++ [0, 0] ++ be2 n ++ [b] ++ eofMarker, sched := sp }
          { data := F, sched := sf }) MemFile.fresh = some (out, (n : Int), none) ∧
      (∀ i, o ≤ i → i < o + n → out.data[i]? = some b) ∧
      (∀ i, i < F.length → ¬ (o ≤ i ∧ i < o + n) → out.data[i]? = F[i]?) := by
  obtain ⟨out, h1, h2⟩ := PatchTo_mem [WireRecord.rle o n b] F
    { data := magic ++ be3 o ++ [0, 0] ++ be2 n ++ [b] ++ eofMarker, sched := sp }
    { data := F, sched := sf }
    (by
      intro w hw
      simp only [List.mem_singleton] at hw
      subst hw
      exact ⟨⟨ho, hn⟩, fun he => hne ((be3_eq_eof o ho).mp he)⟩)
    (by simp [encodeAll, WireRecord.encode]) rfl
  simp only [List.map_cons, List.map_nil, WireRecord.toRecord, List.length_replicate,
    List.sum_cons, List.sum_nil, add_zero] at h1 h2
  refine ⟨out, h1, ?_, ?_⟩
  · intro i hi1 hi2
    rw [h2]
    simp only [applyRecords, List.foldl_cons, List.foldl_nil]
    rw [writeAt_covered F o _ i hi1 (by simpa using hi2)]
    exact List.getElem?_replicate_of_lt (by omega)
  · intro i hi hnc
    rw [h2]
    simp only [applyRecords, List.foldl_cons, List.foldl_nil]
    exact writeAt_not_covered F o _ i hi (by simpa using hnc)

/-- C10 as amended, at the patch `"PATCH" 000005 0000 0004 7F "EOF"` over a file
of nine bytes. -/
theorem PatchTo_single_rle_witness :
    (5 : Nat) < 16777216 ∧ (5 : Nat) ≠ 4542278 ∧ (4 : Nat) ≤ 65535 ∧
    ∃ out, PatchTo memSink
        (NewPatcher { data := magic ++ be3 5 ++ [0, 0] ++ be2 4 ++ [127] ++ eofMarker, sched := [] }
          { data := [1, 2, 3, 4, 5, 6, 7, 8, 9], sched := [] }) MemFile.fresh
        = some (out, ((4 : Nat) : Int), none) ∧
      (∀ i, 5 ≤ i → i < 5 + 4 → out.data[i]? = some 127) ∧
      (∀ i, i < ([1, 2, 3, 4, 5, 6, 7, 8, 9] : List Byte).length → ¬ (5 ≤ i ∧ i < 5 + 4) →
        out.data[i]? = ([1, 2, 3, 4, 5, 6, 7, 8, 9] : List Byte)[i]?) :=
  ⟨by decide, by decide, by decide,
    PatchTo_single_rle [1, 2, 3, 4, 5, 6, 7, 8, 9] 5 4 127 [] [] (by decide) (by decide) (by decide)⟩

/-! ## A stream that ends inside an RLE record -/

/-- The decode loop body at the end of the stream: it returns `io.EOF`. -/
theorem decodeRecord_empty (reuse : Bool) (r : Reader) (buf : List Byte) (data : Slice)
    (hd : r.data = []) (hbuf : 5 ≤ buf.length) :
    ∃ r1, decodeRecord reuse r buf data = some (Step.fail Error.EOF r1) := by
  obtain ⟨r1, h1, _⟩ := readFull_short r (slice buf 0 3)
    (by rw [slice_length buf 0 3 (by omega), hd]; simp)
  rw [if_pos hd] at h1
  exact ⟨r1, by simp only [decodeRecord, h1]⟩

/-- The decode loop body on an RLE record cut short by the end of the stream: the
failed read of the count and the fill byte goes unnoticed and a record with
the offset of the incomplete record is handed out. -/
theorem decodeRecord_rle_short (reuse : Bool) (r : Reader) (buf : List Byte) (data : Slice)
    (o0 o1 o2 : Byte) (tail : List Byte)
    (hd : r.data = [o0, o1, o2] ++ [0, 0] ++ tail)
    (hne : [o0, o1, o2] ≠ eofMarker) (ht : tail.length < 3) (hbuf : 5 ≤ buf.length) :
    ∃ data1 buf1 r1, decodeRecord reuse r buf data
        = some (Step.emit (o0.val * 65536 + o1.val * 256 + o2.val) data1 buf1 r1) ∧
      buf1.length = buf.length ∧ r1.data = [] := by
  obtain ⟨r1, h1, hr1⟩ := readFull_ok r (slice buf 0 3) [o0, o1, o2] ([0, 0] ++ tail)
    (by rw [hd]; simp) (by rw [slice_length buf 0 3 (by omega)]; rfl)
  obtain ⟨b0, b1, b2, b3, b4, tl, rfl⟩ : ∃ b0 b1 b2 b3 b4 tl, buf = b0 :: b1 :: b2 :: b3 :: b4 :: tl := by
    match buf, hbuf with
    | b0 :: b1 :: b2 :: b3 :: b4 :: tl, _ => exact ⟨b0, b1, b2, b3, b4, tl, rfl⟩
  have hb1 : copyAt (b0 :: b1 :: b2 :: b3 :: b4 :: tl) 0 [o0, o1, o2] = o0 :: o1 :: o2 :: b3 :: b4 :: tl := by
    rw [copyAt_zero _ _ (by simp)]; simp
  obtain ⟨r2, h2, hr2⟩ := readFull_ok r1 (slice (o0 :: o1 :: o2 :: b3 :: b4 :: tl) 3 5) [0, 0]
    tail (by rw [hr1]) (by simp [slice])
  have hb2 : copyAt (o0 :: o1 :: o2 :: b3 :: b4 :: tl) 3 [0, 0] = o0 :: o1 :: o2 :: 0 :: 0 :: tl := by
    have := copyAt_append [o0, o1, o2] (b3 :: b4 :: tl) [0, 0] (by simp)
    simpa using this
  have hoff : bytes3ToInt64 (slice (o0 :: o1 :: o2 :: 0 :: 0 :: tl) 0 3)
      = o0.val * 65536 + o1.val * 256 + o2.val := by
    rw [← bytes3_eq]; simp [slice]
  have hsize : bytes2ToInt64 (slice (o0 :: o1 :: o2 :: 0 :: 0 :: tl) 3 5) = 0 := by
    have : slice (o0 :: o1 :: o2 :: (0 : Byte) :: 0 :: tl) 3 5 = [0, 0] := by simp [slice]
    rw [this, bytes2_eq]; rfl
  have hs3 : (slice (o0 :: o1 :: o2 :: 0 :: 0 :: tl) 0 3).length = 3 := by simp [slice]
  obtain ⟨r3, h3, hr3⟩ := readFull_short r2 (slice (o0 :: o1 :: o2 :: 0 :: 0 :: tl) 0 3)
    (by rw [hs3, hr2]; exact ht)
  have hne1 : ¬ slice (o0 :: o1 :: o2 :: b3 :: b4 :: tl) 0 3 = eofMarker := by
    simpa [slice] using hne
  have hX : (r2.data ++ List.drop r2.data.length (slice (o0 :: o1 :: o2 :: 0 :: 0 :: tl) 0 3)).length
      = 3 := by
    simp only [List.length_append, List.length_drop, hs3, hr2]; omega
  generalize r2.data ++ List.drop r2.data.length (slice (o0 :: o1 :: o2 :: 0 :: 0 :: tl) 0 3) = X
    at h3 hX
  refine ⟨rleFill (bytes2ToInt64 (slice (copyAt (o0 :: o1 :: o2 :: 0 :: 0 :: tl) 0 X) 0 2)) 0
      ((copyAt (o0 :: o1 :: o2 :: 0 :: 0 :: tl) 0 X).getD 2 0)
      (allocData reuse data (bytes2ToInt64 (slice (copyAt (o0 :: o1 :: o2 :: 0 :: 0 :: tl) 0 X) 0 2))),
    copyAt (o0 :: o1 :: o2 :: 0 :: 0 :: tl) 0 X, r3, ?_, ?_, hr3⟩
  · simp only [decodeRecord, h1, hb1, hne1, if_false, h2, hb2, hoff, hsize, if_true, h3]
  · rw [copyAt_zero_length _ _ (by simp only [hX, List.length_cons]; omega)]
    simp

/-- The decoder on a patch whose last record is an RLE record cut short by the end
of the stream, for a handler that accepts its records: the handler is run
over the complete records first, and the result is `io.EOF`. -/
theorem Records_rle_cut {σ : Type} (reuse : Bool) (handle : σ → Record → σ × Option Error)
    (hacc : ∀ s rec, (handle s rec).2 = none) (ws : List WireRecord) (r : Reader) (s : σ)
    (off : Nat) (tail : List Byte)
    (hws : ∀ w ∈ ws, w.WellFormed ∧ w.NotEOF)
    (hoff : off < 16777216) (hne : be3 off ≠ eofMarker) (ht : tail.length < 3)
    (hd : r.data = magic ++ encodeAll ws ++ be3 off ++ [0, 0] ++ tail) :
    ∃ extra r1, Records r reuse handle s
      = some ((ws.map WireRecord.toRecord ++ extra).foldl (fun s rec => (handle s rec).1) s,
          some Error.EOF, r1) := by
  obtain ⟨r1, h1, hr1⟩ := checkHeader_magic r (slice (List.replicate 512 0) 0 5)
    (encodeAll ws ++ (be3 off ++ [0, 0] ++ tail)) slice_buf5_length (by rw [hd]; simp)
  have hm : magic.length ≤ (List.replicate 512 (0 : Byte)).length := by
    rw [List.length_replicate]; decide
  have hfuel : r1.data.length + 1 = ws.length + ((r1.data.length - ws.length - 1) + 1 + 1) := by
    have := encodeAll_length ws
    rw [hr1]; simp only [List.length_append, be3, List.length_cons, List.length_nil]; omega
  obtain ⟨r2, buf2, data2, hr2, hb2, h2⟩ := RecordsLoop_records reuse handle hacc ws
    ((r1.data.length - ws.length - 1) + 1 + 1) r1 (copyAt (List.replicate 512 0) 0 magic)
    Slice.empty s (be3 off ++ [0, 0] ++ tail) hws hr1
    (by rw [copyAt_zero_length _ _ hm, List.length_replicate]; omega)
  obtain ⟨o0, o1, o2, ho, _⟩ := be3_val off hoff
  obtain ⟨data3, buf3, r3, h3, hb3, hr3⟩ := decodeRecord_rle_short reuse r2 buf2 data2 o0 o1 o2
    tail (by rw [hr2, ho]) (by rw [← ho]; exact hne) ht hb2
  obtain ⟨r4, h4⟩ := decodeRecord_empty reuse r3 buf3 data3 hr3 (by omega)
  refine ⟨[{ Offset := o0.val * 65536 + o1.val * 256 + o2.val, Data := data3.toList }], r4, ?_⟩
  simp only [Records, h1]
  rw [hfuel, h2]
  have hh := hacc ((ws.map WireRecord.toRecord).foldl (fun s rec => (handle s rec).1) s)
    { Offset := o0.val * 65536 + o1.val * 256 + o2.val, Data := data3.toList }
  rcases hs : handle ((ws.map WireRecord.toRecord).foldl (fun s rec => (handle s rec).1) s)
    { Offset := o0.val * 65536 + o1.val * 256 + o2.val, Data := data3.toList } with ⟨s1, e⟩
  rw [hs] at hh
  simp only at hh
  subst hh
  simp only [RecordsLoop, h3, hs, h4, List.foldl_append, List.foldl_cons, List.foldl_nil]

/-! ## The loop body agrees with its reading on bytes -/

theorem literalLoop_short_rest (fuel : Nat) : ∀ (r : Reader) (buf : List Byte) (data : Slice)
    (size left : Nat), r.data.length < left → r.data.length < fuel → 1 ≤ buf.length →
    ∃ buf1 data1 r1, literalLoop fuel r buf data size left
      = some (some Error.EOF, buf1, data1, r1) ∧ r1.data = [] := by
  induction fuel with
  | zero => intro r buf data size left _ hf; omega
  | succ fuel ih =>
    intro r buf data size left hlt hf hbuf
    have hl : left ≠ 0 := by omega
    by_cases hd : r.data = []
    · refine ⟨copyAt buf 0 [], data, r, ?_, hd⟩
      unfold literalLoop
      rw [if_pos hl]
      simp only [Read_nil r _ hd, ite_self]
    · obtain ⟨p, r1, hread, hp1, hpk, hdat⟩ :
          ∃ p r1, (if left > buf.length then r.Read buf.length else r.Read left) = (p, none, r1) ∧
            1 ≤ p.length ∧ p.length ≤ min left buf.length ∧ r.data = p ++ r1.data := by
        by_cases hc : left > buf.length
        · obtain ⟨p, r1, h1, h2, h3, h4⟩ := Read_cons r buf.length hbuf hd
          exact ⟨p, r1, by rw [if_pos hc]; exact h1, h2, by omega, h4⟩
        · obtain ⟨p, r1, h1, h2, h3, h4⟩ := Read_cons r left (by omega) hd
          exact ⟨p, r1, by rw [if_neg hc]; exact h1, h2, by omega, h4⟩
      have hlen : r.data.length = p.length + r1.data.length := by rw [hdat]; simp
      obtain ⟨buf2, data2, r2, hloop, hr2⟩ := ih r1 (copyAt buf 0 p)
        { data with arr := copyAt (data.arr.take data.len) (size - left) ((copyAt buf 0 p).take p.length)
                                ++ data.arr.drop data.len }
        size (left - p.length) (by omega) (by omega)
        (by rw [copyAt_zero_length buf p (by omega)]; exact hbuf)
      refine ⟨buf2, data2, r2, ?_, hr2⟩
      unfold literalLoop
      rw [if_pos hl]
      simp only [hread]
      exact hloop

theorem list_ge3 (bs : List Byte) (h : 3 ≤ bs.length) :
    ∃ x0 x1 x2 rest, bs = x0 :: x1 :: x2 :: rest := by
  match bs, h with
  | x0 :: x1 :: x2 :: rest, _ => exact ⟨x0, x1, x2, rest, rfl⟩

theorem list_ge2 (bs : List Byte) (h : 2 ≤ bs.length) : ∃ x0 x1 rest, bs = x0 :: x1 :: rest := by
  match bs, h with
  | x0 :: x1 :: rest, _ => exact ⟨x0, x1, rest, rfl⟩

/-- The loop body, for every reader, scratch buffer and data slice: it returns,
and what it shows to the outside is `stepOnBytes` of the bytes in the reader;
a record comes with a scratch buffer of unchanged length. -/
theorem decodeRecord_abs (reuse : Bool) (r : Reader) (buf : List Byte) (data : Slice)
    (hbuf : 5 ≤ buf.length) :
    ∃ st, decodeRecord reuse r buf data = some st ∧ st.abs = stepOnBytes r.data ∧
      (∀ off d b r1, st = Step.emit off d b r1 → b.length = buf.length) := by
  obtain ⟨b0, b1, b2, b3, b4, tl, rfl⟩ : ∃ b0 b1 b2 b3 b4 tl, buf = b0 :: b1 :: b2 :: b3 :: b4 :: tl := by
    match buf, hbuf with
    | b0 :: b1 :: b2 :: b3 :: b4 :: tl, _ => exact ⟨b0, b1, b2, b3, b4, tl, rfl⟩
  have hs3 : (slice (b0 :: b1 :: b2 :: b3 :: b4 :: tl) 0 3).length = 3 := by simp [slice]
  rcases readFull_cases r (slice (b0 :: b1 :: b2 :: b3 :: b4 :: tl) 0 3) with
    ⟨hl, r1, h1, hr1⟩ | ⟨hl, r1, h1, hr1⟩
  swap
  · -- fewer than three bytes
    rw [hs3] at hl
    refine ⟨Step.fail (if r.data = [] then Error.EOF else Error.ErrUnexpectedEOF) r1,
      by simp only [decodeRecord, h1], ?_, by simp⟩
    simp only [Step.abs, stepOnBytes, hl, if_true, hr1]
  rw [hs3] at hl h1 hr1
  obtain ⟨x0, x1, x2, rest1, hbs⟩ := list_ge3 r.data hl
  rw [hbs] at h1 hr1
  simp only [List.take_succ_cons, List.take_zero, List.drop_succ_cons, List.drop_zero] at h1 hr1
  have hb1 : copyAt (b0 :: b1 :: b2 :: b3 :: b4 :: tl) 0 [x0, x1, x2] = x0 :: x1 :: x2 :: b3 :: b4 :: tl := by
    rw [copyAt_zero _ _ (by simp)]; simp
  have hsl1 : slice (x0 :: x1 :: x2 :: b3 :: b4 :: tl) 0 3 = [x0, x1, x2] := by simp [slice]
  have hn3 : ¬ (x0 :: x1 :: x2 :: rest1).length < 3 := by simp
  by_cases heof : [x0, x1, x2] = eofMarker
  · refine ⟨Step.done r1, by simp only [decodeRecord, h1, hb1, hsl1]; rw [if_pos heof], ?_, by simp⟩
    simp only [Step.abs, stepOnBytes, hbs, hn3, if_false, List.take_succ_cons, List.take_zero, heof,
      if_true, List.drop_succ_cons, List.drop_zero, hr1]
  have hs2 : (slice (x0 :: x1 :: x2 :: b3 :: b4 :: tl) 3 5).length = 2 := by simp [slice]
  rcases readFull_cases r1 (slice (x0 :: x1 :: x2 :: b3 :: b4 :: tl) 3 5) with
    ⟨hl2, r2, h2, hr2⟩ | ⟨hl2, r2, h2, hr2⟩
  swap
  · -- three or four bytes
    rw [hs2, hr1] at hl2
    refine ⟨Step.fail (if r1.data = [] then Error.EOF else Error.ErrUnexpectedEOF) r2,
      by simp only [decodeRecord, h1, hb1, hsl1, heof, if_false, h2], ?_, by simp⟩
    have h5 : (x0 :: x1 :: x2 :: rest1).length < 5 := by simp; omega
    have e1 : (r1.data = []) = ((x0 :: x1 :: x2 :: rest1).length = 3) := by
      rw [hr1]; simp
    simp only [Step.abs, stepOnBytes, hbs, hn3, if_false, List.take_succ_cons, List.take_zero, heof,
      h5, if_true, hr2, e1]
  rw [hs2, hr1] at hl2
  rw [hs2, hr1] at h2 hr2
  obtain ⟨s0, s1, body, hrest⟩ := list_ge2 rest1 hl2
  rw [hrest] at h2 hr2
  simp only [List.take_succ_cons, List.take_zero, List.drop_succ_cons, List.drop_zero] at h2 hr2
  subst hrest
  have hb2 : copyAt (x0 :: x1 :: x2 :: b3 :: b4 :: tl) 3 [s0, s1] = x0 :: x1 :: x2 :: s0 :: s1 :: tl := by
    have := copyAt_append [x0, x1, x2] (b3 :: b4 :: tl) [s0, s1] (by simp)
    simpa using this
  have hsl2 : slice (x0 :: x1 :: x2 :: s0 :: s1 :: tl) 0 3 = [x0, x1, x2] := by simp [slice]
  have hsl3 : slice (x0 :: x1 :: x2 :: s0 :: s1 :: tl) 3 5 = [s0, s1] := by simp [slice]
  have hsl4 : slice (x0 :: x1 :: x2 :: s0 :: s1 :: body) 3 5 = [s0, s1] := by simp [slice]
  have hn5 : ¬ (x0 :: x1 :: x2 :: s0 :: s1 :: body).length < 5 := by simp
  by_cases hsz : bytes2ToInt64 [s0, s1] = 0
  · -- RLE
    have hh3 : ∃ h3 e3 r3, readFull r2 [x0, x1, x2] = some (h3, e3, r3) ∧
        h3 = body.take 3 ++ [x0, x1, x2].drop body.length ∧ r3.data = body.drop 3 ∧
        h3.length = 3 := by
      rcases readFull_cases r2 [x0, x1, x2] with ⟨hl3, r3, h3, hr3⟩ | ⟨hl3, r3, h3, hr3⟩
      · rw [hr2] at hl3 h3 hr3
        simp only [List.length_cons, List.length_nil] at hl3 h3 hr3
        refine ⟨_, _, r3, h3, ?_, hr3, by simp; omega⟩
        rw [List.drop_eq_nil_of_le (by simp; omega)]; simp
      · rw [hr2] at hl3 h3
        simp only [List.length_cons, List.length_nil] at hl3
        refine ⟨_, _, r3, h3, ?_, ?_, by simp; omega⟩
        · rw [List.take_of_length_le (by omega)]
        · rw [hr3, List.drop_eq_nil_of_le (by omega)]
    obtain ⟨h3, e3, r3, hread3, hh3eq, hr3, hlen3⟩ := hh3
    obtain ⟨y0, y1, y2, ynil, hy⟩ := list_ge3 h3 (by omega)
    have hynil : ynil = [] := by
      rw [hy] at hlen3
      exact List.eq_nil_of_length_eq_zero (by simpa using hlen3)
    subst hynil
    have hb3 : copyAt (x0 :: x1 :: x2 :: s0 :: s1 :: tl) 0 [y0, y1, y2] = y0 :: y1 :: y2 :: s0 :: s1 :: tl := by
      rw [copyAt_zero _ _ (by simp)]; simp
    have hsl5 : slice (y0 :: y1 :: y2 :: s0 :: s1 :: tl) 0 2 = [y0, y1] := by simp [slice]
    rw [hy] at hread3
    refine ⟨Step.emit (bytes3ToInt64 [x0, x1, x2]) (rleFill (bytes2ToInt64 [y0, y1]) 0 y2
        (allocData reuse data (bytes2ToInt64 [y0, y1]))) (y0 :: y1 :: y2 :: s0 :: s1 :: tl) r3, ?_, ?_, ?_⟩
    · simp only [decodeRecord, h1, hb1, hsl1, heof, if_false, h2, hb2, hsl2, hsl3, hsz, if_true,
        hread3, hb3, hsl5]
      rfl
    · simp only [Step.abs, stepOnBytes, hbs, hn5, hn3, if_false, List.take_succ_cons, List.take_zero,
        heof, hsl4, hsz, if_true, List.drop_succ_cons, List.drop_zero, ← hh3eq, hy, hr3,
        List.getD_cons_succ, List.getD_cons_zero]
      rw [rleFill_toList y2 _ _ (allocData_len _ _ _) (allocData_cap _ _ _)]
    · intro off d b r4 he
      simp only [Step.emit.injEq] at he
      rw [← he.2.2.1]; simp
  · -- literal
    by_cases hshort : body.length < bytes2ToInt64 [s0, s1]
    · obtain ⟨buf3, data3, r3, h3, hr3⟩ := literalLoop_short_rest (bytes2ToInt64 [s0, s1]) r2
        (x0 :: x1 :: x2 :: s0 :: s1 :: tl) (allocData reuse data (bytes2ToInt64 [s0, s1]))
        (bytes2ToInt64 [s0, s1]) (bytes2ToInt64 [s0, s1]) (by rw [hr2]; exact hshort)
        (by rw [hr2]; exact hshort) (by simp)
      refine ⟨Step.fail Error.EOF r3, ?_, ?_, by simp⟩
      · simp only [decodeRecord, h1, hb1, hsl1, heof, if_false, h2, hb2, hsl2, hsl3, hsz, h3]
      · simp only [Step.abs, stepOnBytes, hbs, hn5, hn3, if_false, List.take_succ_cons,
          List.take_zero, heof, hsl4, hsz, List.drop_succ_cons, List.drop_zero, hshort, if_true, hr3]
    · obtain ⟨buf3, data3, r3, h3, hto, hb3, hr3⟩ :=
        literalLoop_ok (bytes2ToInt64 [s0, s1]) r2 (x0 :: x1 :: x2 :: s0 :: s1 :: tl)
          (allocData reuse data (bytes2ToInt64 [s0, s1])) (bytes2ToInt64 [s0, s1])
          (bytes2ToInt64 [s0, s1]) []
          ((allocData reuse data (bytes2ToInt64 [s0, s1])).arr.take
            (allocData reuse data (bytes2ToInt64 [s0, s1])).len)
          (body.take (bytes2ToInt64 [s0, s1])) (body.drop (bytes2ToInt64 [s0, s1]))
          (by rw [hr2]; exact (List.take_append_drop _ _).symm)
          (by simp; omega) (allocData_take reuse data _) (by simp)
          (by rw [allocData_len]; exact allocData_cap reuse data _) (by simp) (by simp)
          (Nat.le_refl _)
      refine ⟨Step.emit (bytes3ToInt64 [x0, x1, x2]) data3 buf3 r3, ?_, ?_, ?_⟩
      · simp only [decodeRecord, h1, hb1, hsl1, heof, if_false, h2, hb2, hsl2, hsl3, hsz, h3]
      · simp only [Step.abs, stepOnBytes, hbs, hn5, hn3, if_false, List.take_succ_cons,
          List.take_zero, heof, hsl4, hsz, List.drop_succ_cons, List.drop_zero, hshort, hr3]
        simpa using hto
      · intro off d b r4 he
        simp only [Step.emit.injEq] at he
        rw [← he.2.2.1, hb3]; simp

/-- The decode loop, for every reader, scratch buffer, data slice, reuse flag and
handler: what it returns is `loopOnBytes` of the bytes in the reader. -/
theorem RecordsLoop_abs {σ : Type} (reuse : Bool) (handle : σ → Record → σ × Option Error)
    (fuel : Nat) : ∀ (r : Reader) (buf : List Byte) (data : Slice) (s : σ), 5 ≤ buf.length →
    outcome (RecordsLoop reuse handle fuel r buf data s) = loopOnBytes handle fuel r.data s := by
  induction fuel with
  | zero => intro r buf data s _; rfl
  | succ fuel ih =>
    intro r buf data s hbuf
    obtain ⟨st, hst, habs, hlen⟩ := decodeRecord_abs reuse r buf data hbuf
    cases st with
    | done r1 =>
      simp only [Step.abs] at habs
      simp only [RecordsLoop, hst, loopOnBytes, ← habs, outcome, Option.map_some']
    | fail err r1 =>
      simp only [Step.abs] at habs
      simp only [RecordsLoop, hst, loopOnBytes, ← habs, outcome, Option.map_some']
    | emit off data1 buf1 r1 =>
      simp only [Step.abs] at habs
      have hb1 : 5 ≤ buf1.length := by rw [hlen off data1 buf1 r1 rfl]; exact hbuf
      simp only [RecordsLoop, hst, loopOnBytes, ← habs]
      rcases hh : handle s { Offset := off, Data := data1.toList } with ⟨s1, _ | e⟩
      · exact ih r1 buf1 data1 s1 hb1
      · simp only [outcome, Option.map_some']

/-- `Records`, for every reader, reuse flag and handler: what it returns is
`recordsOnBytes` of the bytes in the reader. -/
theorem Records_abs {σ : Type} (reuse : Bool) (handle : σ → Record → σ × Option Error)
    (r : Reader) (s : σ) :
    outcome (Records r reuse handle s) = recordsOnBytes handle r.data s := by
  have hm : ∀ hdr : List Byte, hdr.length = 5 →
      5 ≤ (copyAt (List.replicate 512 (0 : Byte)) 0 hdr).length := by
    intro hdr hl
    rw [copyAt_zero_length _ _ (by rw [List.length_replicate]; omega), List.length_replicate]
    omega
  rcases readFull_cases r (slice (List.replicate 512 0) 0 5) with
    ⟨hl, r1, h1, hr1⟩ | ⟨hl, r1, h1, hr1⟩
  · rw [slice_buf5_length] at hl h1 hr1
    have hn : ¬ r.data.length < 5 := by omega
    by_cases hmag : r.data.take 5 = magic
    · have hc : checkHeader r (slice (List.replicate 512 0) 0 5) = some (magic, none, r1) := by
        simp only [checkHeader, h1, hmag, if_true]
      simp only [Records, hc, recordsOnBytes, hn, if_false, hmag, if_true]
      rw [← hr1]
      exact RecordsLoop_abs reuse handle _ r1 _ _ s (hm magic rfl)
    · have hc : checkHeader r (slice (List.replicate 512 0) 0 5)
          = some (r.data.take 5, some Error.ErrInvalidMagic, r1) := by
        simp only [checkHeader, h1, hmag, if_false]
      simp only [Records, hc, recordsOnBytes, hn, if_false, hmag, outcome, Option.map_some', hr1]
  · rw [slice_buf5_length] at hl
    have hc : checkHeader r (slice (List.replicate 512 0) 0 5)
        = some (r.data ++ (slice (List.replicate 512 0) 0 5).drop r.data.length,
            some (if r.data = [] then Error.EOF else Error.ErrUnexpectedEOF), r1) := by
      simp only [checkHeader, h1]
    simp only [Records, hc, recordsOnBytes, hl, if_true, outcome, Option.map_some', hr1]

/-- A record handed out by the loop body takes at least five bytes from the
stream, has a 24-bit offset and at most 65535 data bytes. -/
theorem stepOnBytes_emit (bs : List Byte) (rec : Record) (rest : List Byte)
    (h : stepOnBytes bs = ByteStep.emit rec rest) :
    rest.length + 5 ≤ bs.length ∧ rec.Offset ≤ 16777215 ∧ rec.Data.length ≤ 65535 := by
  unfold stepOnBytes at h
  split at h
  · simp at h
  · split at h
    · simp at h
    · split at h
      · simp at h
      · rename_i h3 heof h5
        obtain ⟨x0, x1, x2, rest1, rfl⟩ := list_ge3 bs (by omega)
        obtain ⟨s0, s1, body, rfl⟩ := list_ge2 rest1 (by simp at h5; omega)
        have hoff : bytes3ToInt64 [x0, x1, x2] ≤ 16777215 := by
          rw [bytes3_eq]
          have := x0.isLt; have := x1.isLt; have := x2.isLt
          omega
        have hb2 : ∀ a b : Byte, bytes2ToInt64 [a, b] ≤ 65535 := by
          intro a b
          rw [bytes2_eq]
          have := a.isLt; have := b.isLt
          omega
        simp only [List.take_succ_cons, List.take_zero, List.drop_succ_cons, List.drop_zero] at h
        split at h
        · simp only [ByteStep.emit.injEq] at h
          obtain ⟨hrec, hrest⟩ := h
          subst hrec hrest
          refine ⟨by simp, hoff, ?_⟩
          show (List.replicate _ _).length ≤ 65535
          rw [List.length_replicate]
          have hlen : (List.take 3 body ++ List.drop body.length [x0, x1, x2]).length = 3 := by
            simp only [List.length_append, List.length_take, List.length_drop, List.length_cons,
              List.length_nil]
            omega
          obtain ⟨y0, y1, y2, ynil, hy⟩ := list_ge3 _ (Nat.le_of_eq hlen.symm)
          rw [hy]
          simpa using hb2 y0 y1
        · split at h
          · simp at h
          · rename_i hsz hlt
            simp only [ByteStep.emit.injEq] at h
            obtain ⟨hrec, hrest⟩ := h
            subst hrec hrest
            have hsl : slice (x0 :: x1 :: x2 :: s0 :: s1 :: body) 3 5 = [s0, s1] := by simp [slice]
            rw [hsl] at hlt ⊢
            refine ⟨by simp, hoff, ?_⟩
            simp only [List.length_take]
            have := hb2 s0 s1
            omega

/-! ## The decode loop on bytes: it returns, and what the handler sees -/

/-- With a budget above the number of bytes left, the loop on bytes returns. -/
theorem loopOnBytes_total {σ : Type} (handle : σ → Record → σ × Option Error) (fuel : Nat) :
    ∀ (bs : List Byte) (s : σ), bs.length < fuel → ∃ res, loopOnBytes handle fuel bs s = some res := by
  induction fuel with
  | zero => intro bs s h; omega
  | succ fuel ih =>
    intro bs s h
    unfold loopOnBytes
    rcases hstep : stepOnBytes bs with rest | ⟨err, rest⟩ | ⟨rec, rest⟩
    · exact ⟨_, rfl⟩
    · exact ⟨_, rfl⟩
    · have := (stepOnBytes_emit bs rec rest hstep).1
      simp only
      rcases hh : handle s rec with ⟨s1, _ | e⟩
      · exact ih rest s1 (by omega)
      · exact ⟨_, rfl⟩

theorem loopOnBytes_collect_acc (fuel : Nat) : ∀ (bs : List Byte) (acc : List Record),
    loopOnBytes collect fuel bs acc
      = (loopOnBytes collect fuel bs []).map (fun x => (acc ++ x.1, x.2.1, x.2.2)) := by
  induction fuel with
  | zero => intro bs acc; rfl
  | succ fuel ih =>
    intro bs acc
    unfold loopOnBytes
    rcases hstep : stepOnBytes bs with rest | ⟨err, rest⟩ | ⟨rec, rest⟩
    · simp
    · simp
    · simp only [collect]
      rw [ih rest (acc ++ [rec]), ih rest ([] ++ [rec])]
      simp [Option.map_map, Function.comp_def]

/-- The number of records the loop on bytes hands out is at most a fifth of the
bytes it started from, and each of them has a 24-bit offset and at most 65535
data bytes. -/
theorem loopOnBytes_collect_bound (fuel : Nat) : ∀ (bs : List Byte) (recs : List Record)
    (e : Option Error) (rest : List Byte),
    loopOnBytes collect fuel bs [] = some (recs, e, rest) →
    5 * recs.length ≤ bs.length ∧
      ∀ rec ∈ recs, rec.Offset ≤ 16777215 ∧ rec.Data.length ≤ 65535 := by
  induction fuel with
  | zero => intro bs recs e rest h; simp [loopOnBytes] at h
  | succ fuel ih =>
    intro bs recs e rest h
    unfold loopOnBytes at h
    rcases hstep : stepOnBytes bs with rest1 | ⟨err, rest1⟩ | ⟨rec, rest1⟩
    · simp only [hstep, Option.some.injEq, Prod.mk.injEq] at h
      rw [← h.1]; simp
    · simp only [hstep, Option.some.injEq, Prod.mk.injEq] at h
      rw [← h.1]; simp
    · simp only [hstep, collect] at h
      rw [loopOnBytes_collect_acc] at h
      rcases hl : loopOnBytes collect fuel rest1 [] with _ | ⟨recs1, e1, rest2⟩
      · simp [hl] at h
      · simp only [hl, Option.map_some', Option.some.injEq, Prod.mk.injEq, List.nil_append,
          List.singleton_append] at h
        obtain ⟨h1, h2⟩ := ih rest1 recs1 e1 rest2 hl
        obtain ⟨h3, h4, h5⟩ := stepOnBytes_emit bs rec rest1 hstep
        rw [← h.1]
        refine ⟨by simp only [List.length_cons]; omega, ?_⟩
        intro r hr
        rcases List.mem_cons.mp hr with rfl | hr
        · exact ⟨h4, h5⟩
        · exact h2 r hr

/-- The loop on bytes with any handler, in terms of the records `recs` that the
recording handler receives on the same bytes: the handler is run over `recs`
in order and the loop stops at the first record it rejects, returning the
error of the handler; if it accepts them all the loop ends as the recording
run does. -/
theorem loopOnBytes_handler {σ : Type} (handle : σ → Record → σ × Option Error) (fuel : Nat) :
    ∀ (bs : List Byte) (s : σ) (recs : List Record) (e0 : Option Error) (rest0 : List Byte),
    loopOnBytes collect fuel bs [] = some (recs, e0, rest0) →
    ∃ rest, loopOnBytes handle fuel bs s
        = some ((runHandler handle s recs).1,
            (match (runHandler handle s recs).2 with
              | none => e0
              | some e => some e), rest) ∧
      ((runHandler handle s recs).2 = none → rest = rest0) := by
  induction fuel with
  | zero => intro bs s recs e0 rest0 h; simp [loopOnBytes] at h
  | succ fuel ih =>
    intro bs s recs e0 rest0 h
    unfold loopOnBytes at h ⊢
    rcases hstep : stepOnBytes bs with rest1 | ⟨err, rest1⟩ | ⟨rec, rest1⟩
    · simp only [hstep, Option.some.injEq, Prod.mk.injEq] at h
      obtain ⟨h1, h2, h3⟩ := h
      subst h1 h2 h3
      exact ⟨rest1, by simp [runHandler], fun _ => rfl⟩
    · simp only [hstep, Option.some.injEq, Prod.mk.injEq] at h
      obtain ⟨h1, h2, h3⟩ := h
      subst h1 h2 h3
      exact ⟨rest1, by simp [runHandler], fun _ => rfl⟩
    · simp only [hstep, collect] at h
      rw [loopOnBytes_collect_acc] at h
      rcases hl : loopOnBytes collect fuel rest1 [] with _ | ⟨recs1, e1, rest2⟩
      · simp [hl] at h
      · simp only [hl, Option.map_some', Option.some.injEq, Prod.mk.injEq, List.nil_append,
          List.singleton_append] at h
        obtain ⟨h1, h2, h3⟩ := h
        subst h1 h2 h3
        simp only [runHandler]
        rcases hh : handle s rec with ⟨s1, _ | e⟩
        · exact ih rest1 s1 recs1 e1 rest2 hl
        · exact ⟨rest1, rfl, by simp⟩

/-- A handler that accepts the first records and rejects the next one: the run
over the whole list ends with that rejection, and the wrapped handler has
recorded exactly the records up to and including the rejected one. -/
theorem runHandler_withLog_fail {σ : Type} (handle : σ → Record → σ × Option Error)
    (pre : List Record) : ∀ (s s1 s2 : σ) (log : List Record) (rec : Record) (post : List Record)
    (e : Error), runHandler handle s pre = (s1, none) → handle s1 rec = (s2, some e) →
    runHandler (withLog handle) (s, log) (pre ++ rec :: post)
      = ((s2, log ++ pre ++ [rec]), some e) := by
  induction pre with
  | nil =>
    intro s s1 s2 log rec post e h1 h2
    simp only [runHandler, Prod.mk.injEq, and_true] at h1
    subst h1
    simp [runHandler, withLog, h2]
  | cons p pre ih =>
    intro s s1 s2 log rec post e h1 h2
    simp only [runHandler] at h1
    rcases hh : handle s p with ⟨s3, _ | e3⟩
    · rw [hh] at h1
      simp only at h1
      have := ih s3 s1 s2 (log ++ [p]) rec post e h1 h2
      simp only [List.cons_append, runHandler, withLog, hh]
      have e1 : pre.append (rec :: post) = pre ++ rec :: post := rfl
      rw [e1, this]; simp
    · rw [hh] at h1; simp at h1

/-! ## `Records` on every stream -/

theorem outcome_some {σ : Type} (res : Option (σ × Option Error × Reader)) (s : σ)
    (e : Option Error) (rest : List Byte) (h : outcome res = some (s, e, rest)) :
    ∃ r1, res = some (s, e, r1) ∧ r1.data = rest := by
  cases res with
  | none => simp [outcome] at h
  | some x =>
    obtain ⟨s1, e1, r1⟩ := x
    simp only [outcome, Option.map_some', Option.some.injEq, Prod.mk.injEq] at h
    obtain ⟨h1, h2, h3⟩ := h
    subst h1 h2
    exact ⟨r1, rfl, h3⟩

theorem recordsOnBytes_total {σ : Type} (handle : σ → Record → σ × Option Error)
    (bs : List Byte) (s : σ) : ∃ res, recordsOnBytes handle bs s = some res := by
  unfold recordsOnBytes
  split
  · exact ⟨_, rfl⟩
  · split
    · exact loopOnBytes_total handle _ _ s (by omega)
    · exact ⟨_, rfl⟩

/-- `Records` returns on every stream, with every read schedule, reuse flag and
handler: the iteration budgets are never exhausted. -/
theorem Records_total {σ : Type} (reuse : Bool) (handle : σ → Record → σ × Option Error)
    (r : Reader) (s : σ) : ∃ res, Records r reuse handle s = some res := by
  obtain ⟨res, h⟩ := recordsOnBytes_total handle r.data s
  rw [← Records_abs reuse handle r s] at h
  cases hR : Records r reuse handle s with
  | none => rw [hR] at h; simp [outcome] at h
  | some x => exact ⟨x, rfl⟩

/-- The records handed out on a stream are at most a fifth of its bytes, each
with a 24-bit offset and at most 65535 data bytes. -/
theorem recordsOnBytes_collect_bound (bs : List Byte) (recs : List Record) (e : Option Error)
    (rest : List Byte) (h : recordsOnBytes collect bs [] = some (recs, e, rest)) :
    5 * recs.length ≤ bs.length ∧
      ∀ rec ∈ recs, rec.Offset ≤ 16777215 ∧ rec.Data.length ≤ 65535 := by
  unfold recordsOnBytes at h
  split at h
  · simp only [Option.some.injEq, Prod.mk.injEq] at h
    rw [← h.1]; simp
  · split at h
    · obtain ⟨h1, h2⟩ := loopOnBytes_collect_bound _ _ _ _ _ h
      simp only [List.length_drop] at h1
      exact ⟨by omega, h2⟩
    · simp only [Option.some.injEq, Prod.mk.injEq] at h
      rw [← h.1]; simp

/-- `Records` on bytes with any handler, in terms of the records `recs` the
recording handler receives on the same bytes. -/
theorem recordsOnBytes_handler {σ : Type} (handle : σ → Record → σ × Option Error)
    (bs : List Byte) (s : σ) (recs : List Record) (e0 : Option Error) (rest0 : List Byte)
    (h : recordsOnBytes collect bs [] = some (recs, e0, rest0)) :
    ∃ rest, recordsOnBytes handle bs s
        = some ((runHandler handle s recs).1,
            (match (runHandler handle s recs).2 with
              | none => e0
              | some e => some e), rest) ∧
      ((runHandler handle s recs).2 = none → rest = rest0) := by
  unfold recordsOnBytes at h ⊢
  split at h
  · rename_i hl
    simp only [Option.some.injEq, Prod.mk.injEq] at h
    obtain ⟨h1, h2, h3⟩ := h
    subst h1 h2 h3
    exact ⟨[], by simp [hl, runHandler], fun _ => rfl⟩
  · rename_i hl
    split at h
    · rename_i hm
      simp only [hl, if_false, hm, if_true]
      exact loopOnBytes_handler handle _ _ s recs e0 rest0 h
    · rename_i hm
      simp only [Option.some.injEq, Prod.mk.injEq] at h
      obtain ⟨h1, h2, h3⟩ := h
      subst h1 h2 h3
      exact ⟨_, by simp [hl, hm, runHandler], fun _ => rfl⟩

/-- `Records` with any handler, in terms of the records the recording handler
receives from the same reader: the handler is run over them in order until it
rejects one, whose error is then returned; if it accepts them all, `Records`
ends as the recording run does. -/
theorem Records_handler {σ : Type} (reuse : Bool) (handle : σ → Record → σ × Option Error)
    (r : Reader) (s : σ) (recs : List Record) (e0 : Option Error) (r0 : Reader)
    (h : Records r reuse collect [] = some (recs, e0, r0)) :
    ∃ r1, Records r reuse handle s
        = some ((runHandler handle s recs).1,
            (match (runHandler handle s recs).2 with
              | none => e0
              | some e => some e), r1) ∧
      ((runHandler handle s recs).2 = none → r1.data = r0.data) := by
  have hc : recordsOnBytes collect r.data [] = some (recs, e0, r0.data) := by
    rw [← Records_abs reuse collect r [], h]; rfl
  obtain ⟨rest, h1, h2⟩ := recordsOnBytes_handler handle r.data s recs e0 r0.data hc
  rw [← Records_abs reuse handle r s] at h1
  obtain ⟨r1, h3, h4⟩ := outcome_some _ _ _ _ h1
  exact ⟨r1, h3, fun hn => by rw [h4, h2 hn]⟩

/-! ## Growing the output, the empty patch, bytes behind the terminator -/

theorem writeAt_length (d : List Byte) (pos : Nat) (p : List Byte) (hp : p ≠ []) :
    (writeAt d pos p).length = max d.length (pos + p.length) := by
  unfold writeAt
  rw [if_neg hp]
  simp only [List.length_append, List.length_take, List.length_drop, List.length_replicate]
  omega

/-- C11, the code at an RLE record of count 0 beyond the end of the file: the
record stands for no bytes, the write of no bytes leaves the file alone, and
the output has the length of the original file (1), not `offset + length`
(3). -/
theorem PatchTo_grows_counterexample :
    (WireRecord.rle 3 0 9).WellFormed ∧ (WireRecord.rle 3 0 9).NotEOF ∧
    ([7] : List Byte).length
      < (WireRecord.rle 3 0 9).toRecord.Offset + (WireRecord.rle 3 0 9).toRecord.Data.length ∧
    PatchTo memSink
        (NewPatcher (Reader.ofBytes (magic ++ encodeAll [WireRecord.rle 3 0 9] ++ eofMarker))
          (Reader.ofBytes [7])) MemFile.fresh
      = some ({ data := [7], pos := 3 }, 0, none) := by
  refine ⟨by decide, by decide, by decide, ?_⟩
  decide!

/-- C11 as amended: for every original file `F` and every single-record patch
whose record (literal or RLE, well-formed, offset field not `"EOF"`) has at
least one data byte and `offset + length > len(F)`, `PatchTo` on a fresh sink
succeeds and produces an output strictly longer than `F`, of length exactly
`offset + length`, in which every position below `len(F)` outside the range of
the record holds the byte of `F`. -/
theorem PatchTo_grows (F : List Byte) (w : WireRecord) (sp sf : List Nat)
    (hw : w.WellFormed) (hne : w.NotEOF) (hdata : 1 ≤ w.toRecord.Data.length)
    (hlong : F.length < w.toRecord.Offset + w.toRecord.Data.length) :
    ∃ out cnt, PatchTo memSink
        (NewPatcher { data := magic ++ encodeAll [w] ++ eofMarker, sched := sp }
          { data := F, sched := sf }) MemFile.fresh = some (out, cnt, none) ∧
      out.data.length = w.toRecord.Offset + w.toRecord.Data.length ∧
      F.length < out.data.length ∧
      (∀ i, i < F.length → ¬ covers w.toRecord i → out.data[i]? = F[i]?) := by
  obtain ⟨out, h1, h2⟩ := PatchTo_mem [w] F
    { data := magic ++ encodeAll [w] ++ eofMarker, sched := sp } { data := F, sched := sf }
    (by
      intro v hv
      simp only [List.mem_singleton] at hv
      subst hv
      exact ⟨hw, hne⟩) rfl rfl
  simp only [List.map_cons, List.map_nil, applyRecords, List.foldl_cons, List.foldl_nil] at h2
  have hp : w.toRecord.Data ≠ [] := by
    intro h; rw [h] at hdata; simp at hdata
  have hlen : out.data.length = w.toRecord.Offset + w.toRecord.Data.length := by
    rw [h2, writeAt_length F _ _ hp]; omega
  refine ⟨out, _, h1, hlen, by omega, ?_⟩
  intro i hi hnc
  rw [h2]
  exact writeAt_not_covered F _ _ i hi hnc

/-- C11 as amended, at a literal record of three bytes at offset 6 over a file of
four bytes. -/
theorem PatchTo_grows_witness :
    (WireRecord.literal 6 [1, 2, 3]).WellFormed ∧ (WireRecord.literal 6 [1, 2, 3]).NotEOF ∧
    1 ≤ (WireRecord.literal 6 [1, 2, 3]).toRecord.Data.length ∧
    ([9, 9, 9, 9] : List Byte).length
      < (WireRecord.literal 6 [1, 2, 3]).toRecord.Offset
        + (WireRecord.literal 6 [1, 2, 3]).toRecord.Data.length ∧
    ∃ out cnt, PatchTo memSink
        (NewPatcher { data := magic ++ encodeAll [WireRecord.literal 6 [1, 2, 3]] ++ eofMarker, sched := [] }
          { data := [9, 9, 9, 9], sched := [] }) MemFile.fresh = some (out, cnt, none) ∧
      out.data.length = (WireRecord.literal 6 [1, 2, 3]).toRecord.Offset
        + (WireRecord.literal 6 [1, 2, 3]).toRecord.Data.length ∧
      ([9, 9, 9, 9] : List Byte).length < out.data.length ∧
      (∀ i, i < ([9, 9, 9, 9] : List Byte).length →
        ¬ covers (WireRecord.literal 6 [1, 2, 3]).toRecord i →
        out.data[i]? = ([9, 9, 9, 9] : List Byte)[i]?) :=
  ⟨by decide, by decide, by decide, by decide,
    PatchTo_grows [9, 9, 9, 9] (WireRecord.literal 6 [1, 2, 3]) [] [] (by decide) (by decide)
      (by decide) (by decide)⟩

/-- C12: for every original file `F`, `PatchTo` with the zero-record patch
`"PATCH" ++ "EOF"` on a fresh sink succeeds, returns the count 0 and leaves the
sink equal to `F`; and `Records` on that stream returns `nil` without invoking
the handler: its state is the initial one, whatever the handler, and the
recording handler has received nothing. -/
theorem PatchTo_empty_patch (F : List Byte) (sp sf : List Nat) :
    (∃ out, PatchTo memSink
        (NewPatcher { data := magic ++ eofMarker, sched := sp } { data := F, sched := sf })
          MemFile.fresh = some (out, 0, none) ∧ out.data = F) ∧
    (∀ (σ : Type) (handle : σ → Record → σ × Option Error) (s : σ) (reuse : Bool),
      ∃ r1, Records { data := magic ++ eofMarker, sched := sp } reuse handle s
        = some (s, none, r1) ∧ r1.data = []) ∧
    (∀ reuse : Bool, ∃ r1, Records { data := magic ++ eofMarker, sched := sp } reuse collect []
        = some ([], none, r1)) := by
  refine ⟨?_, ?_, ?_⟩
  · obtain ⟨out, h1, h2⟩ := PatchTo_mem [] F { data := magic ++ eofMarker, sched := sp }
      { data := F, sched := sf } (by simp) (by simp [encodeAll]) rfl
    exact ⟨out, by simpa using h1, by simpa [applyRecords] using h2⟩
  · intro σ handle s reuse
    obtain ⟨r1, h1, h2⟩ := Records_decode reuse handle []
      { data := magic ++ eofMarker, sched := sp } s [] (by simp) (by simp [encodeAll])
    exact ⟨r1, by simpa [runHandler] using h1, h2 (by simp [runHandler])⟩
  · intro reuse
    obtain ⟨r1, h1, _⟩ := Records_decode reuse collect []
      { data := magic ++ eofMarker, sched := sp } [] [] (by simp) (by simp [encodeAll])
    exact ⟨r1, by simpa [runHandler] using h1⟩

/-- C17: bytes after the terminator are irrelevant.  For every list of well-formed
records `r1..rn` none of whose offset fields is `"EOF"`, every tail `t`, every
read schedule and either value of the reuse flag, `Records` on
`"PATCH" ++ encode r1 ++ ... ++ encode rn ++ "EOF" ++ t` returns `nil`, delivers
exactly `r1..rn` and leaves all of `t` in the reader; `t` may itself hold
further records and a terminator, none of which is decoded. -/
theorem Records_ignores_tail (ws : List WireRecord) (t : List Byte) (sched : List Nat)
    (reuse : Bool) (hws : ∀ w ∈ ws, w.WellFormed ∧ w.NotEOF) :
    (∃ r1, Records { data := magic ++ encodeAll ws ++ eofMarker ++ t, sched := sched } reuse collect []
        = some (ws.map WireRecord.toRecord, none, r1) ∧ r1.data = t) ∧
    (∀ (σ : Type) (handle : σ → Record → σ × Option Error) (s : σ),
      (∀ s rec, (handle s rec).2 = none) →
      ∃ r1, Records { data := magic ++ encodeAll ws ++ eofMarker ++ t, sched := sched } reuse handle s
          = some ((ws.map WireRecord.toRecord).foldl (fun s rec => (handle s rec).1) s, none, r1) ∧
        r1.data = t) := by
  constructor
  · obtain ⟨r1, h1, hr1⟩ := Records_decode reuse collect ws
      { data := magic ++ encodeAll ws ++ eofMarker ++ t, sched := sched } [] t hws rfl
    rw [runHandler_accept collect (fun _ _ => rfl), foldl_collect] at h1 hr1
    exact ⟨r1, by simpa using h1, hr1 rfl⟩
  · intro σ handle s hacc
    obtain ⟨r1, h1, hr1⟩ := Records_decode reuse handle ws
      { data := magic ++ encodeAll ws ++ eofMarker ++ t, sched := sched } s t hws rfl
    rw [runHandler_accept handle hacc] at h1 hr1
    exact ⟨r1, h1, hr1 rfl⟩

/-- C17 at a concrete stream: one record, the terminator, and behind it a second
record and a second terminator, which stay unread. -/
theorem Records_ignores_tail_witness :
    (∀ w ∈ [WireRecord.literal 16 [170, 187]], w.WellFormed ∧ w.NotEOF) ∧
    ∃ r1, Records
        { data := magic ++ encodeAll [WireRecord.literal 16 [170, 187]] ++ eofMarker
            ++ (encodeAll [WireRecord.rle 5 4 127] ++ eofMarker), sched := [2, 3] } true collect []
        = some ([{ Offset := 16, Data := [170, 187] }], none, r1) ∧
      r1.data = encodeAll [WireRecord.rle 5 4 127] ++ eofMarker :=
  ⟨by decide,
    (Records_ignores_tail [WireRecord.literal 16 [170, 187]]
      (encodeAll [WireRecord.rle 5 4 127] ++ eofMarker) [2, 3] true (by decide)).1⟩

/-! ## Handler errors, bounds on the records, termination -/

theorem runHandler_fail {σ : Type} (handle : σ → Record → σ × Option Error)
    (pre : List Record) : ∀ (s s1 s2 : σ) (rec : Record) (post : List Record) (e : Error),
    runHandler handle s pre = (s1, none) → handle s1 rec = (s2, some e) →
    runHandler handle s (pre ++ rec :: post) = (s2, some e) := by
  induction pre with
  | nil =>
    intro s s1 s2 rec post e h1 h2
    simp only [runHandler, Prod.mk.injEq, and_true] at h1
    subst h1
    simp [runHandler, h2]
  | cons p pre ih =>
    intro s s1 s2 rec post e h1 h2
    simp only [runHandler] at h1
    rcases hh : handle s p with ⟨s3, _ | e3⟩
    · rw [hh] at h1
      simp only at h1
      have := ih s3 s1 s2 rec post e h1 h2
      simp only [List.cons_append, runHandler, hh]
      exact this
    · rw [hh] at h1; simp at h1

/-- The records a wrapped handler has recorded are the first records of the list
it was run over. -/
theorem runHandler_withLog_take {σ : Type} (handle : σ → Record → σ × Option Error)
    (recs : List Record) : ∀ (s : σ) (log : List Record),
    ∃ k, k ≤ recs.length ∧
      (runHandler (withLog handle) (s, log) recs).1.2 = log ++ recs.take k := by
  induction recs with
  | nil => intro s log; exact ⟨0, by simp, by simp [runHandler]⟩
  | cons rec recs ih =>
    intro s log
    simp only [runHandler]
    rcases hh : withLog handle (s, log) rec with ⟨⟨s1, log1⟩, _ | e⟩
    · have hlog : log1 = log ++ [rec] := by
        have := congrArg (fun x => x.1.2) hh
        simpa [withLog] using this.symm
      obtain ⟨k, hk, h⟩ := ih s1 log1
      refine ⟨k + 1, by simp only [List.length_cons]; omega, ?_⟩
      simp only
      rw [h, hlog]; simp
    · have hlog : log1 = log ++ [rec] := by
        have := congrArg (fun x => x.1.2) hh
        simpa [withLog] using this.symm
      refine ⟨1, by simp, ?_⟩
      simp only
      rw [hlog]; simp

/-- A literal record has as many data bytes as its size field says. -/
theorem stepOnBytes_literal (bs : List Byte) (rec : Record) (rest : List Byte)
    (h : stepOnBytes bs = ByteStep.emit rec rest) (hsz : bytes2ToInt64 (slice bs 3 5) ≠ 0) :
    rec.Data.length = bytes2ToInt64 (slice bs 3 5) := by
  unfold stepOnBytes at h
  split at h
  · simp at h
  · split at h
    · simp at h
    · split at h
      · simp at h
      · simp only [hsz, if_false] at h
        split at h
        · simp at h
        · rename_i hlt
          simp only [ByteStep.emit.injEq] at h
          rw [← h.1]
          simp only [List.length_take]
          omega

/-- The literal read loop, started with its remaining count as budget, returns
whatever the reader, the buffers and the counts are. -/
theorem literalLoop_total (fuel : Nat) : ∀ (r : Reader) (buf : List Byte) (data : Slice)
    (size left : Nat), left ≤ fuel → 1 ≤ buf.length →
    ∃ res, literalLoop fuel r buf data size left = some res := by
  induction fuel with
  | zero =>
    intro r buf data size left hl _
    have : left = 0 := by omega
    subst this
    exact ⟨(none, buf, data, r), by unfold literalLoop; simp⟩
  | succ fuel ih =>
    intro r buf data size left hl hbuf
    by_cases h0 : left = 0
    · subst h0
      exact ⟨(none, buf, data, r), by unfold literalLoop; simp⟩
    · unfold literalLoop
      rw [if_pos h0]
      simp only
      by_cases hd : r.data = []
      · simp only [Read_nil r _ hd, ite_self]
        exact ⟨_, rfl⟩
      · obtain ⟨p, r1, hread, hp1, hpk, hdat⟩ :
            ∃ p r1, (if left > buf.length then r.Read buf.length else r.Read left) = (p, none, r1) ∧
              1 ≤ p.length ∧ p.length ≤ min left buf.length ∧ r.data = p ++ r1.data := by
          by_cases hc : left > buf.length
          · obtain ⟨p, r1, h1, h2, h3, h4⟩ := Read_cons r buf.length hbuf hd
            exact ⟨p, r1, by rw [if_pos hc]; exact h1, h2, by omega, h4⟩
          · obtain ⟨p, r1, h1, h2, h3, h4⟩ := Read_cons r left (by omega) hd
            exact ⟨p, r1, by rw [if_neg hc]; exact h1, h2, by omega, h4⟩
        simp only [hread]
        exact ih r1 _ _ size (left - p.length) (by omega)
          (by rw [copyAt_zero_length buf p (by omega)]; exact hbuf)

/-! ## Read schedules, handler errors, bounds, termination -/

/-- C13: the records delivered do not depend on how the reader splits its reads.
For every patch stream `bs`, every two read schedules, either value of the
reuse flag and every handler, `Records` returns with both schedules, with the
same handler state (for the recording handler `collect`: the same sequence of
records), the same error or `nil`, and the same bytes left unread; and a
literal record is delivered with its payload verbatim whatever the schedule. -/
theorem Records_schedule_independent (bs : List Byte) (sched1 sched2 : List Nat) (reuse : Bool) :
    (∀ (σ : Type) (handle : σ → Record → σ × Option Error) (s : σ),
      ∃ s1 e rest r1 r2,
        Records { data := bs, sched := sched1 } reuse handle s = some (s1, e, r1) ∧
        Records { data := bs, sched := sched2 } reuse handle s = some (s1, e, r2) ∧
        r1.data = rest ∧ r2.data = rest) ∧
    (∃ recs e r1 r2,
      Records { data := bs, sched := sched1 } reuse collect [] = some (recs, e, r1) ∧
      Records { data := bs, sched := sched2 } reuse collect [] = some (recs, e, r2)) ∧
    (∀ (o : Nat) (d : List Byte), o < 16777216 → o ≠ 4542278 → 1 ≤ d.length → d.length ≤ 65535 →
      bs = magic ++ be3 o ++ be2 d.length ++ d ++ eofMarker →
      ∃ r1 r2,
        Records { data := bs, sched := sched1 } reuse collect []
          = some ([{ Offset := o, Data := d }], none, r1) ∧
        Records { data := bs, sched := sched2 } reuse collect []
          = some ([{ Offset := o, Data := d }], none, r2)) := by
  have key : ∀ (σ : Type) (handle : σ → Record → σ × Option Error) (s : σ),
      ∃ s1 e rest r1 r2,
        Records { data := bs, sched := sched1 } reuse handle s = some (s1, e, r1) ∧
        Records { data := bs, sched := sched2 } reuse handle s = some (s1, e, r2) ∧
        r1.data = rest ∧ r2.data = rest := by
    intro σ handle s
    obtain ⟨⟨s1, e, rest⟩, h⟩ := recordsOnBytes_total handle bs s
    have h1 := Records_abs reuse handle { data := bs, sched := sched1 } s
    have h2 := Records_abs reuse handle { data := bs, sched := sched2 } s
    simp only at h1 h2
    rw [h] at h1 h2
    obtain ⟨r1, h3, h4⟩ := outcome_some _ _ _ _ h1
    obtain ⟨r2, h5, h6⟩ := outcome_some _ _ _ _ h2
    exact ⟨s1, e, rest, r1, r2, h3, h5, h4, h6⟩
  refine ⟨key, ?_, ?_⟩
  · obtain ⟨recs, e, _, r1, r2, h1, h2, _, _⟩ := key (List Record) collect []
    exact ⟨recs, e, r1, r2, h1, h2⟩
  · intro o d ho hne hd1 hd2 hbs
    obtain ⟨recs, e, _, r1, r2, h1, h2, _, _⟩ := key (List Record) collect []
    obtain ⟨r3, h3, _⟩ := Records_decode reuse collect [WireRecord.literal o d]
      { data := bs, sched := sched1 } [] []
      (by
        intro w hw
        simp only [List.mem_singleton] at hw
        subst hw
        exact ⟨⟨ho, hd1, hd2⟩, fun he => hne ((be3_eq_eof o ho).mp he)⟩)
      (by rw [hbs]; simp [encodeAll, WireRecord.encode])
    have h4 : Records { data := bs, sched := sched1 } reuse collect []
        = some ([{ Offset := o, Data := d }], none, r3) := by
      simpa [runHandler, collect, WireRecord.toRecord] using h3
    rw [h4] at h1
    simp only [Option.some.injEq, Prod.mk.injEq] at h1
    obtain ⟨hrec, he, hr⟩ := h1
    subst hrec he
    exact ⟨r3, r2, h4, h2⟩

/-- C13 at a concrete stream: a literal record of five bytes read first in one
piece and then one byte at a time. -/
theorem Records_schedule_independent_witness :
    ∃ r1 r2,
      Records { data := magic ++ be3 7 ++ be2 ([1, 2, 3, 4, 5] : List Byte).length ++ [1, 2, 3, 4, 5]
          ++ eofMarker, sched := [] } true collect []
        = some ([{ Offset := 7, Data := [1, 2, 3, 4, 5] }], none, r1) ∧
      Records { data := magic ++ be3 7 ++ be2 ([1, 2, 3, 4, 5] : List Byte).length ++ [1, 2, 3, 4, 5]
          ++ eofMarker, sched := [1, 1, 1, 1, 1, 1, 1, 1, 1, 1, 1, 1, 1, 1, 1, 1, 1, 1] }
          true collect []
        = some ([{ Offset := 7, Data := [1, 2, 3, 4, 5] }], none, r2) :=
  (Records_schedule_independent
    (magic ++ be3 7 ++ be2 ([1, 2, 3, 4, 5] : List Byte).length ++ [1, 2, 3, 4, 5] ++ eofMarker)
    [] [1, 1, 1, 1, 1, 1, 1, 1, 1, 1, 1, 1, 1, 1, 1, 1, 1, 1] true).2.2 7 [1, 2, 3, 4, 5]
    (by decide) (by decide) (by decide) (by decide) rfl

/-- C16: every record that `Records` delivers, whatever the bytes of the stream,
the read schedule, the reuse flag and the handler, has an offset between 0 and
`2^24 - 1` and at most 65535 data bytes; and a record that the loop body
decodes from a non-zero size field has exactly that many data bytes, hence at
least one.  (Offsets are natural numbers, `0 ≤ Offset` is stated for the
record.) -/
theorem Records_record_bounds (r : Reader) (reuse : Bool) :
    (∀ recs e r1, Records r reuse collect [] = some (recs, e, r1) →
      ∀ rec ∈ recs, 0 ≤ rec.Offset ∧ rec.Offset ≤ 2 ^ 24 - 1 ∧ rec.Data.length ≤ 65535) ∧
    (∀ (σ : Type) (handle : σ → Record → σ × Option Error) (s s1 : σ) (log : List Record) e r1,
      Records r reuse (withLog handle) (s, []) = some ((s1, log), e, r1) →
      ∀ rec ∈ log, 0 ≤ rec.Offset ∧ rec.Offset ≤ 2 ^ 24 - 1 ∧ rec.Data.length ≤ 65535) ∧
    (∀ (buf : List Byte) (data : Slice) off d b r1, 5 ≤ buf.length →
      decodeRecord reuse r buf data = some (Step.emit off d b r1) →
      bytes2ToInt64 (slice r.data 3 5) ≠ 0 →
      d.toList.length = bytes2ToInt64 (slice r.data 3 5) ∧ 1 ≤ d.toList.length) := by
  have hcol : ∀ recs e r1, Records r reuse collect [] = some (recs, e, r1) →
      ∀ rec ∈ recs, 0 ≤ rec.Offset ∧ rec.Offset ≤ 2 ^ 24 - 1 ∧ rec.Data.length ≤ 65535 := by
    intro recs e r1 h rec hrec
    have hc : recordsOnBytes collect r.data [] = some (recs, e, r1.data) := by
      rw [← Records_abs reuse collect r [], h]; rfl
    obtain ⟨_, h2⟩ := recordsOnBytes_collect_bound _ _ _ _ hc
    obtain ⟨h3, h4⟩ := h2 rec hrec
    exact ⟨Nat.zero_le _, by norm_num; exact h3, h4⟩
  refine ⟨hcol, ?_, ?_⟩
  · intro σ handle s s1 log e r1 h rec hrec
    obtain ⟨⟨recs, e0, r0⟩, h0⟩ := Records_total reuse collect r []
    obtain ⟨r2, h2, _⟩ := Records_handler reuse (withLog handle) r (s, []) recs e0 r0 h0
    rw [h] at h2
    simp only [Option.some.injEq, Prod.mk.injEq] at h2
    obtain ⟨k, _, hk⟩ := runHandler_withLog_take handle recs s []
    have hlog : log = recs.take k := by
      have := congrArg (fun x => x.2) h2.1
      simp only at this
      rw [this, hk]; simp
    rw [hlog] at hrec
    exact hcol recs e0 r0 h0 rec (List.mem_of_mem_take hrec)
  · intro buf data off d b r1 hbuf h hsz
    obtain ⟨st, hst, habs, _⟩ := decodeRecord_abs reuse r buf data hbuf
    rw [h] at hst
    simp only [Option.some.injEq] at hst
    subst hst
    simp only [Step.abs] at habs
    have := stepOnBytes_literal r.data _ _ habs.symm hsz
    simp only at this
    exact ⟨this, by omega⟩

/-- C16 at a concrete stream with one literal and one RLE record. -/
theorem Records_record_bounds_witness :
    Records (Reader.ofBytes (magic ++ [255, 255, 255, 0, 2, 8, 9] ++ [0, 0, 1, 0, 0, 0, 4, 7]
        ++ eofMarker)) true collect []
      = some ([{ Offset := 16777215, Data := [8, 9] }, { Offset := 1, Data := [7, 7, 7, 7] }],
          none, Reader.ofBytes []) ∧
    ∀ rec ∈ [({ Offset := 16777215, Data := [8, 9] } : Record),
        { Offset := 1, Data := [7, 7, 7, 7] }],
      0 ≤ rec.Offset ∧ rec.Offset ≤ 2 ^ 24 - 1 ∧ rec.Data.length ≤ 65535 :=
  have hrun : Records (Reader.ofBytes (magic ++ [255, 255, 255, 0, 2, 8, 9]
        ++ [0, 0, 1, 0, 0, 0, 4, 7] ++ eofMarker)) true collect []
      = some ([{ Offset := 16777215, Data := [8, 9] }, { Offset := 1, Data := [7, 7, 7, 7] }],
          none, Reader.ofBytes []) := by decide!
  ⟨hrun, (Records_record_bounds _ true).1 _ _ _ hrun⟩

/-- C15: if the handler returns an error for the k-th record, `Records` stops at
once.  Let `recs = pre ++ rec :: post` be the records the stream holds (those
the recording handler receives); if the handler accepts the records of `pre`
and returns the error `e` for `rec`, then `Records` returns `e`, and the
handler has been invoked for `pre` and `rec` and for no record of `post`
(`withLog` records the invocations).  In `PatchTo`: if the records of `pre`
were sought and written and the `Seek` or `Write` for `rec` fails with `e`,
`PatchTo` returns `e` with count 0 and the sink is left as that failed
operation left it, no record of `post` applied. -/
theorem Records_stops_at_handler_error :
    (∀ (σ : Type) (handle : σ → Record → σ × Option Error) (r : Reader) (reuse : Bool)
      (s s1 s2 : σ) (recs pre post : List Record) (rec : Record) (e0 : Option Error)
      (r0 : Reader) (e : Error),
      Records r reuse collect [] = some (recs, e0, r0) → recs = pre ++ rec :: post →
      runHandler handle s pre = (s1, none) → handle s1 rec = (s2, some e) →
      ∃ r1, Records r reuse (withLog handle) (s, []) = some ((s2, pre ++ [rec]), some e, r1)) ∧
    (∀ (ω : Type) (dstW : WriteSeeker ω) (p : Patcher) (dst dst1 d1 d2 : ω) (n w1 w2 : Int)
      (src1 : Reader) (recs pre post : List Record) (rec : Record) (e0 : Option Error)
      (r0 : Reader) (e : Error),
      Copy dstW dst p.file = some (dst1, n, none, src1) →
      Records p.patch true collect [] = some (recs, e0, r0) → recs = pre ++ rec :: post →
      runHandler (patchHandler dstW) (dst1, 0) pre = ((d1, w1), none) →
      patchHandler dstW (d1, w1) rec = ((d2, w2), some e) →
      PatchTo dstW p dst = some (d2, 0, some e)) := by
  constructor
  · intro σ handle r reuse s s1 s2 recs pre post rec e0 r0 e hrec hsplit hpre hfail
    obtain ⟨r1, h1, _⟩ := Records_handler reuse (withLog handle) r (s, []) recs e0 r0 hrec
    rw [hsplit, runHandler_withLog_fail handle pre s s1 s2 [] rec post e hpre hfail] at h1
    exact ⟨r1, by simpa using h1⟩
  · intro ω dstW p dst dst1 d1 d2 n w1 w2 src1 recs pre post rec e0 r0 e hcopy hrec hsplit
      hpre hfail
    obtain ⟨r1, h1, _⟩ := Records_handler true (patchHandler dstW) p.patch (dst1, (0 : Int))
      recs e0 r0 hrec
    rw [hsplit, runHandler_fail (patchHandler dstW) pre _ _ _ rec post e hpre hfail] at h1
    simp only [PatchTo, hcopy, h1]

/-- C15 on a file that cannot grow beyond four bytes: the patch holds three
records; the second needs a fifth byte and its `Write` fails, so `PatchTo`
returns that error with count 0, the first record is in the sink and the third
is not. -/
theorem Records_stops_at_handler_error_witness :
    PatchTo (limitedSink 4)
        (NewPatcher (Reader.ofBytes (magic ++ [0, 0, 1, 0, 2, 8, 9] ++ [0, 0, 3, 0, 2, 6, 7]
          ++ [0, 0, 0, 0, 1, 5] ++ eofMarker)) (Reader.ofBytes [1, 2, 3, 4])) MemFile.fresh
      = some ({ data := [1, 8, 9, 4], pos := 3 }, 0, some (Error.other 28)) :=
  Records_stops_at_handler_error.2 MemFile (limitedSink 4)
    (NewPatcher (Reader.ofBytes (magic ++ [0, 0, 1, 0, 2, 8, 9] ++ [0, 0, 3, 0, 2, 6, 7]
      ++ [0, 0, 0, 0, 1, 5] ++ eofMarker)) (Reader.ofBytes [1, 2, 3, 4]))
    MemFile.fresh { data := [1, 2, 3, 4], pos := 4 } { data := [1, 8, 9, 4], pos := 3 }
    { data := [1, 8, 9, 4], pos := 3 } 4 2 2 (Reader.ofBytes [])
    [{ Offset := 1, Data := [8, 9] }, { Offset := 3, Data := [6, 7] }, { Offset := 0, Data := [5] }]
    [{ Offset := 1, Data := [8, 9] }] [{ Offset := 0, Data := [5] }] { Offset := 3, Data := [6, 7] }
    none (Reader.ofBytes []) (Error.other 28)
    (by decide!) (by decide!) rfl (by decide!) (by decide!)

/-- C18: `Records` terminates on every finite patch stream.  For every stream,
read schedule (each `Read` returns at least one byte or an error), reuse flag
and handler, `Records` returns a result: the budgets of the decode loop (the
number of bytes of the stream plus one) and of the literal read loop (the
remaining count `left`) are never exhausted; the literal read loop returns from
every state; and the number of handler invocations is at most the number of
bytes of the stream. -/
theorem Records_terminates (r : Reader) (reuse : Bool) :
    (∀ (σ : Type) (handle : σ → Record → σ × Option Error) (s : σ),
      ∃ res, Records r reuse handle s = some res) ∧
    (∀ (buf : List Byte) (data : Slice) (size left : Nat), 1 ≤ buf.length →
      ∃ res, literalLoop left r buf data size left = some res) ∧
    (∀ (σ : Type) (handle : σ → Record → σ × Option Error) (s s1 : σ) (log : List Record) e r1,
      Records r reuse (withLog handle) (s, []) = some ((s1, log), e, r1) →
      log.length ≤ r.data.length) := by
  refine ⟨fun σ handle s => Records_total reuse handle r s,
    fun buf data size left hbuf => literalLoop_total left r buf data size left (Nat.le_refl _) hbuf,
    ?_⟩
  intro σ handle s s1 log e r1 h
  obtain ⟨⟨recs, e0, r0⟩, h0⟩ := Records_total reuse collect r []
  obtain ⟨r2, h2, _⟩ := Records_handler reuse (withLog handle) r (s, []) recs e0 r0 h0
  rw [h] at h2
  simp only [Option.some.injEq, Prod.mk.injEq] at h2
  obtain ⟨k, hk1, hk⟩ := runHandler_withLog_take handle recs s []
  have hlog : log = recs.take k := by
    have := congrArg (fun x => x.2) h2.1
    simp only at this
    rw [this, hk]; simp
  have hc : recordsOnBytes collect r.data [] = some (recs, e0, r0.data) := by
    rw [← Records_abs reuse collect r [], h0]; rfl
  obtain ⟨h3, _⟩ := recordsOnBytes_collect_bound _ _ _ _ hc
  rw [hlog, List.length_take]
  omega

/-! ## No index or slice expression of the decoder is out of range -/

theorem Read_length_le (r : Reader) (k : Nat) : (r.Read k).1.length ≤ k := by
  unfold Reader.Read
  split
  · simp
  · simp only [List.length_take]; omega

theorem allocDataChecked_eq (reuse : Bool) (data : Slice) (size : Nat) :
    allocDataChecked reuse data size = Checked.ok (allocData reuse data size) := by
  unfold allocDataChecked allocData
  split
  · rename_i h
    simp only [Bool.and_eq_true, decide_eq_true_eq] at h
    rw [if_pos h.2]
  · rfl

theorem rleFillChecked_eq (k : Nat) : ∀ (i : Nat) (rep : Byte) (data : Slice),
    i + k ≤ data.len → rleFillChecked k i rep data = Checked.ok (rleFill k i rep data) := by
  induction k with
  | zero => intro i rep data _; rfl
  | succ k ih =>
    intro i rep data h
    unfold rleFillChecked rleFill
    rw [if_pos (by omega)]
    exact ih (i + 1) rep _ (by simp only; omega)

/-- The literal read loop never leaves the range of `buf` or `data`: from every
state with `0 <= left <= size = len(data)` the loop with range checks does what
the loop without them does, and never panics. -/
theorem literalLoopChecked_eq (fuel : Nat) : ∀ (r : Reader) (buf : List Byte) (data : Slice)
    (size left : Nat), left ≤ size → data.len = size →
    literalLoopChecked fuel r buf data (size : Int) (left : Int)
      = (literalLoop fuel r buf data size left).map Checked.ok := by
  induction fuel with
  | zero =>
    intro r buf data size left _ _
    unfold literalLoopChecked literalLoop
    by_cases h0 : left = 0
    · subst h0; simp
    · have : (left : Int) ≠ 0 := by omega
      simp [h0, this]
  | succ fuel ih =>
    intro r buf data size left hle hlen
    unfold literalLoopChecked literalLoop
    by_cases h0 : left = 0
    · subst h0; simp
    · have h0i : (left : Int) ≠ 0 := by omega
      rw [if_pos h0i, if_pos h0]
      simp only
      by_cases hbig : left > buf.length
      · have hbigi : (left : Int) > (buf.length : Int) := by omega
        rw [if_pos hbigi, if_pos hbig]
        simp only
        have hp := Read_length_le r buf.length
        rcases hread : r.Read buf.length with ⟨p, _ | e, r1⟩
        · rw [hread] at hp
          simp only at hp
          have hc : p.length ≤ buf.length ∧ (0 : Int) ≤ (size : Int) - (left : Int) ∧
              (size : Int) - (left : Int) ≤ (data.len : Int) := by omega
          simp only [hc, and_self, if_true]
          have e1 : ((size : Int) - (left : Int)).toNat = size - left := by omega
          have e2 : (left : Int) - (p.length : Int) = ((left - p.length : Nat) : Int) := by omega
          rw [e1, e2]
          exact ih r1 _ _ size (left - p.length) (by omega) (by simpa using hlen)
        · rfl
      · have hbigi : ¬ (left : Int) > (buf.length : Int) := by omega
        have hrange : (0 : Int) ≤ (left : Int) ∧ (left : Int) ≤ (buf.length : Int) := by omega
        rw [if_neg hbigi, if_pos hrange, if_neg hbig]
        simp only [Int.toNat_ofNat]
        have hp := Read_length_le r left
        rcases hread : r.Read left with ⟨p, _ | e, r1⟩
        · rw [hread] at hp
          simp only at hp
          have hc : p.length ≤ buf.length ∧ (0 : Int) ≤ (size : Int) - (left : Int) ∧
              (size : Int) - (left : Int) ≤ (data.len : Int) := by omega
          simp only [hc, and_self, if_true]
          have e1 : ((size : Int) - (left : Int)).toNat = size - left := by omega
          have e2 : (left : Int) - (p.length : Int) = ((left - p.length : Nat) : Int) := by omega
          rw [e1, e2]
          exact ih r1 _ _ size (left - p.length) (by omega) (by simpa using hlen)
        · rfl

/-- The loop body never leaves the range of `hdr`, `buf` or `data`: with the
range checks it does what it does without them, and never panics. -/
theorem decodeRecordChecked_eq (reuse : Bool) (r : Reader) (buf : List Byte) (data : Slice)
    (hbuf : 5 ≤ buf.length) :
    decodeRecordChecked reuse r buf data = (decodeRecord reuse r buf data).map Checked.ok := by
  unfold decodeRecordChecked decodeRecord
  rw [if_pos hbuf]
  rcases h1 : readFull r (slice buf 0 3) with _ | ⟨h, _ | e, r1⟩
  · rfl
  swap
  · rfl
  simp only
  by_cases heof : slice (copyAt buf 0 h) 0 3 = eofMarker
  · simp only [heof, if_true, Option.map_some']
  simp only [heof, if_false]
  rcases h2 : readFull r1 (slice (copyAt buf 0 h) 3 5) with _ | ⟨hh, _ | e, r2⟩
  · rfl
  swap
  · rfl
  simp only
  by_cases hsz : bytes2ToInt64 (slice (copyAt (copyAt buf 0 h) 3 hh) 3 5) = 0
  · simp only [hsz, if_true]
    rcases h3 : readFull r2 (slice (copyAt (copyAt buf 0 h) 3 hh) 0 3) with _ | ⟨h3b, e3, r3⟩
    · rfl
    simp only [allocDataChecked_eq]
    rw [rleFillChecked_eq _ 0 _ _ (by rw [allocData_len]; omega)]
    rfl
  · simp only [hsz, if_false, allocDataChecked_eq]
    rw [literalLoopChecked_eq _ r2 _ _ _ _ (Nat.le_refl _) (allocData_len _ _ _)]
    rcases literalLoop (bytes2ToInt64 (slice (copyAt (copyAt buf 0 h) 3 hh) 3 5)) r2
        (copyAt (copyAt buf 0 h) 3 hh)
        (allocData reuse data (bytes2ToInt64 (slice (copyAt (copyAt buf 0 h) 3 hh) 3 5)))
        (bytes2ToInt64 (slice (copyAt (copyAt buf 0 h) 3 hh) 3 5))
        (bytes2ToInt64 (slice (copyAt (copyAt buf 0 h) 3 hh) 3 5)) with _ | ⟨_ | e, b, d, r3⟩
    · rfl
    · rfl
    · rfl

/-- The decode loop with range checks does what the loop without them does. -/
theorem RecordsLoopChecked_eq {σ : Type} (reuse : Bool) (handle : σ → Record → σ × Option Error)
    (fuel : Nat) : ∀ (r : Reader) (buf : List Byte) (data : Slice) (s : σ), 5 ≤ buf.length →
    RecordsLoopChecked reuse handle fuel r buf data s
      = (RecordsLoop reuse handle fuel r buf data s).map Checked.ok := by
  induction fuel with
  | zero => intro r buf data s _; rfl
  | succ fuel ih =>
    intro r buf data s hbuf
    obtain ⟨st, hst, _, hlen⟩ := decodeRecord_abs reuse r buf data hbuf
    unfold RecordsLoopChecked RecordsLoop
    rw [decodeRecordChecked_eq reuse r buf data hbuf, hst]
    cases st with
    | done r1 => rfl
    | fail err r1 => rfl
    | emit off data1 buf1 r1 =>
      simp only [Option.map_some']
      rcases hh : handle s { Offset := off, Data := data1.toList } with ⟨s1, _ | e⟩
      · exact ih r1 buf1 data1 s1 (by rw [hlen off data1 buf1 r1 rfl]; exact hbuf)
      · rfl

/-- `Records` with range checks does what `Records` without them does. -/
theorem RecordsChecked_eq {σ : Type} (reuse : Bool) (handle : σ → Record → σ × Option Error)
    (r : Reader) (s : σ) :
    RecordsChecked r reuse handle s = (Records r reuse handle s).map Checked.ok := by
  have h512 : 5 ≤ (List.replicate 512 (0 : Byte)).length := by
    rw [List.length_replicate]; omega
  unfold RecordsChecked Records
  simp only
  rw [if_pos h512]
  rcases readFull_cases r (slice (List.replicate 512 0) 0 5) with
    ⟨hl, r1, h1, hr1⟩ | ⟨hl, r1, h1, hr1⟩
  · rw [slice_buf5_length] at h1
    by_cases hmag : r.data.take 5 = magic
    · have hc : checkHeader r (slice (List.replicate 512 0) 0 5) = some (magic, none, r1) := by
        simp only [checkHeader, h1, hmag, if_true]
      rw [hc]
      exact RecordsLoopChecked_eq reuse handle _ r1 _ _ s (by
        rw [copyAt_zero_length _ _ (by rw [List.length_replicate]; decide),
          List.length_replicate]; omega)
    · have hc : checkHeader r (slice (List.replicate 512 0) 0 5)
          = some (r.data.take 5, some Error.ErrInvalidMagic, r1) := by
        simp only [checkHeader, h1, hmag, if_false]
      rw [hc]; rfl
  · have hc : checkHeader r (slice (List.replicate 512 0) 0 5)
        = some (r.data ++ (slice (List.replicate 512 0) 0 5).drop r.data.length,
            some (if r.data = [] then Error.EOF else Error.ErrUnexpectedEOF), r1) := by
      simp only [checkHeader, h1]
    rw [hc]; rfl

/-- C19: `Records` never indexes or slices out of range, for any stream, read
schedule (each `Read` returns at most `len(buffer)` bytes) and either value of
the reuse flag.  `RecordsChecked`, in which every index and slice expression
panics when out of range, returns without a panic exactly what `Records`
returns; the literal read loop with its checks agrees with the loop without
them from every state with `0 <= left <= size = len(data)`, so `left` stays in
that range, `buf[:left]` is taken only when `left <= len(buf) = 512` and
`data[size-left:]` lies within `data`; `allocData` returns a slice of length
exactly `size` within its capacity; and the RLE fill loop over such a slice
writes only indices below `len(data)`. -/
theorem Records_in_range (r : Reader) (reuse : Bool) :
    (∀ (σ : Type) (handle : σ → Record → σ × Option Error) (s : σ),
      ∃ res, RecordsChecked r reuse handle s = some (Checked.ok res) ∧
        Records r reuse handle s = some res) ∧
    (∀ (fuel : Nat) (buf : List Byte) (data : Slice) (size left : Nat),
      left ≤ size → data.len = size →
      literalLoopChecked fuel r buf data (size : Int) (left : Int)
        = (literalLoop fuel r buf data size left).map Checked.ok) ∧
    (∀ (data : Slice) (size : Nat),
      allocDataChecked reuse data size = Checked.ok (allocData reuse data size) ∧
      (allocData reuse data size).len = size ∧ size ≤ (allocData reuse data size).cap) ∧
    (∀ (data : Slice) (size : Nat) (rep : Byte), data.len = size →
      rleFillChecked size 0 rep data = Checked.ok (rleFill size 0 rep data)) := by
  refine ⟨?_, ?_, ?_, ?_⟩
  · intro σ handle s
    obtain ⟨res, h⟩ := Records_total reuse handle r s
    exact ⟨res, by rw [RecordsChecked_eq, h]; rfl, h⟩
  · intro fuel buf data size left h1 h2
    exact literalLoopChecked_eq fuel r buf data size left h1 h2
  · intro data size
    exact ⟨allocDataChecked_eq reuse data size, allocData_len reuse data size,
      allocData_cap reuse data size⟩
  · intro data size rep h
    exact rleFillChecked_eq size 0 rep data (by omega)

/-- C19 at a concrete stream, and the checks at work: `RecordsChecked` returns
the two records of the patch without a panic, while the literal read loop
started outside its invariant, with `left = 2` above `size = 1`, panics at
`data[size-left:]`. -/
theorem Records_in_range_witness :
    (∃ res, RecordsChecked (Reader.ofBytes (magic ++ [0, 0, 1, 0, 2, 8, 9] ++ [0, 0, 3, 0, 0, 0, 2, 7]
        ++ eofMarker)) true collect [] = some (Checked.ok res) ∧
      Records (Reader.ofBytes (magic ++ [0, 0, 1, 0, 2, 8, 9] ++ [0, 0, 3, 0, 0, 0, 2, 7]
        ++ eofMarker)) true collect [] = some res) ∧
    literalLoopChecked 2 (Reader.ofBytes [5, 6]) [0, 0, 0, 0] { arr := [0], len := 1 } 1 2
      = some Checked.panic :=
  ⟨(Records_in_range (Reader.ofBytes (magic ++ [0, 0, 1, 0, 2, 8, 9] ++ [0, 0, 3, 0, 0, 0, 2, 7]
      ++ eofMarker)) true).1 (List Record) collect [], by decide⟩


/-! ## The store of backing arrays -/

theorem store_set_getD_self (m : Store) (a : Nat) : m.set a (m.getD a []) = m := by
  apply List.ext_getElem
  · simp
  · intro n h1 h2
    by_cases h : a = n
    · subst h
      simp [List.getD_eq_getElem?_getD, List.getElem?_eq_getElem h2]
    · simp [List.getElem_set, h]

theorem store_getD_set_self (m : Store) (a : Nat) (x : List Byte) (h : a < m.length) :
    (m.set a x).getD a [] = x := by
  simp [List.getD_eq_getElem?_getD, List.getElem?_set, h]

theorem store_getD_set_ne (m : Store) (a b : Nat) (x : List Byte) (h : a ≠ b) :
    (m.set a x).getD b [] = m.getD b [] := by
  simp [List.getD_eq_getElem?_getD, List.getElem?_set, h]

theorem store_getD_append_left (m ext : Store) (a : Nat) (h : a < m.length) :
    (m ++ ext).getD a [] = m.getD a [] := by
  simp [List.getD_eq_getElem?_getD, List.getElem?_append_left h]

theorem store_getD_append_new (m : Store) (x : List Byte) :
    (m ++ [x]).getD m.length [] = x := by
  simp [List.getD_eq_getElem?_getD]

theorem store_set_append_new (m : Store) (x y : List Byte) :
    (m ++ [x]).set m.length y = m ++ [y] := by
  rw [List.set_append_right _ _ (Nat.le_refl _)]
  simp

theorem copyAt_length (dst : List Byte) (pos : Nat) (src : List Byte) :
    (copyAt dst pos src).length = dst.length := by
  simp only [copyAt, List.length_append, List.length_take, List.length_drop]
  omega

theorem rleFill_len (k : Nat) : ∀ (i : Nat) (rep : Byte) (d : Slice),
    (rleFill k i rep d).len = d.len := by
  induction k with
  | zero => intro i rep d; rfl
  | succ k ih => intro i rep d; unfold rleFill; rw [ih]

theorem rleFill_arr_length (k : Nat) : ∀ (i : Nat) (rep : Byte) (d : Slice),
    (rleFill k i rep d).arr.length = d.arr.length := by
  induction k with
  | zero => intro i rep d; rfl
  | succ k ih => intro i rep d; unfold rleFill; rw [ih]; simp

/-- The RLE fill loop over the store replaces the array behind `data` by what the
loop makes of it, and touches no other array. -/
theorem rleFillMem_eq (k : Nat) : ∀ (i : Nat) (rep : Byte) (m : Store) (data : SliceRef),
    data.addr < m.length →
    rleFillMem k i rep m data = m.set data.addr (rleFill k i rep (data.view m)).arr := by
  induction k with
  | zero =>
    intro i rep m data _
    simp only [rleFillMem, rleFill, SliceRef.view]
    exact (store_set_getD_self m data.addr).symm
  | succ k ih =>
    intro i rep m data h
    unfold rleFillMem rleFill
    rw [ih (i + 1) rep _ data (by simpa using h)]
    simp only [SliceRef.view, store_getD_set_self m _ _ h, List.set_set]


/-- The literal read loop keeps the length of the data slice and of its array. -/
theorem literalLoop_shape (fuel : Nat) : ∀ (r : Reader) (buf : List Byte) (data : Slice)
    (size left : Nat) (e : Option Error) (buf1 : List Byte) (data1 : Slice) (r1 : Reader),
    data.len ≤ data.arr.length →
    literalLoop fuel r buf data size left = some (e, buf1, data1, r1) →
    data1.len = data.len ∧ data1.arr.length = data.arr.length := by
  induction fuel with
  | zero =>
    intro r buf data size left e buf1 data1 r1 _ h
    unfold literalLoop at h
    by_cases h0 : left = 0
    · subst h0
      simp only [ne_eq, not_true_eq_false, if_false, Option.some.injEq, Prod.mk.injEq] at h
      rw [← h.2.2.1]; exact ⟨rfl, rfl⟩
    · simp [h0] at h
  | succ fuel ih =>
    intro r buf data size left e buf1 data1 r1 hcap h
    unfold literalLoop at h
    by_cases h0 : left = 0
    · subst h0
      simp only [ne_eq, not_true_eq_false, if_false, Option.some.injEq, Prod.mk.injEq] at h
      rw [← h.2.2.1]; exact ⟨rfl, rfl⟩
    · rw [if_pos h0] at h
      simp only at h
      split at h
      · simp only [Option.some.injEq, Prod.mk.injEq] at h
        rw [← h.2.2.1]; exact ⟨rfl, rfl⟩
      · have hlen : (copyAt (List.take data.len data.arr) (size - left)
            (List.take (List.length ‹List Byte›) (copyAt buf 0 ‹List Byte›))
            ++ List.drop data.len data.arr).length = data.arr.length := by
          rw [List.length_append, copyAt_length, List.length_take, List.length_drop]
          omega
        obtain ⟨h1, h2⟩ := ih _ _ _ _ _ _ _ _ _ (by simp only; rw [hlen]; exact hcap) h
        exact ⟨h1, by rw [h2]; exact hlen⟩


/-- The literal read loop over the store replaces the array behind `data` by what
the loop makes of it, and touches no other array. -/
theorem literalLoopMem_eq (fuel : Nat) : ∀ (r : Reader) (buf : List Byte) (m : Store)
    (data : SliceRef) (size left : Nat), data.addr < m.length →
    literalLoopMem fuel r buf m data size left
      = (literalLoop fuel r buf (data.view m) size left).map
          (fun x => (x.1, x.2.1, m.set data.addr x.2.2.1.arr, x.2.2.2)) := by
  induction fuel with
  | zero =>
    intro r buf m data size left _
    unfold literalLoopMem literalLoop
    by_cases h0 : left = 0
    · subst h0
      simp only [ne_eq, not_true_eq_false, if_false, Option.map_some', SliceRef.view]
      rw [store_set_getD_self]
    · simp [h0]
  | succ fuel ih =>
    intro r buf m data size left h
    unfold literalLoopMem literalLoop
    by_cases h0 : left = 0
    · subst h0
      simp only [ne_eq, not_true_eq_false, if_false, Option.map_some', SliceRef.view]
      rw [store_set_getD_self]
    · rw [if_pos h0, if_pos h0]
      simp only
      rcases hread : (if left > buf.length then r.Read buf.length else r.Read left)
        with ⟨p, _ | e, r1⟩
      · simp only
        rw [ih r1 _ _ data size (left - p.length) (by simpa using h)]
        simp only [SliceRef.view, store_getD_set_self m _ _ h, List.set_set]
      · simp only [Option.map_some', SliceRef.view]
        rw [store_set_getD_self]


/-- The function `allocData` over the store returns the slice `allocData` returns,
in a store in which it is well placed. -/
theorem allocDataMem_view (reuse : Bool) (m : Store) (data : SliceRef) (size : Nat)
    (h : WellPlaced m data) :
    (allocDataMem reuse m data size).2.view (allocDataMem reuse m data size).1
        = allocData reuse (data.view m) size ∧
      WellPlaced (allocDataMem reuse m data size).1 (allocDataMem reuse m data size).2 := by
  obtain ⟨h0, hd⟩ := h
  unfold allocDataMem allocData
  by_cases hc : (reuse && decide (data.cap m ≥ size)) = true
  · have hc2 : (reuse && decide ((data.view m).cap ≥ size)) = true := hc
    rw [if_pos hc, if_pos hc2]
    exact ⟨rfl, h0, hd⟩
  · have hc2 : ¬ (reuse && decide ((data.view m).cap ≥ size)) = true := hc
    rw [if_neg hc, if_neg hc2]
    unfold makeBytes
    by_cases hs : size = 0
    · subst hs
      rw [if_pos rfl]
      simp only [SliceRef.view, h0, List.replicate_zero]
      exact ⟨trivial, h0, show 0 < m.length by omega⟩
    · rw [if_neg hs]
      simp only [SliceRef.view, store_getD_append_new]
      refine ⟨trivial, ?_, by simp⟩
      rw [store_getD_append_left _ _ _ (by omega)]
      exact h0

/-- Replacing an array by one of the same length keeps a slice well placed. -/
theorem WellPlaced_set (m : Store) (d : SliceRef) (a : Nat) (x : List Byte)
    (h : WellPlaced m d) (hx : x.length = (m.getD a []).length) :
    WellPlaced (m.set a x) d := by
  obtain ⟨h0, hd⟩ := h
  refine ⟨?_, by simpa using hd⟩
  by_cases ha : a = 0
  · subst ha
    rw [h0] at hx
    rw [store_getD_set_self _ _ _ (by omega)]
    exact List.length_eq_zero.mp hx
  · rw [store_getD_set_ne _ _ _ _ ha]
    exact h0

theorem allocData_len_le (reuse : Bool) (data : Slice) (size : Nat) :
    (allocData reuse data size).len ≤ (allocData reuse data size).arr.length := by
  unfold allocData
  split
  · rename_i h
    simp only [Bool.and_eq_true, decide_eq_true_eq, Slice.cap] at h
    exact h.2
  · simp


theorem view_set (m : Store) (d : SliceRef) (S : Slice) (hd : d.addr < m.length)
    (hlen : S.len = (d.view m).len) : d.view (m.set d.addr S.arr) = S := by
  cases S
  simp only [SliceRef.view] at hlen ⊢
  rw [store_getD_set_self _ _ _ hd, hlen]

/-- The loop body over the store does what `decodeRecord` does on the data slice
with its array, and leaves the new data slice well placed. -/
theorem decodeRecordMem_view (reuse : Bool) (r : Reader) (buf : List Byte) (m : Store)
    (data : SliceRef) (h : WellPlaced m data) :
    (decodeRecordMem reuse r buf m data).map StepMem.view
        = decodeRecord reuse r buf (data.view m) ∧
      ∀ off d1 m1 buf1 r1,
        decodeRecordMem reuse r buf m data = some (StepMem.emit off d1 m1 buf1 r1) →
        WellPlaced m1 d1 := by
  unfold decodeRecordMem decodeRecord
  rcases h1 : readFull r (slice buf 0 3) with _ | ⟨hd, _ | e1, r1⟩
  · simp
  · simp only
    by_cases heof : slice (copyAt buf 0 hd) 0 3 = eofMarker
    · rw [if_pos heof, if_pos heof]
      simp [StepMem.view]
    · rw [if_neg heof, if_neg heof]
      rcases h2 : readFull r1 (slice (copyAt buf 0 hd) 3 5) with _ | ⟨hd2, _ | e2, r2⟩
      · simp
      · simp only
        by_cases hs : bytes2ToInt64 (slice (copyAt (copyAt buf 0 hd) 3 hd2) 3 5) = 0
        · rw [if_pos hs, if_pos hs]
          rcases h3 : readFull r2 (slice (copyAt (copyAt buf 0 hd) 3 hd2) 0 3) with _ | ⟨hd3, e3, r3⟩
          · simp
          · simp only [Option.map_some', StepMem.view, Option.some.injEq, StepMem.emit.injEq]
            obtain ⟨ha, hw⟩ := allocDataMem_view reuse m data
              (bytes2ToInt64 (slice (copyAt (copyAt (copyAt buf 0 hd) 3 hd2) 0 hd3) 0 2)) h
            generalize allocDataMem reuse m data
              (bytes2ToInt64 (slice (copyAt (copyAt (copyAt buf 0 hd) 3 hd2) 0 hd3) 0 2)) = a at ha hw
            rw [← ha, rleFillMem_eq _ _ _ _ _ hw.2]
            have hlen := rleFill_len (bytes2ToInt64 (slice (copyAt (copyAt (copyAt buf 0 hd) 3 hd2) 0 hd3) 0 2))
              0 ((copyAt (copyAt (copyAt buf 0 hd) 3 hd2) 0 hd3).getD 2 0) (a.2.view a.1)
            have harr := rleFill_arr_length (bytes2ToInt64 (slice (copyAt (copyAt (copyAt buf 0 hd) 3 hd2) 0 hd3) 0 2))
              0 ((copyAt (copyAt (copyAt buf 0 hd) 3 hd2) 0 hd3).getD 2 0) (a.2.view a.1)
            generalize rleFill (bytes2ToInt64 (slice (copyAt (copyAt (copyAt buf 0 hd) 3 hd2) 0 hd3) 0 2))
              0 ((copyAt (copyAt (copyAt buf 0 hd) 3 hd2) 0 hd3).getD 2 0) (a.2.view a.1) = S at hlen harr
            constructor
            · rw [view_set _ _ _ hw.2 hlen]
            · rintro off d1 m1 buf1 r4 ⟨_, rfl, rfl, _, _⟩
              exact WellPlaced_set _ _ _ _ hw harr
        · rw [if_neg hs, if_neg hs]
          obtain ⟨ha, hw⟩ := allocDataMem_view reuse m data
            (bytes2ToInt64 (slice (copyAt (copyAt buf 0 hd) 3 hd2) 3 5)) h
          generalize allocDataMem reuse m data
            (bytes2ToInt64 (slice (copyAt (copyAt buf 0 hd) 3 hd2) 3 5)) = a at ha hw
          have hcap := allocData_len_le reuse (data.view m)
            (bytes2ToInt64 (slice (copyAt (copyAt buf 0 hd) 3 hd2) 3 5))
          rw [← ha] at hcap ⊢
          rw [literalLoopMem_eq _ _ _ _ _ _ _ hw.2]
          rcases hl : literalLoop (bytes2ToInt64 (slice (copyAt (copyAt buf 0 hd) 3 hd2) 3 5)) r2
              (copyAt (copyAt buf 0 hd) 3 hd2) (a.2.view a.1)
              (bytes2ToInt64 (slice (copyAt (copyAt buf 0 hd) 3 hd2) 3 5))
              (bytes2ToInt64 (slice (copyAt (copyAt buf 0 hd) 3 hd2) 3 5))
            with _ | ⟨_ | e4, buf3, data2, r3⟩
          · simp
          · obtain ⟨hlen, harr⟩ := literalLoop_shape _ _ _ _ _ _ _ _ _ _ hcap hl
            simp only [Option.map_some', StepMem.view, Option.some.injEq, StepMem.emit.injEq]
            constructor
            · rw [view_set _ _ _ hw.2 hlen]
            · rintro off d1 m1 buf1 r4 ⟨_, rfl, rfl, _, _⟩
              exact WellPlaced_set _ _ _ _ hw harr
          · simp [StepMem.view]
      · simp [StepMem.view]
  · simp [StepMem.view]


/-- The decode loop over the store, with a handler `g` that does on its state what
the handler `h` does on the state `proj` makes of it, given the bytes of `Data`
at the time of the call: it ends as the decode loop with `h` does. -/
theorem RecordsLoopMem_view {σ τ : Type} (reuse : Bool)
    (g : σ → Store → RecordRef → σ × Option Error) (h : τ → Record → τ × Option Error)
    (proj : σ → τ)
    (hg : ∀ s m rec, h (proj s) { Offset := rec.Offset, Data := rec.Data.bytes m }
      = (proj (g s m rec).1, (g s m rec).2))
    (fuel : Nat) : ∀ (r : Reader) (buf : List Byte) (m : Store) (data : SliceRef) (s : σ),
    WellPlaced m data →
    (RecordsLoopMem reuse g fuel r buf m data s).map (fun x => (proj x.1, x.2.1, x.2.2.2))
      = RecordsLoop reuse h fuel r buf (data.view m) (proj s) := by
  induction fuel with
  | zero => intro r buf m data s _; rfl
  | succ fuel ih =>
    intro r buf m data s hw
    obtain ⟨hv, hwp⟩ := decodeRecordMem_view reuse r buf m data hw
    unfold RecordsLoopMem RecordsLoop
    rw [← hv]
    rcases hdm : decodeRecordMem reuse r buf m data with _ | st
    · rfl
    · cases st with
      | done m1 r1 => rfl
      | fail err m1 r1 => rfl
      | emit off d1 m1 buf1 r1 =>
        have hh := hg s m1 { Offset := off, Data := d1 }
        have hw1 := hwp off d1 m1 buf1 r1 hdm
        simp only [Option.map_some', StepMem.view]
        have e1 : (d1.view m1).toList = d1.bytes m1 := rfl
        rw [e1, hh]
        rcases hgs : g s m1 { Offset := off, Data := d1 } with ⟨s1, _ | e⟩
        · simp only
          exact ih r1 buf1 m1 d1 s1 hw1
        · rfl

theorem WellPlaced_start : WellPlaced Store.start SliceRef.null := by
  constructor
  · rfl
  · decide

/-- `Records` over the store ends as `Records` does, for such a pair of handlers. -/
theorem RecordsMem_view {σ τ : Type} (reuse : Bool)
    (g : σ → Store → RecordRef → σ × Option Error) (h : τ → Record → τ × Option Error)
    (proj : σ → τ)
    (hg : ∀ s m rec, h (proj s) { Offset := rec.Offset, Data := rec.Data.bytes m }
      = (proj (g s m rec).1, (g s m rec).2))
    (r : Reader) (s : σ) :
    (RecordsMem r reuse g s).map (fun x => (proj x.1, x.2.1, x.2.2.2))
      = Records r reuse h (proj s) := by
  rcases hc : checkHeader r (slice (List.replicate 512 0) 0 5) with _ | ⟨hdr, _ | e, r1⟩
  · simp only [RecordsMem, Records, hc, Option.map_none']
  · simp only [RecordsMem, Records, hc]
    exact RecordsLoopMem_view reuse g h proj hg _ _ _ _ _ _ WellPlaced_start
  · simp only [RecordsMem, Records, hc, Option.map_some']

theorem retain_collect (s : List Delivery) (m : Store) (rec : RecordRef) :
    collect (s.map Delivery.toRecord) { Offset := rec.Offset, Data := rec.Data.bytes m }
      = (((retain s m rec).1).map Delivery.toRecord, (retain s m rec).2) := by
  simp [collect, retain, Delivery.toRecord]


/-! ## With the reuse flag off every record gets an array of its own -/

theorem allocDataMem_false (m : Store) (data : SliceRef) (size : Nat) :
    allocDataMem false m data size = makeBytes m size := by
  simp [allocDataMem]

theorem makeBytes_cases (m : Store) (size : Nat) :
    (size = 0 ∧ makeBytes m size = (m, { addr := 0, len := 0 })) ∨
    (size ≠ 0 ∧ makeBytes m size
      = (m ++ [List.replicate size 0], { addr := m.length, len := size })) := by
  unfold makeBytes
  by_cases h : size = 0
  · left; exact ⟨h, by rw [if_pos h]⟩
  · right; exact ⟨h, by rw [if_neg h]⟩

/-- With the reuse flag off the loop body leaves every array that was there as it
was: the store grows by at most one array, and the data of a record that has
bytes is in that new array. -/
theorem decodeRecordMem_fresh (r : Reader) (buf : List Byte) (m : Store) (data : SliceRef)
    (st : StepMem) (h : decodeRecordMem false r buf m data = some st) :
    (∃ ext, st.store = m ++ ext) ∧
    ∀ off d1 m1 buf1 r1, st = StepMem.emit off d1 m1 buf1 r1 →
      d1.len ≠ 0 → d1.addr = m.length ∧ d1.addr < m1.length := by
  unfold decodeRecordMem at h
  rcases h1 : readFull r (slice buf 0 3) with _ | ⟨hd, _ | e1, r1⟩
  · simp [h1] at h
  · simp only [h1] at h
    by_cases heof : slice (copyAt buf 0 hd) 0 3 = eofMarker
    · rw [if_pos heof] at h
      simp only [Option.some.injEq] at h
      subst h
      exact ⟨⟨[], by simp [StepMem.store]⟩, by intro _ _ _ _ _ hh; cases hh⟩
    · rw [if_neg heof] at h
      rcases h2 : readFull r1 (slice (copyAt buf 0 hd) 3 5) with _ | ⟨hd2, _ | e2, r2⟩
      · simp [h2] at h
      · simp only [h2, allocDataMem_false] at h
        by_cases hs : bytes2ToInt64 (slice (copyAt (copyAt buf 0 hd) 3 hd2) 3 5) = 0
        · rw [if_pos hs] at h
          rcases h3 : readFull r2 (slice (copyAt (copyAt buf 0 hd) 3 hd2) 0 3) with _ | ⟨hd3, e3, r3⟩
          · simp [h3] at h
          · simp only [h3, Option.some.injEq] at h
            subst h
            rcases makeBytes_cases m
              (bytes2ToInt64 (slice (copyAt (copyAt (copyAt buf 0 hd) 3 hd2) 0 hd3) 0 2))
              with ⟨hz, hm⟩ | ⟨hz, hm⟩
            · rw [hm, hz]
              refine ⟨⟨[], by simp [StepMem.store, rleFillMem]⟩, ?_⟩
              intro off d1 m1 buf1 r4 hh hne
              simp only [StepMem.emit.injEq] at hh
              rw [← hh.2.1] at hne
              exact absurd rfl hne
            · rw [hm]
              simp only
              rw [rleFillMem_eq _ _ _ _ _ (by simp), store_set_append_new]
              refine ⟨⟨_, rfl⟩, ?_⟩
              intro off d1 m1 buf1 r4 hh _
              simp only [StepMem.emit.injEq] at hh
              rw [← hh.2.1, ← hh.2.2.1]
              simp
        · rw [if_neg hs] at h
          rcases makeBytes_cases m (bytes2ToInt64 (slice (copyAt (copyAt buf 0 hd) 3 hd2) 3 5))
            with ⟨hz, _⟩ | ⟨_, hm⟩
          · exact absurd hz hs
          · rw [hm] at h
            simp only at h
            rw [literalLoopMem_eq _ _ _ _ _ _ _ (by simp)] at h
            generalize literalLoop _ r2 _ _ _ _ = L at h
            rcases L with _ | ⟨_ | e4, buf3, data2, r3⟩
            · simp at h
            · simp only [Option.map_some', Option.some.injEq] at h
              subst h
              simp only [store_set_append_new]
              refine ⟨⟨_, rfl⟩, ?_⟩
              intro off d1 m1 buf1 r4 hh _
              simp only [StepMem.emit.injEq] at hh
              rw [← hh.2.1, ← hh.2.2.1]
              simp
            · simp only [Option.map_some', Option.some.injEq] at h
              subst h
              simp only [store_set_append_new]
              exact ⟨⟨_, rfl⟩, by intro _ _ _ _ _ hh; cases hh⟩
      · simp only [h2, Option.some.injEq] at h
        subst h
        exact ⟨⟨[], by simp [StepMem.store]⟩, by intro _ _ _ _ _ hh; cases hh⟩
  · simp only [h1, Option.some.injEq] at h
    subst h
    exact ⟨⟨[], by simp [StepMem.store]⟩, by intro _ _ _ _ _ hh; cases hh⟩


/-- With the reuse flag off, from one delivery to the next and up to the return of
the decode loop the store only grows: the store a record was delivered in is
an initial part of every later store, and the data of a record that has bytes
is in an array that was not there at any earlier delivery. -/
theorem RecordsLoopMem_fresh (fuel : Nat) : ∀ (r : Reader) (buf : List Byte) (m : Store)
    (data : SliceRef) (acc ds : List Delivery) (e : Option Error) (mfin : Store) (r1 : Reader),
    RecordsLoopMem false retain fuel r buf m data acc = some (ds, e, mfin, r1) →
    ∃ new, ds = acc ++ new ∧ (∃ ext, mfin = m ++ ext) ∧
      (∀ d ∈ new, (∃ ext, d.mem = m ++ ext) ∧ (∃ ext, mfin = d.mem ++ ext) ∧
        (d.record.Data.len ≠ 0 →
          m.length ≤ d.record.Data.addr ∧ d.record.Data.addr < d.mem.length)) ∧
      List.Pairwise (fun a b => (∃ ext, b.mem = a.mem ++ ext) ∧
        (b.record.Data.len ≠ 0 → a.mem.length ≤ b.record.Data.addr)) new := by
  induction fuel with
  | zero => intro r buf m data acc ds e mfin r1 h; simp [RecordsLoopMem] at h
  | succ fuel ih =>
    intro r buf m data acc ds e mfin r1 h
    unfold RecordsLoopMem at h
    rcases hdm : decodeRecordMem false r buf m data with _ | st
    · simp [hdm] at h
    · obtain ⟨⟨ext0, hext0⟩, hfresh⟩ := decodeRecordMem_fresh r buf m data st hdm
      cases st with
      | done m1 r2 =>
        simp only [hdm, Option.some.injEq, Prod.mk.injEq] at h
        obtain ⟨h1, _, h3, _⟩ := h
        simp only [StepMem.store] at hext0
        exact ⟨[], by simp [h1], ⟨ext0, by rw [← h3, hext0]⟩, by simp, by simp⟩
      | fail err m1 r2 =>
        simp only [hdm, Option.some.injEq, Prod.mk.injEq] at h
        obtain ⟨h1, _, h3, _⟩ := h
        simp only [StepMem.store] at hext0
        exact ⟨[], by simp [h1], ⟨ext0, by rw [← h3, hext0]⟩, by simp, by simp⟩
      | emit off d1 m1 buf1 r2 =>
        simp only [hdm, retain] at h
        simp only [StepMem.store] at hext0
        have hf := hfresh off d1 m1 buf1 r2 rfl
        obtain ⟨new1, hds, ⟨ext1, hext1⟩, hall, hpw⟩ := ih _ _ _ _ _ _ _ _ _ h
        refine ⟨{ record := { Offset := off, Data := d1 }, mem := m1 } :: new1,
          by rw [hds]; simp, ⟨ext0 ++ ext1, by rw [hext1, hext0]; simp⟩, ?_, ?_⟩
        · intro d hd
          rcases List.mem_cons.mp hd with rfl | hd1
          · refine ⟨⟨ext0, hext0⟩, ⟨ext1, hext1⟩, fun hne => ?_⟩
            obtain ⟨h1, h2⟩ := hf hne
            exact ⟨by simp only; omega, h2⟩
          · obtain ⟨⟨x1, hx1⟩, hx2, hx3⟩ := hall d hd1
            refine ⟨⟨ext0 ++ x1, by rw [hx1, hext0]; simp⟩, hx2, fun hne => ?_⟩
            obtain ⟨h1, h2⟩ := hx3 hne
            rw [hext0] at h1
            simp only [List.length_append] at h1
            exact ⟨by omega, h2⟩
        · rw [List.pairwise_cons]
          refine ⟨fun b hb => ?_, hpw⟩
          obtain ⟨hx1, _, hx3⟩ := hall b hb
          exact ⟨hx1, fun hne => (hx3 hne).1⟩

/-- The bytes of a slice read in a larger store. -/
theorem bytes_append (d : SliceRef) (m ext : Store) (h : d.len ≠ 0 → d.addr < m.length) :
    d.bytes (m ++ ext) = d.bytes m := by
  unfold SliceRef.bytes
  by_cases h0 : d.len = 0
  · rw [h0]; simp
  · rw [store_getD_append_left _ _ _ (h h0)]


/-- `Records` over the store with the reuse flag off and a handler that keeps the
slices: read in the store `Records` returns with, and in the store of every
later delivery, the data of a record are the bytes it was delivered with; and
the data of a record that has bytes are in an array that was there neither at
the start nor at any earlier delivery. -/
theorem RecordsMem_fresh (r : Reader) (ds : List Delivery) (e : Option Error) (m : Store)
    (r1 : Reader) (h : RecordsMem r false retain [] = some (ds, e, m, r1)) :
    (∀ d ∈ ds, d.record.Data.bytes m = d.record.Data.bytes d.mem ∧
      (d.record.Data.len ≠ 0 →
        Store.start.length ≤ d.record.Data.addr ∧ d.record.Data.addr < d.mem.length)) ∧
    List.Pairwise (fun a b => a.record.Data.bytes b.mem = a.record.Data.bytes a.mem ∧
      (b.record.Data.len ≠ 0 → a.mem.length ≤ b.record.Data.addr)) ds := by
  rcases hc : checkHeader r (slice (List.replicate 512 0) 0 5) with _ | ⟨hdr, _ | e0, r0⟩
  · simp only [RecordsMem, hc] at h
    cases h
  · simp only [RecordsMem, hc] at h
    obtain ⟨new, hds, _, hall, hpw⟩ := RecordsLoopMem_fresh _ _ _ _ _ _ _ _ _ _ h
    rw [List.nil_append] at hds
    subst hds
    constructor
    · intro d hd
      obtain ⟨_, ⟨ext, hext⟩, hv⟩ := hall d hd
      refine ⟨?_, hv⟩
      rw [hext]
      exact bytes_append _ _ _ (fun hne => (hv hne).2)
    · refine List.Pairwise.imp_of_mem ?_ hpw
      intro a b ha _ hab
      obtain ⟨⟨ext, hext⟩, hfr⟩ := hab
      refine ⟨?_, hfr⟩
      rw [hext]
      exact bytes_append _ _ _ (fun hne => ((hall a ha).2.2 hne).2)
  · simp only [RecordsMem, hc, Option.some.injEq, Prod.mk.injEq] at h
    rw [← h.1]
    simp

/-- C14: the reuse flag is a pure optimisation.  For every patch stream, read
schedule and handler on the contents of the records, `Records(true, h)` and
`Records(false, h)` return with the same handler state, the same error or `nil`
and the same bytes left unread, and the recording handler receives the same
sequence of records.  A handler that only inspects each record during its own
invocation is, over the store of backing arrays, a handler that reads the bytes
of `Data` at the time of the call: with it `Records` over the store ends as
`Records` does, for either value of the flag.  With the flag off `allocData`
is `make`; for a handler that keeps the slices it is given, the bytes of every
record's `Data`, read when `Records` returns or at the time any later record is
delivered, are the bytes the record was delivered with, and the `Data` of every
record that has bytes is in a newly allocated array: one that was there neither
when `Records` started nor when any earlier record was delivered. -/
theorem Records_reuse_flag (r : Reader) :
    (∀ (σ : Type) (handle : σ → Record → σ × Option Error) (s : σ),
      ∃ s1 e rest r1 r2,
        Records r true handle s = some (s1, e, r1) ∧
        Records r false handle s = some (s1, e, r2) ∧ r1.data = rest ∧ r2.data = rest) ∧
    (∃ recs e r1 r2,
      Records r true collect [] = some (recs, e, r1) ∧
      Records r false collect [] = some (recs, e, r2)) ∧
    (∀ (reuse : Bool) (σ : Type) (handle : σ → Record → σ × Option Error) (s : σ),
      (RecordsMem r reuse (inspect handle) s).map (fun x => (x.1, x.2.1, x.2.2.2))
        = Records r reuse handle s) ∧
    (∀ (m : Store) (data : SliceRef) (size : Nat),
      allocDataMem false m data size = makeBytes m size) ∧
    (∃ ds e m r1, RecordsMem r false retain [] = some (ds, e, m, r1) ∧
      Records r false collect [] = some (ds.map Delivery.toRecord, e, r1) ∧
      (∀ d ∈ ds, d.record.Data.bytes m = d.record.Data.bytes d.mem ∧
        (d.record.Data.len ≠ 0 →
          Store.start.length ≤ d.record.Data.addr ∧ d.record.Data.addr < d.mem.length)) ∧
      List.Pairwise (fun a b => a.record.Data.bytes b.mem = a.record.Data.bytes a.mem ∧
        (b.record.Data.len ≠ 0 → a.mem.length ≤ b.record.Data.addr)) ds) := by
  have key : ∀ (σ : Type) (handle : σ → Record → σ × Option Error) (s : σ),
      ∃ s1 e rest r1 r2,
        Records r true handle s = some (s1, e, r1) ∧
        Records r false handle s = some (s1, e, r2) ∧ r1.data = rest ∧ r2.data = rest := by
    intro σ handle s
    obtain ⟨⟨s1, e, rest⟩, h⟩ := recordsOnBytes_total handle r.data s
    have h1 := Records_abs true handle r s
    have h2 := Records_abs false handle r s
    rw [h] at h1 h2
    obtain ⟨r1, h3, h4⟩ := outcome_some _ _ _ _ h1
    obtain ⟨r2, h5, h6⟩ := outcome_some _ _ _ _ h2
    exact ⟨s1, e, rest, r1, r2, h3, h5, h4, h6⟩
  refine ⟨key, ?_, ?_, allocDataMem_false, ?_⟩
  · obtain ⟨recs, e, _, r1, r2, h1, h2, _, _⟩ := key (List Record) collect []
    exact ⟨recs, e, r1, r2, h1, h2⟩
  · intro reuse σ handle s
    exact RecordsMem_view reuse (inspect handle) handle id (fun _ _ _ => rfl) r s
  · have hv := RecordsMem_view false retain collect (List.map Delivery.toRecord)
      retain_collect r []
    obtain ⟨⟨recs, e, r1⟩, hR⟩ := Records_total false collect r []
    rcases hM : RecordsMem r false retain [] with _ | ⟨ds, e1, m, r2⟩
    · rw [hM] at hv
      simp only [List.map_nil, Option.map_none'] at hv
      rw [hR] at hv
      cases hv
    · rw [hM] at hv
      simp only [List.map_nil, Option.map_some'] at hv
      obtain ⟨h1, h2⟩ := RecordsMem_fresh r ds e1 m r2 hM
      exact ⟨ds, e1, m, r2, rfl, hv.symm, h1, h2⟩

/-- C14 at a concrete stream: a record of three bytes, a record of one byte and
two RLE records without bytes.  Both values of the flag deliver the same
records.  With the flag off the first two records are in the arrays 1 and 2,
which hold `[1, 2, 3]` and `[9]` at every later time, and the two records
without bytes are both given array 0, which has no bytes; with the flag on all
records are in array 1, which holds `[9, 2, 3]` once the second is decoded, so
that the first three bytes kept from the first record have changed. -/
theorem Records_reuse_flag_witness :
    (∃ recs e r1 r2,
      Records (Reader.ofBytes (magic ++ [0, 0, 1, 0, 3, 1, 2, 3] ++ [0, 0, 5, 0, 1, 9]
          ++ [0, 0, 7, 0, 0, 0, 0, 4] ++ [0, 0, 8, 0, 0, 0, 0, 4] ++ eofMarker))
        true collect [] = some (recs, e, r1) ∧
      Records (Reader.ofBytes (magic ++ [0, 0, 1, 0, 3, 1, 2, 3] ++ [0, 0, 5, 0, 1, 9]
          ++ [0, 0, 7, 0, 0, 0, 0, 4] ++ [0, 0, 8, 0, 0, 0, 0, 4] ++ eofMarker))
        false collect [] = some (recs, e, r2)) ∧
    RecordsMem (Reader.ofBytes (magic ++ [0, 0, 1, 0, 3, 1, 2, 3] ++ [0, 0, 5, 0, 1, 9]
          ++ [0, 0, 7, 0, 0, 0, 0, 4] ++ [0, 0, 8, 0, 0, 0, 0, 4] ++ eofMarker)) false retain []
      = some ([{ record := { Offset := 1, Data := { addr := 1, len := 3 } }, mem := [[], [1, 2, 3]] },
          { record := { Offset := 5, Data := { addr := 2, len := 1 } }, mem := [[], [1, 2, 3], [9]] },
          { record := { Offset := 7, Data := { addr := 0, len := 0 } }, mem := [[], [1, 2, 3], [9]] },
          { record := { Offset := 8, Data := { addr := 0, len := 0 } }, mem := [[], [1, 2, 3], [9]] }],
        none, [[], [1, 2, 3], [9]], Reader.ofBytes []) ∧
    RecordsMem (Reader.ofBytes (magic ++ [0, 0, 1, 0, 3, 1, 2, 3] ++ [0, 0, 5, 0, 1, 9]
          ++ [0, 0, 7, 0, 0, 0, 0, 4] ++ [0, 0, 8, 0, 0, 0, 0, 4] ++ eofMarker)) true retain []
      = some ([{ record := { Offset := 1, Data := { addr := 1, len := 3 } }, mem := [[], [1, 2, 3]] },
          { record := { Offset := 5, Data := { addr := 1, len := 1 } }, mem := [[], [9, 2, 3]] },
          { record := { Offset := 7, Data := { addr := 1, len := 0 } }, mem := [[], [9, 2, 3]] },
          { record := { Offset := 8, Data := { addr := 1, len := 0 } }, mem := [[], [9, 2, 3]] }],
        none, [[], [9, 2, 3]], Reader.ofBytes []) :=
  ⟨(Records_reuse_flag (Reader.ofBytes (magic ++ [0, 0, 1, 0, 3, 1, 2, 3] ++ [0, 0, 5, 0, 1, 9]
      ++ [0, 0, 7, 0, 0, 0, 0, 4] ++ [0, 0, 8, 0, 0, 0, 0, 4] ++ eofMarker))).2.1,
    by decide!, by decide!⟩

end Ips
